import Mathlib

/-!
# A verification of the `colander` cache core

This file embeds the cache core of the `colander` repository
(`crates/colander-cache/src`) in Lean: the arena-allocated intrusive
doubly-linked list (`arena.rs`), the three eviction policies SIEVE
(`sieve.rs`), LRU (`lru.rs`) and FIFO (`fifo.rs`), and the sharded wrapper
(`sharded.rs`), and proves the specification's invariants, termination and
scenario properties about them.

Modelling conventions:
  * Machine integers (`u32` slot indices, `u64` counters, `usize` lengths)
    are modelled as `Nat`.  Slot indices are bounded by the arena size in
    every reachable state; the sentinel is `NIL = 2^32 - 1`.  Theorems about
    states built from `Arena.new capacity` assume `capacity ≤ NIL`
    (capacities representable in the source's `u32` index space; `Arena::new`
    computes the free list from `0..capacity as u32`, which truncates
    mod `2^32`, and the model keeps that truncation).
  * Monotonic time (`Instant`) is a `Nat`; every operation that consults the
    clock takes the current instant `now` as an explicit argument.
    `CachedResponse::is_expired` (`inserted_at.elapsed() > ttl`) becomes
    `ttl < now - insertedAt` with truncated `Nat` subtraction, matching the
    monotonic clock.
  * `HashMap<String, u32>` is modelled as a function `String → Option Nat`
    with pointwise insert/remove.
  * Rust `Vec` used as a stack (`free_list`: push/pop at the back) is
    modelled as a `List` whose head is the stack top, so the source's
    initial vector `[cap-1, …, 1, 0]` becomes `List.range cap`.
  * `unwrap()` calls on slots that the surrounding code guarantees occupied
    (the documented arena invariants) are modelled as no-ops on the empty
    branch; every such branch is proved unreachable from `Arena.new` /
    `SieveCache.new` etc.  The one indexing panic that is reachable with an
    arbitrary argument — `Arena::remove`'s direct `self.slots[index]`
    indexing — is recorded separately by `Arena.removeOutOfBounds`.
  * The source's loops (`evict_one`'s scan, the `while len >= capacity`
    eviction loops) are given explicit fuel; the termination theorems show
    the fuel is never exhausted on reachable states.
-/

/-- Sentinel value indicating "no node" (`pub const NIL: u32 = u32::MAX`). -/
def NIL : Nat := 2 ^ 32 - 1

/-- `CachedResponse` from `traits.rs`: the cached HTTP response.  The body is
a byte string; `insertedAt` is a monotonic instant and `ttl` a duration,
both in abstract time units. -/
structure CachedResponse where
  status : Nat
  headers : List (String × String)
  body : String
  insertedAt : Nat
  ttl : Nat
deriving DecidableEq, Repr

/-- `CachedResponse::is_expired`: `self.inserted_at.elapsed() > self.ttl`,
where `elapsed()` is the (saturating) difference between the current
monotonic instant and `inserted_at`. -/
def CachedResponse.is_expired (now : Nat) (v : CachedResponse) : Bool :=
  v.ttl < now - v.insertedAt

/-- `Node` from `arena.rs`: one slot of the arena-allocated doubly-linked
list.  The `AtomicBool` visited bit is a plain `Bool` (the model is
sequential; the bit is only read/written under the shard lock or via the
relaxed atomic, which the spec treats as advisory). -/
structure Node where
  key : String
  value : CachedResponse
  visited : Bool
  prev : Nat
  next : Nat
deriving DecidableEq, Repr

/-- `Node::new`: fresh node, not visited, unlinked. -/
def Node.new (key : String) (value : CachedResponse) : Node :=
  { key := key, value := value, visited := false, prev := NIL, next := NIL }

/-- `Arena` from `arena.rs`: slots, free list (stack, top at the list head),
list endpoints and occupied count. -/
structure Arena where
  slots : List (Option Node)
  free_list : List Nat
  head : Nat
  tail : Nat
  len : Nat
deriving DecidableEq, Repr

/-- `Arena::new(capacity)`: all slots empty; the free list is the stack
`(0..capacity as u32).rev()` — with the stack top at our list head this is
`0, 1, …` — and the `usize → u32` cast truncates mod `2^32`. -/
def Arena.new (capacity : Nat) : Arena :=
  { slots := List.replicate capacity none
    free_list := List.range (capacity % 2 ^ 32)
    head := NIL
    tail := NIL
    len := 0 }

/-- `Arena::get`: `self.slots.get(index).and_then(|s| s.as_ref())`. -/
def Arena.get (a : Arena) (index : Nat) : Option Node :=
  (a.slots.get? index).join

/-- Helper for the source's in-place `self.slots[i].as_mut().unwrap().f = v`
updates: rewrite the node stored at an occupied slot.  When the slot is
empty the source would panic on the `unwrap`; all such call sites are
guarded by the arena invariants, and the model leaves the arena unchanged
on that (unreachable) branch. -/
def Arena.modifyNode (a : Arena) (index : Nat) (f : Node → Node) : Arena :=
  match a.get index with
  | some n => { a with slots := a.slots.set index (some (f n)) }
  | none => a

/-- `Arena::push_head`: pop a free slot, store the node there, link it in at
the head.  Returns the new index, or `none` (with the arena unchanged) when
the free list is empty. -/
def Arena.push_head (a : Arena) (node : Node) : Option (Arena × Nat) :=
  match a.free_list with
  | [] => none
  | index :: rest =>
    let node := { node with prev := NIL, next := a.head }
    let a1 := { a with slots := a.slots.set index (some node), free_list := rest }
    let a2 := if a1.head ≠ NIL then a1.modifyNode a1.head (fun h => { h with prev := index }) else a1
    some ({ a2 with
              head := index
              tail := if a2.tail = NIL then index else a2.tail
              len := a2.len + 1 }, index)

/-- `Arena::remove`: take the node out of its slot, unlink it from its
neighbours (updating `head`/`tail` at the endpoints), reclaim the slot on
the free list.  The source indexes `self.slots[index]` directly, which
panics when `index ≥ slots.len()` (see `Arena.removeOutOfBounds`); for
in-bounds indices an empty slot yields `none` with the arena unchanged. -/
def Arena.remove (a : Arena) (index : Nat) : Arena × Option Node :=
  match a.get index with
  | none => (a, none)
  | some node =>
    let a1 := { a with slots := a.slots.set index none }
    let a2 := if node.prev ≠ NIL then
                a1.modifyNode node.prev (fun p => { p with next := node.next })
              else { a1 with head := node.next }
    let a3 := if node.next ≠ NIL then
                a2.modifyNode node.next (fun q => { q with prev := node.prev })
              else { a2 with tail := node.prev }
    ({ a3 with free_list := index :: a3.free_list, len := a3.len - 1 }, some node)

/-- The condition under which the source's `Arena::remove` panics: it reads
`self.slots[index as usize]` with direct indexing, so any index at or
beyond `slots.len()` — in particular `NIL` on any arena of capacity
`≤ NIL` — is an out-of-bounds panic, not a graceful `None`. -/
def Arena.removeOutOfBounds (a : Arena) (index : Nat) : Bool :=
  a.slots.length ≤ index

/-- `Arena::move_to_head` (used by LRU): no-op when already head, otherwise
unlink and relink at the head, updating `tail` when the node was the tail. -/
def Arena.move_to_head (a : Arena) (index : Nat) : Arena :=
  if a.head = index then a
  else
    match a.get index with
    | none => a
    | some node =>
      let a1 := if node.prev ≠ NIL then
                  a.modifyNode node.prev (fun p => { p with next := node.next })
                else a
      let a2 := if node.next ≠ NIL then
                  a1.modifyNode node.next (fun q => { q with prev := node.prev })
                else { a1 with tail := node.prev }
      let a3 := a2.modifyNode index (fun n => { n with prev := NIL, next := a2.head })
      let a4 := if a3.head ≠ NIL then a3.modifyNode a3.head (fun h => { h with prev := index }) else a3
      { a4 with head := index }

/-- `Arena::pop_tail`: `remove(tail)` together with the removed index. -/
def Arena.pop_tail (a : Arena) : Arena × Option (Nat × Node) :=
  if a.tail = NIL then (a, none)
  else
    let index := a.tail
    match a.remove index with
    | (a', some node) => (a', some (index, node))
    | (a', none) => (a', none)

/-! ## The key map

`HashMap<String, u32>` modelled as a pointwise-updated function. -/

/-- The model of `HashMap<String, u32>`. -/
def KeyMap : Type := String → Option Nat

/-- The empty map (`HashMap::with_capacity` starts empty). -/
def KeyMap.empty : KeyMap := fun _ => none

/-- `HashMap::insert` (replacing any previous binding of the key). -/
def KeyMap.insert (m : KeyMap) (k : String) (i : Nat) : KeyMap :=
  fun k' => if k' = k then some i else m k'

/-- `HashMap::remove`. -/
def KeyMap.remove (m : KeyMap) (k : String) : KeyMap :=
  fun k' => if k' = k then none else m k'

/-! ## The SIEVE policy (`sieve.rs`) -/

/-- `SieveCache`: arena, key map, the roving eviction hand, capacity and the
three statistics counters. -/
structure SieveCache where
  arena : Arena
  map : KeyMap
  hand : Nat
  capacity : Nat
  hits : Nat
  misses : Nat
  evictions : Nat

/-- `SieveCache::new(capacity)`.  The source asserts `capacity > 0`; the
theorems below carry that precondition. -/
def SieveCache.new (capacity : Nat) : SieveCache :=
  { arena := Arena.new capacity
    map := KeyMap.empty
    hand := NIL
    capacity := capacity
    hits := 0
    misses := 0
    evictions := 0 }

/-- The body of `SieveCache::evict_one`'s scan loop, with explicit fuel.
Each iteration: wrap the hand to the tail when it is `NIL` (returning when
the cache is empty), then inspect the node under the hand — evict it when
expired, clear the visited bit and step the hand toward the head when
visited, evict it otherwise.  In every case the hand is rewritten to the
node's `prev` before the node is unlinked.  `none` means the fuel ran out
(proved unreachable on well-formed states in the termination theorem). -/
def SieveCache.evictLoop (now : Nat) : Nat → SieveCache → Option SieveCache
  | 0, _ => none
  | fuel + 1, c =>
    let c := if c.hand = NIL then { c with hand := c.arena.tail } else c
    if c.hand = NIL then some c
    else
      let index := c.hand
      match c.arena.get index with
      | none => some c
      | some node =>
        if node.value.is_expired now then
          let c := { c with hand := node.prev }
          let (a, _) := c.arena.remove index
          some { c with arena := a, map := c.map.remove node.key,
                        evictions := c.evictions + 1 }
        else if node.visited then
          SieveCache.evictLoop now fuel
            { c with arena := c.arena.modifyNode index (fun n => { n with visited := false })
                     hand := node.prev }
        else
          let c := { c with hand := node.prev }
          let (a, _) := c.arena.remove index
          some { c with arena := a, map := c.map.remove node.key,
                        evictions := c.evictions + 1 }

/-- `SieveCache::evict_one`.  The source's pre-loop `if hand == NIL { hand =
tail }` is subsumed by the identical check at the top of every loop
iteration.  Fuel `slots.length + 2` is enough on every well-formed state
(the termination theorem); on fuel exhaustion the model returns the state
unchanged. -/
def SieveCache.evict_one (now : Nat) (c : SieveCache) : SieveCache :=
  (SieveCache.evictLoop now (c.arena.slots.length + 2) c).getD c

/-- The `while self.arena.len() >= self.capacity { self.evict_one(); }` loop
of `SieveCache::insert`, with explicit fuel. -/
def SieveCache.evictWhile (now : Nat) : Nat → SieveCache → SieveCache
  | 0, c => c
  | fuel + 1, c =>
    if c.capacity ≤ c.arena.len then
      SieveCache.evictWhile now fuel (c.evict_one now)
    else c

/-- `SieveCache::get` (from `impl CachePolicy`): on a hit, bump `hits` and
set the visited bit only (no list mutation); on a present-but-expired
entry, bump `misses`, fix the hand if it aliases the node, and remove it;
on an absent key, bump `misses`. -/
def SieveCache.get (now : Nat) (key : String) (c : SieveCache) :
    SieveCache × Option CachedResponse :=
  match c.map key with
  | some index =>
    match c.arena.get index with
    | some node =>
      if node.value.is_expired now then
        let c := { c with misses := c.misses + 1, map := c.map.remove key }
        let c := if c.hand = index then { c with hand := node.prev } else c
        let (a, _) := c.arena.remove index
        ({ c with arena := a }, none)
      else
        let c := { c with hits := c.hits + 1
                          arena := c.arena.modifyNode index (fun n => { n with visited := true }) }
        (c, some node.value)
    | none => (c, none)
  | none => ({ c with misses := c.misses + 1 }, none)

/-- `SieveCache::insert`: replace an existing key (fixing the hand first),
evict while at capacity, then push the new node at the head. -/
def SieveCache.insert (now : Nat) (key : String) (value : CachedResponse)
    (c : SieveCache) : SieveCache :=
  let c :=
    match c.map key with
    | some old_index =>
      let c :=
        if c.hand = old_index then
          match c.arena.get old_index with
          | some node => { c with hand := node.prev }
          | none => c
        else c
      let (a, _) := c.arena.remove old_index
      { c with arena := a, map := c.map.remove key }
    | none => c
  let c := SieveCache.evictWhile now (c.arena.len + 1) c
  match c.arena.push_head (Node.new key value) with
  | some (a, index) => { c with arena := a, map := c.map.insert key index }
  | none => c

/-- `SieveCache::remove`: drop the map entry, fix the hand if it aliases
the node, unlink the node.  Returns whether the key was present. -/
def SieveCache.remove (key : String) (c : SieveCache) : SieveCache × Bool :=
  match c.map key with
  | some index =>
    let c := { c with map := c.map.remove key }
    let c :=
      if c.hand = index then
        match c.arena.get index with
        | some node => { c with hand := node.prev }
        | none => c
      else c
    let (a, _) := c.arena.remove index
    ({ c with arena := a }, true)
  | none => (c, false)

/-! ## The FIFO policy (`fifo.rs`) -/

/-- `FifoCache`: arena, key map, capacity, counters. -/
structure FifoCache where
  arena : Arena
  map : KeyMap
  capacity : Nat
  hits : Nat
  misses : Nat
  evictions : Nat

/-- `FifoCache::new(capacity)` (the source asserts `capacity > 0`). -/
def FifoCache.new (capacity : Nat) : FifoCache :=
  { arena := Arena.new capacity, map := KeyMap.empty, capacity := capacity
    hits := 0, misses := 0, evictions := 0 }

/-- `FifoCache::get`: no promotion on a hit; lazy expiry on a present-but-
expired entry; a miss otherwise. -/
def FifoCache.get (now : Nat) (key : String) (c : FifoCache) :
    FifoCache × Option CachedResponse :=
  match c.map key with
  | some index =>
    match c.arena.get index with
    | some node =>
      if node.value.is_expired now then
        let c := { c with misses := c.misses + 1, map := c.map.remove key }
        let (a, _) := c.arena.remove index
        ({ c with arena := a }, none)
      else
        ({ c with hits := c.hits + 1 }, some node.value)
    | none => (c, none)
  | none => ({ c with misses := c.misses + 1 }, none)

/-- The `while at capacity, pop the tail` loop shared by `FifoCache::insert`
and `LruCache::insert`, with explicit fuel, acting on an arena/map/eviction
counter triple.  The `else break` arm of the source corresponds to
`pop_tail` returning `none`. -/
def evictTailWhile : Nat → Arena × KeyMap × Nat → Nat → Arena × KeyMap × Nat
  | 0, s, _ => s
  | fuel + 1, (a, m, ev), capacity =>
    if capacity ≤ a.len then
      match a.pop_tail with
      | (a', some (_, node)) => evictTailWhile fuel (a', m.remove node.key, ev + 1) capacity
      | (a', none) => (a', m, ev)
    else (a, m, ev)

/-- `FifoCache::insert`: remove an existing binding, evict from the tail
while at capacity, push at the head. -/
def FifoCache.insert (key : String) (value : CachedResponse) (c : FifoCache) : FifoCache :=
  let c :=
    match c.map key with
    | some old_index =>
      let (a, _) := c.arena.remove old_index
      { c with arena := a, map := c.map.remove key }
    | none => c
  let (a, m, ev) := evictTailWhile (c.arena.len + 1) (c.arena, c.map, c.evictions) c.capacity
  let c := { c with arena := a, map := m, evictions := ev }
  match c.arena.push_head (Node.new key value) with
  | some (a, index) => { c with arena := a, map := c.map.insert key index }
  | none => c

/-- `FifoCache::remove`. -/
def FifoCache.remove (key : String) (c : FifoCache) : FifoCache × Bool :=
  match c.map key with
  | some index =>
    let c := { c with map := c.map.remove key }
    let (a, _) := c.arena.remove index
    ({ c with arena := a }, true)
  | none => (c, false)

/-! ## The LRU policy (`lru.rs`) -/

/-- `LruCache`: arena, key map, capacity, counters. -/
structure LruCache where
  arena : Arena
  map : KeyMap
  capacity : Nat
  hits : Nat
  misses : Nat
  evictions : Nat

/-- `LruCache::new(capacity)` (the source asserts `capacity > 0`). -/
def LruCache.new (capacity : Nat) : LruCache :=
  { arena := Arena.new capacity, map := KeyMap.empty, capacity := capacity
    hits := 0, misses := 0, evictions := 0 }

/-- `LruCache::get`: on a hit, move the node to the head and return its
value (re-read after the move, as in the source); lazy expiry and misses as
in FIFO. -/
def LruCache.get (now : Nat) (key : String) (c : LruCache) :
    LruCache × Option CachedResponse :=
  match c.map key with
  | some index =>
    match c.arena.get index with
    | some node =>
      if node.value.is_expired now then
        let c := { c with misses := c.misses + 1, map := c.map.remove key }
        let (a, _) := c.arena.remove index
        ({ c with arena := a }, none)
      else
        let c := { c with hits := c.hits + 1, arena := c.arena.move_to_head index }
        (c, (c.arena.get index).map Node.value)
    | none => (c, none)
  | none => ({ c with misses := c.misses + 1 }, none)

/-- `LruCache::insert`: identical to FIFO's insert (evict from the tail). -/
def LruCache.insert (key : String) (value : CachedResponse) (c : LruCache) : LruCache :=
  let c :=
    match c.map key with
    | some old_index =>
      let (a, _) := c.arena.remove old_index
      { c with arena := a, map := c.map.remove key }
    | none => c
  let (a, m, ev) := evictTailWhile (c.arena.len + 1) (c.arena, c.map, c.evictions) c.capacity
  let c := { c with arena := a, map := m, evictions := ev }
  match c.arena.push_head (Node.new key value) with
  | some (a, index) => { c with arena := a, map := c.map.insert key index }
  | none => c

/-- `LruCache::remove`. -/
def LruCache.remove (key : String) (c : LruCache) : LruCache × Bool :=
  match c.map key with
  | some index =>
    let c := { c with map := c.map.remove key }
    let (a, _) := c.arena.remove index
    ({ c with arena := a }, true)
  | none => (c, false)

/-! ## Operation sequences

Reachable states are the results of running an arbitrary sequence of
`get`/`insert`/`remove` operations from a freshly constructed cache. -/

/-- One policy operation, with the monotonic instant at which it runs. -/
inductive CacheOp where
  | get (now : Nat) (key : String)
  | insert (now : Nat) (key : String) (value : CachedResponse)
  | remove (key : String)

/-- Apply one operation to a `SieveCache`, discarding the returned value. -/
def SieveCache.step (c : SieveCache) (op : CacheOp) : SieveCache :=
  match op with
  | .get now k => (c.get now k).1
  | .insert now k v => c.insert now k v
  | .remove k => (c.remove k).1

/-- Run a sequence of operations on a `SieveCache`. -/
def SieveCache.run (c : SieveCache) (ops : List CacheOp) : SieveCache :=
  ops.foldl SieveCache.step c

/-- Apply one operation to a `FifoCache`. -/
def FifoCache.step (c : FifoCache) (op : CacheOp) : FifoCache :=
  match op with
  | .get now k => (c.get now k).1
  | .insert _ k v => c.insert k v
  | .remove k => (c.remove k).1

/-- Run a sequence of operations on a `FifoCache`. -/
def FifoCache.run (c : FifoCache) (ops : List CacheOp) : FifoCache :=
  ops.foldl FifoCache.step c

/-- Apply one operation to an `LruCache`. -/
def LruCache.step (c : LruCache) (op : CacheOp) : LruCache :=
  match op with
  | .get now k => (c.get now k).1
  | .insert _ k v => c.insert k v
  | .remove k => (c.remove k).1

/-- Run a sequence of operations on an `LruCache`. -/
def LruCache.run (c : LruCache) (ops : List CacheOp) : LruCache :=
  ops.foldl LruCache.step c

/-- One raw arena operation (the interface exercised by the policies). -/
inductive ArenaOp where
  | push (key : String) (value : CachedResponse)
  | remove (index : Nat)
  | moveToHead (index : Nat)
  | popTail

/-- Apply one arena operation.  A failed `push_head` leaves the arena
unchanged (the source returns `None`); `remove`/`move_to_head` on an
unoccupied slot leave it unchanged (the source returns `None`
respectively panics, and a panicking run observes no further states). -/
def Arena.step (a : Arena) (op : ArenaOp) : Arena :=
  match op with
  | .push k v =>
    match a.push_head (Node.new k v) with
    | some (a', _) => a'
    | none => a
  | .remove i => (a.remove i).1
  | .moveToHead i => a.move_to_head i
  | .popTail => (a.pop_tail).1

/-- Run a sequence of arena operations. -/
def Arena.run (a : Arena) (ops : List ArenaOp) : Arena :=
  ops.foldl Arena.step a

/-! ## The sharded wrapper (`sharded.rs`)

The per-shard `RwLock`s and the cached policy-name string are concurrency
plumbing with no bearing on the claims and are omitted from the model;
`shard_index` (the `ahash`-based key-to-shard map) is likewise outside the
claims. -/

/-- `const NUM_SHARDS: usize = 64`. -/
def NUM_SHARDS : Nat := 64

/-- `ShardedCache<T>`: the fixed array of 64 policy instances. -/
structure ShardedCache (T : Type) where
  shards : List T

/-- `ShardedCache::new(total_capacity, make_shard)`: per-shard capacity is
`(total_capacity / NUM_SHARDS).max(1)`, and the factory is invoked once per
shard. -/
def ShardedCache.new {T : Type} (total_capacity : Nat) (make_shard : Nat → T) :
    ShardedCache T :=
  let per_shard := max (total_capacity / NUM_SHARDS) 1
  { shards := (List.range NUM_SHARDS).map (fun _ => make_shard per_shard) }

/-- `ShardedCache::capacity`: the sum of the shards' `capacity()` values;
`cap` stands for the policy's `capacity` method. -/
def ShardedCache.capacity {T : Type} (cap : T → Nat) (s : ShardedCache T) : Nat :=
  (s.shards.map cap).sum

/-! ## Pointwise lemmas about arena slot access -/

theorem Arena.get_lt_length {a : Arena} {i : Nat} {n : Node} (h : a.get i = some n) :
    i < a.slots.length := by
  by_contra hlt
  simp [Arena.get, List.getElem?_eq_none (Nat.le_of_not_lt hlt)] at h

theorem Arena.get_modifyNode_ne (a : Arena) (i : Nat) (f : Node → Node) {j : Nat}
    (h : j ≠ i) : (a.modifyNode i f).get j = a.get j := by
  unfold Arena.modifyNode
  cases hg : a.get i with
  | none => rfl
  | some n => simp [Arena.get, List.getElem?_set_ne (Ne.symm h)]

theorem Arena.get_modifyNode_self (a : Arena) (i : Nat) (f : Node → Node) :
    (a.modifyNode i f).get i = (a.get i).map f := by
  unfold Arena.modifyNode
  cases hg : a.get i with
  | none => simp [hg]
  | some n =>
    have hlt : i < a.slots.length := Arena.get_lt_length hg
    simp [hg, Arena.get, List.getElem?_set_self hlt]

theorem Arena.modifyNode_slots_length (a : Arena) (i : Nat) (f : Node → Node) :
    (a.modifyNode i f).slots.length = a.slots.length := by
  unfold Arena.modifyNode
  cases a.get i <;> simp

theorem Arena.modifyNode_free_list (a : Arena) (i : Nat) (f : Node → Node) :
    (a.modifyNode i f).free_list = a.free_list := by
  unfold Arena.modifyNode
  cases a.get i <;> rfl

theorem Arena.modifyNode_head (a : Arena) (i : Nat) (f : Node → Node) :
    (a.modifyNode i f).head = a.head := by
  unfold Arena.modifyNode
  cases a.get i <;> rfl

theorem Arena.modifyNode_tail (a : Arena) (i : Nat) (f : Node → Node) :
    (a.modifyNode i f).tail = a.tail := by
  unfold Arena.modifyNode
  cases a.get i <;> rfl

theorem Arena.modifyNode_len (a : Arena) (i : Nat) (f : Node → Node) :
    (a.modifyNode i f).len = a.len := by
  unfold Arena.modifyNode
  cases a.get i <;> rfl

theorem Arena.get_set_ne (a : Arena) (i : Nat) (v : Option Node) {j : Nat} (h : j ≠ i) :
    (Arena.get { a with slots := a.slots.set i v } j) = a.get j := by
  simp [Arena.get, List.getElem?_set_ne (Ne.symm h)]

theorem Arena.get_set_self (a : Arena) {i : Nat} (v : Option Node) (h : i < a.slots.length) :
    (Arena.get { a with slots := a.slots.set i v } i) = v := by
  simp [Arena.get, List.getElem?_set_self h]

/-! ## The doubly-linked segment predicate -/

/-- `dlseg a p q ys`: the slots listed by `ys` form a consecutive segment of
the arena's doubly-linked list; the first node's `prev` is `p`, consecutive
nodes point at each other, and the last node's `next` is `q`. -/
def dlseg (a : Arena) : Nat → Nat → List Nat → Prop
  | _, _, [] => True
  | p, q, i :: rest =>
      ∃ n, a.get i = some n ∧ n.prev = p ∧ n.next = rest.headD q ∧ dlseg a i q rest

@[simp] theorem dlseg_nil (a : Arena) (p q : Nat) : dlseg a p q [] := trivial

theorem dlseg_cons (a : Arena) (p q i : Nat) (rest : List Nat) :
    dlseg a p q (i :: rest) ↔
      ∃ n, a.get i = some n ∧ n.prev = p ∧ n.next = rest.headD q ∧ dlseg a i q rest :=
  Iff.rfl

theorem dlseg_singleton (a : Arena) (p q i : Nat) :
    dlseg a p q [i] ↔ ∃ n, a.get i = some n ∧ n.prev = p ∧ n.next = q := by
  simp [dlseg]

theorem headD_append (l r : List Nat) (d : Nat) :
    (l ++ r).headD d = l.headD (r.headD d) := by
  cases l <;> simp

theorem dlseg_append (a : Arena) (p q : Nat) (l r : List Nat) :
    dlseg a p q (l ++ r) ↔
      dlseg a p (r.headD q) l ∧ dlseg a (l.getLastD p) q r := by
  induction l generalizing p with
  | nil => simp [dlseg]
  | cons i l' ih =>
    simp only [List.cons_append, dlseg_cons, List.getLastD_cons]
    constructor
    · rintro ⟨n, hn, hp, hnx, hseg⟩
      rw [ih] at hseg
      exact ⟨⟨n, hn, hp, by rwa [headD_append] at hnx, hseg.1⟩, hseg.2⟩
    · rintro ⟨⟨n, hn, hp, hnx, hseg₁⟩, hseg₂⟩
      exact ⟨n, hn, hp, by rw [headD_append]; exact hnx, (ih i).2 ⟨hseg₁, hseg₂⟩⟩

theorem dlseg_congr {a a' : Arena} {p q : Nat} {ys : List Nat}
    (hagree : ∀ i ∈ ys, a'.get i = a.get i) (h : dlseg a p q ys) : dlseg a' p q ys := by
  induction ys generalizing p with
  | nil => trivial
  | cons i rest ih =>
    obtain ⟨n, hn, hp, hnx, hseg⟩ := h
    exact ⟨n, by rw [hagree i (by simp)]; exact hn, hp, hnx,
      ih (fun j hj => hagree j (by simp [hj])) hseg⟩

theorem dlseg_occupied {a : Arena} {p q : Nat} {ys : List Nat}
    (h : dlseg a p q ys) : ∀ i ∈ ys, ∃ n, a.get i = some n := by
  induction ys generalizing p with
  | nil => simp
  | cons i rest ih =>
    obtain ⟨n, hn, _, _, hseg⟩ := h
    intro j hj
    rcases List.mem_cons.1 hj with rfl | hj
    · exact ⟨n, hn⟩
    · exact ih hseg j hj

/-! ## The arena invariant -/

/-- Well-formedness of an arena: `xs` lists the occupied slots in
head-to-tail order.  The occupied slots form a doubly-linked segment with
`NIL` at both open ends, `head`/`tail` are the segment's endpoints, every
occupied slot is listed, `len` counts the segment, the free list holds
exactly the empty slots, and all indices are within the `u32` range. -/
structure ArenaWF (a : Arena) (xs : List Nat) : Prop where
  nodup : xs.Nodup
  seg : dlseg a NIL NIL xs
  head_eq : a.head = xs.headD NIL
  tail_eq : a.tail = xs.getLastD NIL
  complete : ∀ j, (a.get j).isSome → j ∈ xs
  len_eq : a.len = xs.length
  size_le : a.slots.length ≤ NIL
  free_nodup : a.free_list.Nodup
  free_lt : ∀ f ∈ a.free_list, f < a.slots.length
  free_empty : ∀ f ∈ a.free_list, a.get f = none
  free_complete : ∀ j, j < a.slots.length → a.get j = none → j ∈ a.free_list

theorem ArenaWF.occupied {a : Arena} {xs : List Nat} (W : ArenaWF a xs) :
    ∀ i ∈ xs, ∃ n, a.get i = some n :=
  dlseg_occupied W.seg

theorem ArenaWF.mem_lt {a : Arena} {xs : List Nat} (W : ArenaWF a xs) :
    ∀ i ∈ xs, i < a.slots.length := by
  intro i hi
  obtain ⟨n, hn⟩ := W.occupied i hi
  exact Arena.get_lt_length hn

theorem ArenaWF.mem_ne_nil {a : Arena} {xs : List Nat} (W : ArenaWF a xs) :
    ∀ i ∈ xs, i ≠ NIL := by
  intro i hi
  exact Nat.ne_of_lt (Nat.lt_of_lt_of_le (W.mem_lt i hi) W.size_le)

theorem ArenaWF.get_isSome_iff {a : Arena} {xs : List Nat} (W : ArenaWF a xs) (j : Nat) :
    (a.get j).isSome ↔ j ∈ xs := by
  constructor
  · exact W.complete j
  · intro hj
    obtain ⟨n, hn⟩ := W.occupied j hj
    simp [hn]

/-- A fresh arena is well-formed with the empty occupancy list. -/
theorem ArenaWF.arena_new (capacity : Nat) (hcap : capacity ≤ NIL) :
    ArenaWF (Arena.new capacity) [] := by
  have hmod : capacity % 2 ^ 32 = capacity :=
    Nat.mod_eq_of_lt (Nat.lt_of_le_of_lt hcap (by simp [NIL]))
  have hget : ∀ j, (Arena.new capacity).get j = none := by
    intro j
    simp [Arena.new, Arena.get, List.getElem?_replicate]
  refine ⟨List.nodup_nil, trivial, rfl, rfl, ?_, rfl, by simpa [Arena.new] using hcap,
          ?_, ?_, ?_, ?_⟩
  · intro j hj
    simp [hget j] at hj
  · simp [Arena.new, hmod, List.nodup_range]
  · intro f hf
    simp only [Arena.new, hmod, List.mem_range] at hf
    simpa [Arena.new] using hf
  · intro f _
    exact hget f
  · intro j hj _
    simp only [Arena.new, List.length_replicate] at hj
    simp only [Arena.new, List.mem_range]
    omega

/-! ## Entry preservation (link fields may change, content may not) -/

/-- Two optional slot contents that agree on occupancy, key, value and
visited bit (only the `prev`/`next` link fields may differ). -/
def sameEntry : Option Node → Option Node → Prop
  | none, none => True
  | some n, some m => m.key = n.key ∧ m.value = n.value ∧ m.visited = n.visited
  | _, _ => False

theorem sameEntry.refl (o : Option Node) : sameEntry o o := by
  cases o <;> simp [sameEntry]


theorem sameEntry_of_eq {o o' : Option Node} (h : o' = o) : sameEntry o o' := by
  rw [h]; exact sameEntry.refl o

theorem sameEntry.isSome {o o' : Option Node} (h : sameEntry o o') :
    o'.isSome = o.isSome := by
  cases o <;> cases o' <;> simp_all [sameEntry]

theorem sameEntry.key {o o' : Option Node} (h : sameEntry o o') :
    o'.map Node.key = o.map Node.key := by
  cases o <;> cases o' <;> simp_all [sameEntry]

theorem sameEntry.visited {o o' : Option Node} (h : sameEntry o o') :
    o'.map Node.visited = o.map Node.visited := by
  cases o <;> cases o' <;> simp_all [sameEntry]

theorem sameEntry.value {o o' : Option Node} (h : sameEntry o o') :
    o'.map Node.value = o.map Node.value := by
  cases o <;> cases o' <;> simp_all [sameEntry]

theorem sameEntry.trans {o o' o'' : Option Node}
    (h1 : sameEntry o o') (h2 : sameEntry o' o'') : sameEntry o o'' := by
  cases o <;> cases o' <;> cases o'' <;> simp_all [sameEntry]

/-- Helper: the `getLastD` default is irrelevant on a cons cell. -/
theorem getLastD_cons_irrel (x d d' : Nat) (l : List Nat) :
    (x :: l).getLastD d = (x :: l).getLastD d' := by
  rw [List.getLastD_cons d x l, List.getLastD_cons d' x l]

/-- `Arena.get` only reads the slot vector. -/
theorem Arena.get_congr_slots {a b : Arena} (h : b.slots = a.slots) (j : Nat) :
    b.get j = a.get j := by simp [Arena.get, h]

theorem Arena.get_slots_set_self {a b : Arena} {i : Nat} {v : Option Node}
    (h : b.slots = a.slots.set i v) (hlt : i < a.slots.length) : b.get i = v := by
  simp [Arena.get, h, List.getElem?_set_self hlt]

theorem Arena.get_slots_set_ne {a b : Arena} {i : Nat} {v : Option Node}
    (h : b.slots = a.slots.set i v) {j : Nat} (hj : j ≠ i) : b.get j = a.get j := by
  simp [Arena.get, h, List.getElem?_set_ne (Ne.symm hj)]

/-! ## `push_head` preserves the invariant -/

theorem Arena.push_head_spec {a : Arena} {xs : List Nat} (W : ArenaWF a xs)
    {f : Nat} {rest : List Nat} (hfree : a.free_list = f :: rest) (node : Node) :
    ∃ a', a.push_head node = some (a', f) ∧
      ArenaWF a' (f :: xs) ∧
      a'.get f = some { node with prev := NIL, next := a.head } ∧
      (∀ j, j ≠ f → sameEntry (a.get j) (a'.get j)) ∧
      a'.len = a.len + 1 ∧
      a'.slots.length = a.slots.length ∧
      a'.free_list = rest ∧
      a'.head = f := by
  have hf_mem : f ∈ a.free_list := by simp [hfree]
  have hf_lt : f < a.slots.length := W.free_lt f hf_mem
  have hf_empty : a.get f = none := W.free_empty f hf_mem
  have hf_not_mem : f ∉ xs := by
    intro hmem
    obtain ⟨n, hn⟩ := W.occupied f hmem
    rw [hf_empty] at hn; cases hn
  have hfree_nodup := W.free_nodup
  rw [hfree, List.nodup_cons] at hfree_nodup
  -- a1: the new node written into the popped free slot
  set a1 : Arena := { a with
      slots := a.slots.set f (some { node with prev := NIL, next := a.head }),
      free_list := rest } with ha1
  have ha1_get_f : a1.get f = some { node with prev := NIL, next := a.head } :=
    Arena.get_slots_set_self rfl hf_lt
  have ha1_get_ne : ∀ j, j ≠ f → a1.get j = a.get j := fun j hj =>
    Arena.get_slots_set_ne rfl hj
  have ha1_size : a1.slots.length = a.slots.length := by
    show (a.slots.set f _).length = a.slots.length
    simp
  cases hxs : xs with
  | nil =>
    have hhead : a.head = NIL := by rw [W.head_eq, hxs]; rfl
    have htail : a.tail = NIL := by rw [W.tail_eq, hxs]; rfl
    set aN : Arena := { a1 with head := f, tail := f, len := a1.len + 1 } with haN
    have hgN : ∀ j, aN.get j = a1.get j := fun j => Arena.get_congr_slots rfl j
    have hget_f : aN.get f = some { node with prev := NIL, next := a.head } := by
      rw [hgN]; exact ha1_get_f
    have hget_ne : ∀ j, j ≠ f → aN.get j = a.get j := fun j hj => by
      rw [hgN]; exact ha1_get_ne j hj
    refine ⟨aN, ?_, ?_, hget_f, ?_, ?_, ?_, ?_, ?_⟩
    · simp only [Arena.push_head, hfree]
      rw [← ha1]
      rw [if_neg (show ¬¬a1.head = NIL from not_not_intro (hhead : a1.head = NIL))]
      rw [if_pos (htail : a1.tail = NIL)]
    · refine ⟨by simp, ?_, rfl, rfl, ?_, ?_, ?_, ?_, ?_, ?_, ?_⟩
      · rw [dlseg_singleton]
        exact ⟨_, hget_f, rfl, hhead⟩
      · intro j hj
        by_cases hjf : j = f
        · simp [hjf]
        · rw [hget_ne j hjf] at hj
          exact absurd ((W.get_isSome_iff j).1 hj) (by simp [hxs])
      · show a1.len + 1 = 1
        have : a.len = 0 := by rw [W.len_eq, hxs]; rfl
        rw [show a1.len = a.len from rfl, this]
      · show a1.slots.length ≤ NIL
        rw [ha1_size]; exact W.size_le
      · exact hfree_nodup.2
      · intro g hg
        rw [show aN.slots = a1.slots from rfl, ha1_size]
        exact W.free_lt g (by simp [hfree, hg])
      · intro g hg
        have hgf : g ≠ f := fun h => hfree_nodup.1 (h ▸ hg)
        rw [hget_ne g hgf]
        exact W.free_empty g (by simp [hfree, hg])
      · intro j hj hnone
        rw [show aN.slots = a1.slots from rfl, ha1_size] at hj
        by_cases hjf : j = f
        · rw [hjf, hget_f] at hnone; cases hnone
        · rw [hget_ne j hjf] at hnone
          have := W.free_complete j hj hnone
          rw [hfree] at this
          exact (List.mem_cons.1 this).resolve_left hjf
    · intro j hj
      exact sameEntry_of_eq (hget_ne j hj)
    · show a1.len + 1 = a.len + 1
      rw [show a1.len = a.len from rfl]
    · show a1.slots.length = a.slots.length
      exact ha1_size
    · rfl
    · rfl
  | cons h t =>
    have hnodup := W.nodup
    rw [hxs, List.nodup_cons] at hnodup
    have hh_mem : h ∈ xs := by simp [hxs]
    have hhead : a.head = h := by rw [W.head_eq, hxs]; rfl
    have hh_ne_nil : h ≠ NIL := W.mem_ne_nil h hh_mem
    have hh_ne_f : h ≠ f := fun he => hf_not_mem (he ▸ hh_mem)
    have hseg := W.seg
    rw [hxs] at hseg
    obtain ⟨nh, hnh, hnh_prev, hnh_next, hseg_t⟩ := hseg
    have htail_eq : a.tail = t.getLastD h := by
      rw [W.tail_eq, hxs, List.getLastD_cons]
    have htail_mem : a.tail ∈ xs := by
      rw [htail_eq, hxs]
      exact List.getLastD_mem_cons t h
    have htail_ne : a.tail ≠ NIL := W.mem_ne_nil _ htail_mem
    -- a2: the old head's prev pointer updated
    set a2 : Arena := a1.modifyNode h (fun hn => { hn with prev := f }) with ha2
    have ha2_get_h : a2.get h = some { nh with prev := f } := by
      rw [ha2, Arena.get_modifyNode_self, ha1_get_ne h hh_ne_f, hnh]; rfl
    have ha2_get_f : a2.get f = some { node with prev := NIL, next := a.head } := by
      rw [ha2, Arena.get_modifyNode_ne a1 h _ (Ne.symm hh_ne_f)]; exact ha1_get_f
    have ha2_get_ne : ∀ j, j ≠ f → j ≠ h → a2.get j = a.get j := fun j hjf hjh => by
      rw [ha2, Arena.get_modifyNode_ne a1 h _ hjh, ha1_get_ne j hjf]
    have ha2_entry : ∀ j, j ≠ f → sameEntry (a.get j) (a2.get j) := by
      intro j hjf
      by_cases hjh : j = h
      · subst hjh; rw [ha2_get_h, hnh]; simp [sameEntry]
      · exact sameEntry_of_eq (ha2_get_ne j hjf hjh)
    have ha2_len : a2.len = a.len := by rw [ha2, Arena.modifyNode_len]
    have ha2_size : a2.slots.length = a.slots.length := by
      rw [ha2, Arena.modifyNode_slots_length]; exact ha1_size
    have ha2_free : a2.free_list = rest := by rw [ha2, Arena.modifyNode_free_list]
    have ha2_tail : a2.tail = a.tail := by rw [ha2, Arena.modifyNode_tail]
    set aN : Arena := { a2 with head := f, tail := a2.tail, len := a2.len + 1 } with haN
    have hgN : ∀ j, aN.get j = a2.get j := fun j => Arena.get_congr_slots rfl j
    refine ⟨aN, ?_, ?_, ?_, ?_, ?_, ?_, ?_, ?_⟩
    · simp only [Arena.push_head, hfree]
      rw [← ha1]
      rw [if_pos (show ¬a1.head = NIL from (hhead : a1.head = h) ▸ hh_ne_nil)]
      rw [show a1.head = h from hhead]
      rw [← ha2]
      rw [if_neg (show ¬a2.tail = NIL from ha2_tail ▸ htail_ne)]
    · refine ⟨?_, ?_, rfl, ?_, ?_, ?_, ?_, ?_, ?_, ?_, ?_⟩
      · refine List.nodup_cons.2 ⟨?_, ?_⟩
        · rw [← hxs]; exact hf_not_mem
        · rw [← hxs]; exact W.nodup
      · refine ⟨_, by rw [hgN]; exact ha2_get_f, rfl, by simpa using hhead, ?_⟩
        refine ⟨{ nh with prev := f }, by rw [hgN]; exact ha2_get_h, rfl,
          by simpa using hnh_next, ?_⟩
        refine dlseg_congr (fun j hj => ?_) hseg_t
        have hjt : j ∈ xs := by simp [hxs, hj]
        have hjf : j ≠ f := fun he => hf_not_mem (he ▸ hjt)
        have hjh : j ≠ h := fun he => hnodup.1 (he ▸ hj)
        rw [hgN]
        exact ha2_get_ne j hjf hjh
      · show a2.tail = (f :: h :: t).getLastD NIL
        rw [ha2_tail, htail_eq, List.getLastD_cons, List.getLastD_cons]
      · intro j hj
        rw [hgN] at hj
        by_cases hjf : j = f
        · simp [hjf]
        · have : (a.get j).isSome := by
            rw [← (ha2_entry j hjf).isSome]
            exact hj
          rw [← hxs]
          exact List.mem_cons_of_mem f (W.complete j this)
      · show a2.len + 1 = (f :: h :: t).length
        rw [ha2_len, W.len_eq, hxs]
        simp
      · show a2.slots.length ≤ NIL
        rw [ha2_size]
        exact W.size_le
      · show a2.free_list.Nodup
        rw [ha2_free]
        exact hfree_nodup.2
      · intro g hg
        rw [show aN.free_list = a2.free_list from rfl, ha2_free] at hg
        rw [show aN.slots = a2.slots from rfl, ha2_size]
        exact W.free_lt g (by simp [hfree, hg])
      · intro g hg
        rw [show aN.free_list = a2.free_list from rfl, ha2_free] at hg
        have hgf : g ≠ f := fun he => hfree_nodup.1 (he ▸ hg)
        have hg_empty : a.get g = none := W.free_empty g (by simp [hfree, hg])
        have hgh : g ≠ h := fun he => by rw [he, hnh] at hg_empty; cases hg_empty
        rw [hgN, ha2_get_ne g hgf hgh]
        exact hg_empty
      · intro j hj hnone
        rw [hgN] at hnone
        rw [show aN.slots = a2.slots from rfl, ha2_size] at hj
        rw [show aN.free_list = a2.free_list from rfl, ha2_free]
        by_cases hjf : j = f
        · rw [hjf, ha2_get_f] at hnone; cases hnone
        · have hempty : a.get j = none := by
            have hse := ha2_entry j hjf
            cases hget : a.get j with
            | none => rfl
            | some m => rw [hget, hnone] at hse; cases hse
          have := W.free_complete j hj hempty
          rw [hfree] at this
          exact (List.mem_cons.1 this).resolve_left hjf
    · rw [hgN]; exact ha2_get_f
    · intro j hj
      exact (ha2_entry j hj).trans (sameEntry_of_eq (hgN j).symm)
    · show a2.len + 1 = a.len + 1
      rw [ha2_len]
    · show a2.slots.length = a.slots.length
      exact ha2_size
    · show a2.free_list = rest
      exact ha2_free
    · rfl

/-! ## `remove` preserves the invariant -/

theorem headD_irrel {l : List Nat} (h : l ≠ []) (d d' : Nat) : l.headD d = l.headD d' := by
  cases l with
  | nil => exact absurd rfl h
  | cons x t => rfl

theorem getLastD_append (u v : List Nat) (d : Nat) :
    (u ++ v).getLastD d = v.getLastD (u.getLastD d) := by
  induction u generalizing d with
  | nil => rfl
  | cons x u ih =>
    rw [List.cons_append, List.getLastD_cons d x (u ++ v), ih x, List.getLastD_cons d x u]

theorem getLastD_irrel {l : List Nat} (h : l ≠ []) (d d' : Nat) :
    l.getLastD d = l.getLastD d' := by
  cases l with
  | nil => exact absurd rfl h
  | cons x t => exact getLastD_cons_irrel x d d' t

theorem Option.eq_none_of_isSome_eq_false {o : Option Node} (h : o.isSome = false) :
    o = none := by cases o <;> simp_all

/-- Reassemble the arena invariant after removing `index` from the occupancy
list, given the segment structure of the result and pointwise facts about
the new arena. -/
theorem ArenaWF.rebuild {a aN : Arena} {l r : List Nat} {index : Nat}
    (W : ArenaWF a (l ++ index :: r))
    (hseg : dlseg aN NIL NIL (l ++ r))
    (hhead : aN.head = (l ++ r).headD NIL)
    (htail : aN.tail = (l ++ r).getLastD NIL)
    (hidx : aN.get index = none)
    (hentry : ∀ j, j ≠ index → sameEntry (a.get j) (aN.get j))
    (hlen : aN.len = a.len - 1)
    (hsize : aN.slots.length = a.slots.length)
    (hfree : aN.free_list = index :: a.free_list) :
    ArenaWF aN (l ++ r) := by
  have hmem : index ∈ l ++ index :: r := by simp
  obtain ⟨node, hnode⟩ := W.occupied index hmem
  have hidx_lt : index < a.slots.length := Arena.get_lt_length hnode
  have hidx_not_free : index ∉ a.free_list := by
    intro hf
    rw [W.free_empty index hf] at hnode; cases hnode
  refine ⟨?_, hseg, hhead, htail, ?_, ?_, ?_, ?_, ?_, ?_, ?_⟩
  · exact (List.Sublist.append_left (List.sublist_cons_self index r) l).nodup W.nodup
  · intro j hj
    have hjne : j ≠ index := by
      intro he; rw [he, hidx] at hj; cases hj
    have : (a.get j).isSome := by rw [← (hentry j hjne).isSome]; exact hj
    have := W.complete j this
    rcases List.mem_append.1 this with hl | hir
    · exact List.mem_append.2 (Or.inl hl)
    · exact List.mem_append.2 (Or.inr ((List.mem_cons.1 hir).resolve_left hjne))
  · rw [hlen, W.len_eq]
    simp only [List.length_append, List.length_cons]
    omega
  · rw [hsize]; exact W.size_le
  · rw [hfree]
    exact List.nodup_cons.2 ⟨hidx_not_free, W.free_nodup⟩
  · intro g hg
    rw [hfree] at hg
    rw [hsize]
    rcases List.mem_cons.1 hg with rfl | hg
    · exact hidx_lt
    · exact W.free_lt g hg
  · intro g hg
    rw [hfree] at hg
    rcases List.mem_cons.1 hg with rfl | hg
    · exact hidx
    · have hne : g ≠ index := fun he => hidx_not_free (he ▸ hg)
      have : (aN.get g).isSome = (a.get g).isSome := (hentry g hne).isSome
      rw [W.free_empty g hg] at this
      exact Option.eq_none_of_isSome_eq_false (by simpa using this)
  · intro j hj hnone
    rw [hfree]
    by_cases hjne : j = index
    · simp [hjne]
    · have : (aN.get j).isSome = (a.get j).isSome := (hentry j hjne).isSome
      rw [hnone] at this
      have : a.get j = none := Option.eq_none_of_isSome_eq_false (by simpa using this.symm)
      exact List.mem_cons_of_mem index (W.free_complete j (by rwa [hsize] at hj) this)

theorem Arena.remove_spec {a : Arena} {l r : List Nat} {index : Nat}
    (W : ArenaWF a (l ++ index :: r)) :
    ∃ node aN,
      a.get index = some node ∧
      a.remove index = (aN, some node) ∧
      node.prev = l.getLastD NIL ∧
      node.next = r.headD NIL ∧
      ArenaWF aN (l ++ r) ∧
      aN.get index = none ∧
      (∀ j, j ≠ index → sameEntry (a.get j) (aN.get j)) ∧
      aN.len = a.len - 1 ∧
      aN.slots.length = a.slots.length ∧
      aN.free_list = index :: a.free_list := by
  have hmem : index ∈ l ++ index :: r := by simp
  have hnd := W.nodup
  rw [List.nodup_append] at hnd
  obtain ⟨hnd_l, hnd_ir, hdisj⟩ := hnd
  obtain ⟨hidx_r, hnd_r⟩ := List.nodup_cons.1 hnd_ir
  have hidx_l : index ∉ l := fun h => hdisj h (by simp)
  have hseg0 := W.seg
  rw [dlseg_append, List.headD_cons] at hseg0
  obtain ⟨hsegL, node, hnode, hprev, hnext, hseg_r⟩ := hseg0
  have hidx_lt : index < a.slots.length := Arena.get_lt_length hnode
  set a1 : Arena := { a with slots := a.slots.set index none } with ha1
  have ha1_get_idx : a1.get index = none := Arena.get_slots_set_self rfl hidx_lt
  have ha1_get_ne : ∀ j, j ≠ index → a1.get j = a.get j := fun j hj =>
    Arena.get_slots_set_ne rfl hj
  have ha1_size : a1.slots.length = a.slots.length := by
    show (a.slots.set index none).length = a.slots.length
    simp
  rcases List.eq_nil_or_concat l with rfl | ⟨l', p, hl⟩
  · -- the removed node is the head
    have hprev' : node.prev = NIL := by simpa using hprev
    set a2 : Arena := { a1 with head := node.next } with ha2
    have ha2_get_idx : a2.get index = none := ha1_get_idx
    have ha2_get_ne : ∀ j, j ≠ index → a2.get j = a.get j := ha1_get_ne
    cases r with
    | nil =>
      have hnext' : node.next = NIL := by simpa using hnext
      set a3 : Arena := { a2 with tail := node.prev } with ha3
      set aN : Arena := { a3 with free_list := index :: a3.free_list, len := a3.len - 1 }
        with haN
      have hgN : ∀ j, aN.get j = a2.get j := fun j => Arena.get_congr_slots rfl j
      have hentry : ∀ j, j ≠ index → sameEntry (a.get j) (aN.get j) := fun j hj => by
        rw [hgN]; exact sameEntry_of_eq (ha2_get_ne j hj)
      refine ⟨node, aN, hnode, ?_, hprev, hnext, ?_, by rw [hgN]; exact ha2_get_idx,
        hentry, ?_, ?_, ?_⟩
      · simp only [Arena.remove, hnode]
        rw [if_neg (not_not_intro hprev'), if_neg (not_not_intro hnext')]
      · refine ArenaWF.rebuild W (by simp) ?_ ?_ (by rw [hgN]; exact ha2_get_idx) hentry
          rfl ha1_size rfl
        · show node.next = ([] ++ ([] : List Nat)).headD NIL
          simpa using hnext'
        · show node.prev = ([] ++ ([] : List Nat)).getLastD NIL
          simpa using hprev'
      · rfl
      · exact ha1_size
      · rfl
    | cons q r' =>
      have hq : node.next = q := by simpa using hnext
      obtain ⟨nq, hnq, hnq_prev, hnq_next, hseg_r'⟩ := hseg_r
      have hq_mem : q ∈ [] ++ index :: q :: r' := by simp
      have hq_ne_idx : q ≠ index := fun he => hidx_r (by simp [← he])
      have hq_ne_nil : q ≠ NIL := W.mem_ne_nil q hq_mem
      have hq_not_r' : q ∉ r' := (List.nodup_cons.1 hnd_r).1
      set a3 : Arena := a2.modifyNode node.next (fun m => { m with prev := node.prev })
        with ha3
      have ha3_get_q : a3.get q = some { nq with prev := node.prev } := by
        have h1 : a3.get node.next
            = (a2.get node.next).map (fun m => { m with prev := node.prev }) := by
          rw [ha3]; exact Arena.get_modifyNode_self a2 node.next _
        rw [hq] at h1
        rw [h1, ha2_get_ne q hq_ne_idx, hnq]
        rfl
      have ha3_get_idx : a3.get index = none := by
        have h1 : a3.get index = a2.get index := by
          rw [ha3]
          exact Arena.get_modifyNode_ne a2 node.next _ (by rw [hq]; exact Ne.symm hq_ne_idx)
        rw [h1]; exact ha2_get_idx
      have ha3_get_ne : ∀ j, j ≠ index → j ≠ q → a3.get j = a.get j := by
        intro j hji hjq
        have h1 : a3.get j = a2.get j := by
          rw [ha3]
          exact Arena.get_modifyNode_ne a2 node.next _ (by rw [hq]; exact hjq)
        rw [h1, ha2_get_ne j hji]
      set aN : Arena := { a3 with free_list := index :: a3.free_list, len := a3.len - 1 }
        with haN
      have hgN : ∀ j, aN.get j = a3.get j := fun j => Arena.get_congr_slots rfl j
      have hentry : ∀ j, j ≠ index → sameEntry (a.get j) (aN.get j) := by
        intro j hj
        rw [hgN]
        by_cases hjq : j = q
        · subst hjq; rw [ha3_get_q, hnq]; simp [sameEntry]
        · exact sameEntry_of_eq (ha3_get_ne j hj hjq)
      have haN_size : aN.slots.length = a.slots.length := by
        rw [show aN.slots = a3.slots from rfl, ha3, Arena.modifyNode_slots_length]
        exact ha1_size
      have haN_len : aN.len = a.len - 1 := by
        rw [show aN.len = a3.len - 1 from rfl, ha3, Arena.modifyNode_len]
      have haN_free : aN.free_list = index :: a.free_list := by
        rw [show aN.free_list = index :: a3.free_list from rfl, ha3,
            Arena.modifyNode_free_list]
      have haN_head : aN.head = node.next := by
        rw [show aN.head = a3.head from rfl, ha3, Arena.modifyNode_head]
      have haN_tail : aN.tail = a.tail := by
        rw [show aN.tail = a3.tail from rfl, ha3, Arena.modifyNode_tail]
      refine ⟨node, aN, hnode, ?_, hprev, hnext, ?_, by rw [hgN]; exact ha3_get_idx,
        hentry, haN_len, haN_size, haN_free⟩
      · simp only [Arena.remove, hnode]
        rw [if_neg (not_not_intro hprev'),
            if_pos (show node.next ≠ NIL from by rw [hq]; exact hq_ne_nil)]
      · refine ArenaWF.rebuild W ?_ ?_ ?_ (by rw [hgN]; exact ha3_get_idx) hentry
          haN_len haN_size haN_free
        · show dlseg aN NIL NIL ([] ++ q :: r')
          refine ⟨{ nq with prev := node.prev }, by rw [hgN]; exact ha3_get_q,
            by simpa using hprev', by simpa using hnq_next, ?_⟩
          refine dlseg_congr (fun j hj => ?_) hseg_r'
          have hji : j ≠ index := fun he => hidx_r (by simp [← he, hj])
          have hjq : j ≠ q := fun he => hq_not_r' (he ▸ hj)
          rw [hgN]
          exact ha3_get_ne j hji hjq
        · rw [haN_head, hq]; rfl
        · rw [haN_tail, W.tail_eq]
          simp only [List.nil_append, List.getLastD_cons]
  · -- the removed node has a predecessor p
    rw [List.concat_eq_append] at hl
    subst hl
    have hp : node.prev = p := by rw [hprev, List.getLastD_concat]
    have hp_mem : p ∈ (l' ++ [p]) ++ index :: r := by simp
    have hp_ne_idx : p ≠ index := fun he => hidx_l (by simp [he])
    have hp_ne_nil : p ≠ NIL := W.mem_ne_nil p hp_mem
    have hndl := hnd_l
    rw [List.nodup_append] at hndl
    obtain ⟨hnd_l', _, hdisj_l'p⟩ := hndl
    have hp_not_l' : p ∉ l' := fun h => hdisj_l'p h (by simp)
    rw [dlseg_append, List.headD_cons] at hsegL
    obtain ⟨hsegL1, hsegL2⟩ := hsegL
    rw [dlseg_singleton] at hsegL2
    obtain ⟨np, hnp, hnp_prev, hnp_next⟩ := hsegL2
    set a2 : Arena := a1.modifyNode node.prev (fun m => { m with next := node.next })
      with ha2
    have ha2_get_p : a2.get p = some { np with next := node.next } := by
      have h1 : a2.get node.prev
          = (a1.get node.prev).map (fun m => { m with next := node.next }) := by
        rw [ha2]; exact Arena.get_modifyNode_self a1 node.prev _
      rw [hp] at h1
      rw [h1, ha1_get_ne p hp_ne_idx, hnp]
      rfl
    have ha2_get_idx : a2.get index = none := by
      have h1 : a2.get index = a1.get index := by
        rw [ha2]
        exact Arena.get_modifyNode_ne a1 node.prev _ (by rw [hp]; exact Ne.symm hp_ne_idx)
      rw [h1]; exact ha1_get_idx
    have ha2_get_ne : ∀ j, j ≠ index → j ≠ p → a2.get j = a.get j := by
      intro j hji hjp
      have h1 : a2.get j = a1.get j := by
        rw [ha2]
        exact Arena.get_modifyNode_ne a1 node.prev _ (by rw [hp]; exact hjp)
      rw [h1, ha1_get_ne j hji]
    have hframeL : ∀ j ∈ l', a2.get j = a.get j := by
      intro j hj
      have hji : j ≠ index := fun he => hidx_l (he ▸ List.mem_append.2 (Or.inl hj))
      have hjp : j ≠ p := fun he => hp_not_l' (he ▸ hj)
      exact ha2_get_ne j hji hjp
    cases r with
    | nil =>
      have hnext' : node.next = NIL := by simpa using hnext
      set a3 : Arena := { a2 with tail := node.prev } with ha3
      set aN : Arena := { a3 with free_list := index :: a3.free_list, len := a3.len - 1 }
        with haN
      have hgN : ∀ j, aN.get j = a2.get j := fun j => Arena.get_congr_slots rfl j
      have hentry : ∀ j, j ≠ index → sameEntry (a.get j) (aN.get j) := by
        intro j hj
        rw [hgN]
        by_cases hjp : j = p
        · subst hjp; rw [ha2_get_p, hnp]; simp [sameEntry]
        · exact sameEntry_of_eq (ha2_get_ne j hj hjp)
      have haN_size : aN.slots.length = a.slots.length := by
        rw [show aN.slots = a2.slots from rfl, ha2, Arena.modifyNode_slots_length]
        exact ha1_size
      have haN_len : aN.len = a.len - 1 := by
        rw [show aN.len = a2.len - 1 from rfl, ha2, Arena.modifyNode_len]
      have haN_free : aN.free_list = index :: a.free_list := by
        rw [show aN.free_list = index :: a2.free_list from rfl, ha2,
            Arena.modifyNode_free_list]
      have haN_head : aN.head = a.head := by
        rw [show aN.head = a2.head from rfl, ha2, Arena.modifyNode_head]
      have haN_tail : aN.tail = node.prev := rfl
      refine ⟨node, aN, hnode, ?_, hprev, hnext, ?_, by rw [hgN]; exact ha2_get_idx,
        hentry, haN_len, haN_size, haN_free⟩
      · simp only [Arena.remove, hnode]
        rw [if_pos (show node.prev ≠ NIL from by rw [hp]; exact hp_ne_nil),
            if_neg (not_not_intro hnext')]
      · refine ArenaWF.rebuild W ?_ ?_ ?_ (by rw [hgN]; exact ha2_get_idx) hentry
          haN_len haN_size haN_free
        · show dlseg aN NIL NIL ((l' ++ [p]) ++ [])
          rw [List.append_nil, dlseg_append, List.headD_cons, dlseg_singleton]
          refine ⟨dlseg_congr (fun j hj => by rw [hgN]; exact hframeL j hj) hsegL1,
            { np with next := node.next }, by rw [hgN]; exact ha2_get_p, hnp_prev, hnext'⟩
        · rw [haN_head, W.head_eq]
          simp only [List.append_nil, headD_append, List.headD_cons]
        · rw [haN_tail, hp, List.append_nil, List.getLastD_concat]
    | cons q r' =>
      have hq : node.next = q := by simpa using hnext
      obtain ⟨nq, hnq, hnq_prev, hnq_next, hseg_r'⟩ := hseg_r
      have hq_mem : q ∈ (l' ++ [p]) ++ index :: q :: r' := by simp
      have hq_ne_idx : q ≠ index := fun he => hidx_r (by simp [← he])
      have hq_ne_nil : q ≠ NIL := W.mem_ne_nil q hq_mem
      have hq_not_r' : q ∉ r' := (List.nodup_cons.1 hnd_r).1
      have hq_ne_p : q ≠ p := by
        intro he
        exact hdisj (by simp : p ∈ l' ++ [p]) (by rw [← he]; simp)
      set a3 : Arena := a2.modifyNode node.next (fun m => { m with prev := node.prev })
        with ha3
      have ha3_get_q : a3.get q = some { nq with prev := node.prev } := by
        have h1 : a3.get node.next
            = (a2.get node.next).map (fun m => { m with prev := node.prev }) := by
          rw [ha3]; exact Arena.get_modifyNode_self a2 node.next _
        rw [hq] at h1
        rw [h1, ha2_get_ne q hq_ne_idx hq_ne_p, hnq]
        rfl
      have ha3_get_p : a3.get p = some { np with next := node.next } := by
        have h1 : a3.get p = a2.get p := by
          rw [ha3]
          exact Arena.get_modifyNode_ne a2 node.next _ (by rw [hq]; exact Ne.symm hq_ne_p)
        rw [h1]; exact ha2_get_p
      have ha3_get_idx : a3.get index = none := by
        have h1 : a3.get index = a2.get index := by
          rw [ha3]
          exact Arena.get_modifyNode_ne a2 node.next _ (by rw [hq]; exact Ne.symm hq_ne_idx)
        rw [h1]; exact ha2_get_idx
      have ha3_get_ne : ∀ j, j ≠ index → j ≠ p → j ≠ q → a3.get j = a.get j := by
        intro j hji hjp hjq
        have h1 : a3.get j = a2.get j := by
          rw [ha3]
          exact Arena.get_modifyNode_ne a2 node.next _ (by rw [hq]; exact hjq)
        rw [h1, ha2_get_ne j hji hjp]
      set aN : Arena := { a3 with free_list := index :: a3.free_list, len := a3.len - 1 }
        with haN
      have hgN : ∀ j, aN.get j = a3.get j := fun j => Arena.get_congr_slots rfl j
      have hentry : ∀ j, j ≠ index → sameEntry (a.get j) (aN.get j) := by
        intro j hj
        rw [hgN]
        by_cases hjp : j = p
        · subst hjp
          rw [ha3_get_p, hnp]
          simp [sameEntry]
        · by_cases hjq : j = q
          · subst hjq; rw [ha3_get_q, hnq]; simp [sameEntry]
          · exact sameEntry_of_eq (ha3_get_ne j hj hjp hjq)
      have haN_size : aN.slots.length = a.slots.length := by
        rw [show aN.slots = a3.slots from rfl, ha3, Arena.modifyNode_slots_length, ha2,
            Arena.modifyNode_slots_length]
        exact ha1_size
      have haN_len : aN.len = a.len - 1 := by
        rw [show aN.len = a3.len - 1 from rfl, ha3, Arena.modifyNode_len, ha2,
            Arena.modifyNode_len]
      have haN_free : aN.free_list = index :: a.free_list := by
        rw [show aN.free_list = index :: a3.free_list from rfl, ha3,
            Arena.modifyNode_free_list, ha2, Arena.modifyNode_free_list]
      have haN_head : aN.head = a.head := by
        rw [show aN.head = a3.head from rfl, ha3, Arena.modifyNode_head, ha2,
            Arena.modifyNode_head]
      have haN_tail : aN.tail = a.tail := by
        rw [show aN.tail = a3.tail from rfl, ha3, Arena.modifyNode_tail, ha2,
            Arena.modifyNode_tail]
      refine ⟨node, aN, hnode, ?_, hprev, hnext, ?_, by rw [hgN]; exact ha3_get_idx,
        hentry, haN_len, haN_size, haN_free⟩
      · simp only [Arena.remove, hnode]
        rw [if_pos (show node.prev ≠ NIL from by rw [hp]; exact hp_ne_nil),
            if_pos (show node.next ≠ NIL from by rw [hq]; exact hq_ne_nil)]
      · refine ArenaWF.rebuild W ?_ ?_ ?_ (by rw [hgN]; exact ha3_get_idx) hentry
          haN_len haN_size haN_free
        · show dlseg aN NIL NIL ((l' ++ [p]) ++ q :: r')
          rw [dlseg_append, List.headD_cons, dlseg_append, List.headD_cons,
              dlseg_singleton, List.getLastD_concat]
          refine ⟨⟨?_, { np with next := node.next }, by rw [hgN]; exact ha3_get_p,
            hnp_prev, hq⟩, ?_⟩
          · refine dlseg_congr (fun j hj => ?_) hsegL1
            have hji : j ≠ index := fun he => hidx_l (he ▸ List.mem_append.2 (Or.inl hj))
            have hjp : j ≠ p := fun he => hp_not_l' (he ▸ hj)
            have hjq : j ≠ q := by
              intro he
              exact hdisj (List.mem_append.2 (Or.inl (he ▸ hj))) (by simp)
            rw [hgN]
            exact ha3_get_ne j hji hjp hjq
          · refine ⟨{ nq with prev := node.prev }, by rw [hgN]; exact ha3_get_q,
              by rw [hp], by simpa using hnq_next, ?_⟩
            refine dlseg_congr (fun j hj => ?_) hseg_r'
            have hji : j ≠ index := fun he => hidx_r (by simp [← he, hj])
            have hjq : j ≠ q := fun he => hq_not_r' (he ▸ hj)
            have hjp : j ≠ p := by
              intro he
              exact hdisj (by simp [← he] : p ∈ l' ++ [p]) (by simp [he ▸ hj])
            rw [hgN]
            exact ha3_get_ne j hji hjp hjq
        · rw [haN_head, W.head_eq]
          simp only [headD_append, List.headD_cons]
        · rw [haN_tail, W.tail_eq]
          simp only [getLastD_append, List.getLastD_cons]

/-! ## `move_to_head` preserves the invariant -/

theorem dlseg_retarget_first {a a' : Arena} {p p' q u0 : Nat} {u' : List Nat} {n0 : Node}
    (h : dlseg a p q (u0 :: u'))
    (hget : a.get u0 = some n0)
    (hget' : a'.get u0 = some { n0 with prev := p' })
    (hagree : ∀ j ∈ u', a'.get j = a.get j) :
    dlseg a' p' q (u0 :: u') := by
  obtain ⟨n, hn, hprev, hnext, hseg⟩ := h
  rw [hget] at hn
  injection hn with hn
  subst hn
  exact ⟨_, hget', rfl, by simpa using hnext, dlseg_congr hagree hseg⟩

theorem dlseg_retarget_last {a a' : Arena} {p q q' t : Nat} {u : List Nat} {nt : Node}
    (h : dlseg a p q (u ++ [t]))
    (hget : a.get t = some nt)
    (hget' : a'.get t = some { nt with next := q' })
    (hagree : ∀ j ∈ u, a'.get j = a.get j) :
    dlseg a' p q' (u ++ [t]) := by
  rw [dlseg_append, List.headD_cons, dlseg_singleton] at h ⊢
  obtain ⟨hu, n, hn, hnp, _⟩ := h
  rw [hget] at hn
  injection hn with hn
  subst hn
  exact ⟨dlseg_congr hagree hu, _, hget', hnp, rfl⟩

/-- Reassemble the arena invariant after moving `index` to the front of the
occupancy list, given the segment structure of the result and pointwise
facts about the new arena. -/
theorem ArenaWF.rebuild_move {a aN : Arena} {l r : List Nat} {index : Nat}
    (W : ArenaWF a (l ++ index :: r))
    (hseg : dlseg aN NIL NIL (index :: (l ++ r)))
    (hhead : aN.head = index)
    (htail : aN.tail = (index :: (l ++ r)).getLastD NIL)
    (hentry : ∀ j, sameEntry (a.get j) (aN.get j))
    (hlen : aN.len = a.len)
    (hsize : aN.slots.length = a.slots.length)
    (hfree : aN.free_list = a.free_list) :
    ArenaWF aN (index :: (l ++ r)) := by
  have hperm : List.Perm (l ++ index :: r) (index :: (l ++ r)) := List.perm_middle
  refine ⟨hperm.nodup W.nodup, hseg, by rw [hhead]; rfl, htail, ?_, ?_, ?_, ?_, ?_, ?_, ?_⟩
  · intro j hj
    have : (a.get j).isSome := by rw [← (hentry j).isSome]; exact hj
    exact hperm.mem_iff.1 (W.complete j this)
  · rw [hlen, W.len_eq]
    exact hperm.length_eq
  · rw [hsize]; exact W.size_le
  · rw [hfree]; exact W.free_nodup
  · intro g hg
    rw [hfree] at hg
    rw [hsize]
    exact W.free_lt g hg
  · intro g hg
    rw [hfree] at hg
    have : (aN.get g).isSome = (a.get g).isSome := (hentry g).isSome
    rw [W.free_empty g hg] at this
    exact Option.eq_none_of_isSome_eq_false (by simpa using this)
  · intro j hj hnone
    rw [hfree]
    have : (aN.get j).isSome = (a.get j).isSome := (hentry j).isSome
    rw [hnone] at this
    have : a.get j = none := Option.eq_none_of_isSome_eq_false (by simpa using this.symm)
    exact W.free_complete j (by rwa [hsize] at hj) this

theorem Arena.move_to_head_spec {a : Arena} {l r : List Nat} {index : Nat}
    (W : ArenaWF a (l ++ index :: r)) :
    ArenaWF (a.move_to_head index) (index :: (l ++ r)) ∧
    (∀ j, sameEntry (a.get j) ((a.move_to_head index).get j)) ∧
    (a.move_to_head index).len = a.len ∧
    (a.move_to_head index).slots.length = a.slots.length ∧
    (a.move_to_head index).free_list = a.free_list := by
  have hnd := W.nodup
  rw [List.nodup_append] at hnd
  obtain ⟨hnd_l, hnd_ir, hdisj⟩ := hnd
  obtain ⟨hidx_r, hnd_r⟩ := List.nodup_cons.1 hnd_ir
  have hidx_l : index ∉ l := fun h => hdisj h (by simp)
  have hseg0 := W.seg
  rw [dlseg_append, List.headD_cons] at hseg0
  obtain ⟨hsegL, node, hnode, hprev, hnext, hseg_r⟩ := hseg0
  have hidx_lt : index < a.slots.length := Arena.get_lt_length hnode
  by_cases hhead_idx : a.head = index
  · -- the node is already the head: the source returns immediately
    have hl : l = [] := by
      cases hl : l with
      | nil => rfl
      | cons x l₂ =>
        exfalso
        have : a.head = x := by rw [W.head_eq, hl]; rfl
        exact hidx_l (by rw [hl]; exact (this ▸ hhead_idx) ▸ List.mem_cons_self x l₂)
    subst hl
    have hmv : a.move_to_head index = a := by
      unfold Arena.move_to_head
      rw [if_pos hhead_idx]
    rw [hmv]
    exact ⟨by simpa using W, fun j => sameEntry.refl _, rfl, rfl, rfl⟩
  · -- the node is not the head, so l = l' ++ [p]
    rcases List.eq_nil_or_concat l with rfl | ⟨l', p, hl⟩
    · exfalso
      exact hhead_idx (by rw [W.head_eq]; rfl)
    rw [List.concat_eq_append] at hl
    subst hl
    have hp : node.prev = p := by rw [hprev, List.getLastD_concat]
    have hp_mem : p ∈ (l' ++ [p]) ++ index :: r := by simp
    have hp_ne_idx : p ≠ index := fun he => hidx_l (by simp [he])
    have hp_ne_nil : p ≠ NIL := W.mem_ne_nil p hp_mem
    have hndl := hnd_l
    rw [List.nodup_append] at hndl
    obtain ⟨hnd_l', _, hdisj_l'p⟩ := hndl
    have hp_not_l' : p ∉ l' := fun h => hdisj_l'p h (by simp)
    rw [dlseg_append, List.headD_cons, dlseg_singleton] at hsegL
    obtain ⟨hsegL1, np, hnp, hnp_prev, hnp_next⟩ := hsegL
    have hh0 : a.head = (l' ++ [p]).headD NIL := by
      rw [W.head_eq, headD_append, List.headD_cons]
      exact headD_irrel (by simp) index NIL
    have hh0_mem_l : a.head ∈ l' ++ [p] := by
      rw [hh0]
      cases l' with
      | nil => simp
      | cons x t => simp
    have hh0_mem : a.head ∈ (l' ++ [p]) ++ index :: r :=
      List.mem_append.2 (Or.inl hh0_mem_l)
    have hh0_ne_nil : a.head ≠ NIL := W.mem_ne_nil _ hh0_mem
    have hh0_ne_idx : a.head ≠ index := hhead_idx
    have hh0_not_r : a.head ∉ r := fun h => hdisj hh0_mem_l (by simp [h])
    -- aA: the predecessor's next pointer bypasses the node
    set aA : Arena := a.modifyNode node.prev (fun m => { m with next := node.next })
      with haA
    have haA_get_p : aA.get p = some { np with next := node.next } := by
      have h1 : aA.get node.prev
          = (a.get node.prev).map (fun m => { m with next := node.next }) := by
        rw [haA]; exact Arena.get_modifyNode_self a node.prev _
      rw [hp] at h1
      rw [h1, hnp]
      rfl
    have haA_get_ne : ∀ j, j ≠ p → aA.get j = a.get j := by
      intro j hjp
      have h1 : aA.get j = a.get j := by
        rw [haA]
        exact Arena.get_modifyNode_ne a node.prev _ (by rw [hp]; exact hjp)
      exact h1
    have haA_head : aA.head = a.head := by rw [haA, Arena.modifyNode_head]
    have haA_len : aA.len = a.len := by rw [haA, Arena.modifyNode_len]
    have haA_size : aA.slots.length = a.slots.length := by
      rw [haA, Arena.modifyNode_slots_length]
    have haA_free : aA.free_list = a.free_list := by rw [haA, Arena.modifyNode_free_list]
    cases r with
    | nil =>
      have hnext' : node.next = NIL := by simpa using hnext
      set aB : Arena := { aA with head := a.head, tail := node.prev } with haB
      have haB_get : ∀ j, aB.get j = aA.get j := fun j => Arena.get_congr_slots rfl j
      set aC : Arena := aB.modifyNode index (fun n => { n with prev := NIL, next := a.head })
        with haC
      have haC_get_idx : aC.get index = some { node with prev := NIL, next := a.head } := by
        have h1 : aC.get index
            = (aB.get index).map (fun n => { n with prev := NIL, next := a.head }) := by
          rw [haC]; exact Arena.get_modifyNode_self aB index _
        rw [h1, haB_get, haA_get_ne index (Ne.symm hp_ne_idx), hnode]
        rfl
      have haC_get_ne : ∀ j, j ≠ index → aC.get j = aB.get j := by
        intro j hj
        rw [haC]
        exact Arena.get_modifyNode_ne aB index _ hj
      set aD : Arena := aC.modifyNode a.head (fun m => { m with prev := index }) with haD
      set aN : Arena := { aD with head := index } with haN
      have haN_get : ∀ j, aN.get j = aD.get j := fun j => Arena.get_congr_slots rfl j
      -- pointwise description of the final arena
      have hgN_idx : aN.get index = some { node with prev := NIL, next := a.head } := by
        rw [haN_get, haD, Arena.get_modifyNode_ne aC a.head _ (Ne.symm hh0_ne_idx)]
        exact haC_get_idx
      have hgN_ne : ∀ j, j ≠ index → j ≠ p → j ≠ a.head → aN.get j = a.get j := by
        intro j hji hjp hjh
        rw [haN_get, haD, Arena.get_modifyNode_ne aC a.head _ hjh,
            haC_get_ne j hji, haB_get, haA_get_ne j hjp]
      have hgN_head : a.head ≠ p →
          aN.get a.head = (a.get a.head).map (fun m => { m with prev := index }) := by
        intro hhp
        have h1 : aN.get a.head = (aC.get a.head).map (fun m => { m with prev := index }) := by
          rw [haN_get, haD]; exact Arena.get_modifyNode_self aC a.head _
        rw [h1, haC_get_ne _ hh0_ne_idx, haB_get, haA_get_ne _ hhp]
      have hgN_p_first : a.head = p →
          aN.get p = some { np with prev := index, next := node.next } := by
        intro hhp
        have h1 : aN.get a.head = (aC.get a.head).map (fun m => { m with prev := index }) := by
          rw [haN_get, haD]; exact Arena.get_modifyNode_self aC a.head _
        rw [hhp] at h1
        rw [h1, haC_get_ne _ hp_ne_idx, haB_get, haA_get_p]
        rfl
      have hgN_p_later : a.head ≠ p →
          aN.get p = some { np with next := node.next } := by
        intro hhp
        rw [haN_get, haD, Arena.get_modifyNode_ne aC a.head _ (Ne.symm hhp),
            haC_get_ne _ hp_ne_idx, haB_get]
        exact haA_get_p
      have hmv : a.move_to_head index = aN := by
        unfold Arena.move_to_head
        rw [if_neg hhead_idx]
        simp only [hnode]
        rw [if_pos (show node.prev ≠ NIL from by rw [hp]; exact hp_ne_nil)]
        rw [if_neg (not_not_intro hnext')]
        simp only [Arena.modifyNode_head]
        rw [if_pos hh0_ne_nil]
      have hentry : ∀ j, sameEntry (a.get j) (aN.get j) := by
        intro j
        by_cases hji : j = index
        · subst hji; rw [hgN_idx, hnode]; simp [sameEntry]
        · by_cases hjh : j = a.head
          · subst hjh
            by_cases hhp : a.head = p
            · rw [hhp, hgN_p_first hhp, hnp]
              simp [sameEntry]
            · obtain ⟨nh, hnh⟩ := W.occupied a.head hh0_mem
              rw [hgN_head hhp, hnh]
              simp [sameEntry]
          · by_cases hjp : j = p
            · have hhp : a.head ≠ p := fun he => hjh (hjp.trans he.symm)
              rw [hjp, hgN_p_later hhp, hnp]
              simp [sameEntry]
            · exact sameEntry_of_eq (hgN_ne j hji hjp hjh)
      have haN_tail : aN.tail = p := by
        rw [show aN.tail = aD.tail from rfl, haD, Arena.modifyNode_tail, haC,
            Arena.modifyNode_tail]
        show node.prev = p
        exact hp
      have haN_len : aN.len = a.len := by
        rw [show aN.len = aD.len from rfl, haD, Arena.modifyNode_len, haC,
            Arena.modifyNode_len]
        show aA.len = a.len
        exact haA_len
      have haN_size : aN.slots.length = a.slots.length := by
        rw [show aN.slots = aD.slots from rfl, haD, Arena.modifyNode_slots_length, haC,
            Arena.modifyNode_slots_length]
        show aA.slots.length = a.slots.length
        exact haA_size
      have haN_free : aN.free_list = a.free_list := by
        rw [show aN.free_list = aD.free_list from rfl, haD, Arena.modifyNode_free_list,
            haC, Arena.modifyNode_free_list]
        show aA.free_list = a.free_list
        exact haA_free
      rw [hmv]
      refine ⟨?_, fun j => hentry j, haN_len, haN_size, haN_free⟩
      refine ArenaWF.rebuild_move W ?_ rfl ?_ hentry haN_len haN_size haN_free
      · -- the segment for index :: (l' ++ [p]) ++ []
        refine ⟨{ node with prev := NIL, next := a.head }, hgN_idx, rfl, ?_, ?_⟩
        · simp only [List.append_nil]
          exact hh0
        · show dlseg aN index NIL ((l' ++ [p]) ++ [])
          rw [List.append_nil, dlseg_append, List.headD_cons, dlseg_singleton]
          cases l' with
          | nil =>
            have hhp : a.head = p := by rw [hh0]; rfl
            exact ⟨trivial, { np with prev := index, next := node.next },
              hgN_p_first hhp, rfl, hnext'⟩
          | cons h0 l'' =>
            have hh0_eq : a.head = h0 := by rw [hh0]; rfl
            have hh0_ne_p : a.head ≠ p := by
              rw [hh0_eq]
              intro he
              exact hp_not_l' (he ▸ (by simp : h0 ∈ h0 :: l''))
            refine ⟨?_, { np with next := node.next }, hgN_p_later hh0_ne_p, ?_, hnext'⟩
            · -- retarget the first node of l' to have prev = index
              have hsegL1' := hsegL1
              obtain ⟨nh, hnh, hnh1, hnh2, hnh3⟩ := hsegL1'
              refine dlseg_retarget_first hsegL1 hnh ?_ ?_
              · have hx := hgN_head hh0_ne_p
                rw [hh0_eq] at hx
                rw [hx, hnh]
                rfl
              · intro j hj
                have hj_l' : j ∈ h0 :: l'' := List.mem_cons_of_mem h0 hj
                have hji : j ≠ index := fun he =>
                  hidx_l (he ▸ List.mem_append.2 (Or.inl hj_l'))
                have hjp : j ≠ p := fun he => hp_not_l' (he ▸ hj_l')
                have hjh : j ≠ a.head := by
                  rw [hh0_eq]
                  intro he
                  exact (List.nodup_cons.1 hnd_l').1 (he ▸ hj)
                exact hgN_ne j hji hjp hjh
            · show np.prev = (h0 :: l'').getLastD index
              rw [getLastD_cons_irrel h0 index NIL l'']
              exact hnp_prev
      · -- the tail of the new list
        rw [haN_tail]
        simp only [List.append_nil, List.getLastD_cons, List.getLastD_concat]
    | cons q r' =>
      have hq : node.next = q := by simpa using hnext
      obtain ⟨nq, hnq, hnq_prev, hnq_next, hseg_r'⟩ := hseg_r
      have hq_mem : q ∈ (l' ++ [p]) ++ index :: q :: r' := by simp
      have hq_ne_idx : q ≠ index := fun he => hidx_r (by simp [← he])
      have hq_ne_nil : q ≠ NIL := W.mem_ne_nil q hq_mem
      have hq_not_r' : q ∉ r' := (List.nodup_cons.1 hnd_r).1
      have hq_ne_p : q ≠ p := by
        intro he
        exact hdisj (by simp : p ∈ l' ++ [p]) (by rw [← he]; simp)
      have hh0_ne_q : a.head ≠ q := by
        intro he
        exact hdisj hh0_mem_l (by rw [← he]; simp)
      set aB : Arena := aA.modifyNode node.next (fun m => { m with prev := node.prev })
        with haB
      have haB_get_q : aB.get q = some { nq with prev := node.prev } := by
        have h1 : aB.get node.next
            = (aA.get node.next).map (fun m => { m with prev := node.prev }) := by
          rw [haB]; exact Arena.get_modifyNode_self aA node.next _
        rw [hq] at h1
        rw [h1, haA_get_ne q hq_ne_p, hnq]
        rfl
      have haB_get_ne : ∀ j, j ≠ q → aB.get j = aA.get j := by
        intro j hjq
        rw [haB]
        exact Arena.get_modifyNode_ne aA node.next _ (by rw [hq]; exact hjq)
      set aC : Arena := aB.modifyNode index (fun n => { n with prev := NIL, next := a.head })
        with haC
      have haC_get_idx : aC.get index = some { node with prev := NIL, next := a.head } := by
        have h1 : aC.get index
            = (aB.get index).map (fun n => { n with prev := NIL, next := a.head }) := by
          rw [haC]; exact Arena.get_modifyNode_self aB index _
        rw [h1, haB_get_ne index hq_ne_idx.symm, haA_get_ne index (Ne.symm hp_ne_idx), hnode]
        rfl
      have haC_get_ne : ∀ j, j ≠ index → aC.get j = aB.get j := by
        intro j hj
        rw [haC]
        exact Arena.get_modifyNode_ne aB index _ hj
      set aD : Arena := aC.modifyNode a.head (fun m => { m with prev := index }) with haD
      set aN : Arena := { aD with head := index } with haN
      have haN_get : ∀ j, aN.get j = aD.get j := fun j => Arena.get_congr_slots rfl j
      have hgN_idx : aN.get index = some { node with prev := NIL, next := a.head } := by
        rw [haN_get, haD, Arena.get_modifyNode_ne aC a.head _ (Ne.symm hh0_ne_idx)]
        exact haC_get_idx
      have hgN_q : aN.get q = some { nq with prev := node.prev } := by
        rw [haN_get, haD, Arena.get_modifyNode_ne aC a.head _ (Ne.symm hh0_ne_q),
            haC_get_ne q hq_ne_idx]
        exact haB_get_q
      have hgN_ne : ∀ j, j ≠ index → j ≠ p → j ≠ q → j ≠ a.head → aN.get j = a.get j := by
        intro j hji hjp hjq hjh
        rw [haN_get, haD, Arena.get_modifyNode_ne aC a.head _ hjh,
            haC_get_ne j hji, haB_get_ne j hjq, haA_get_ne j hjp]
      have hgN_head : a.head ≠ p →
          aN.get a.head = (a.get a.head).map (fun m => { m with prev := index }) := by
        intro hhp
        have h1 : aN.get a.head = (aC.get a.head).map (fun m => { m with prev := index }) := by
          rw [haN_get, haD]; exact Arena.get_modifyNode_self aC a.head _
        rw [h1, haC_get_ne _ hh0_ne_idx, haB_get_ne _ hh0_ne_q, haA_get_ne _ hhp]
      have hgN_p_first : a.head = p →
          aN.get p = some { np with prev := index, next := node.next } := by
        intro hhp
        have h1 : aN.get a.head = (aC.get a.head).map (fun m => { m with prev := index }) := by
          rw [haN_get, haD]; exact Arena.get_modifyNode_self aC a.head _
        rw [hhp] at h1
        rw [h1, haC_get_ne _ hp_ne_idx, haB_get_ne _ hq_ne_p.symm, haA_get_p]
        rfl
      have hgN_p_later : a.head ≠ p →
          aN.get p = some { np with next := node.next } := by
        intro hhp
        rw [haN_get, haD, Arena.get_modifyNode_ne aC a.head _ (Ne.symm hhp),
            haC_get_ne _ hp_ne_idx, haB_get_ne _ hq_ne_p.symm]
        exact haA_get_p
      have hmv : a.move_to_head index = aN := by
        unfold Arena.move_to_head
        rw [if_neg hhead_idx]
        simp only [hnode]
        rw [if_pos (show node.prev ≠ NIL from by rw [hp]; exact hp_ne_nil)]
        rw [if_pos (show node.next ≠ NIL from by rw [hq]; exact hq_ne_nil)]
        simp only [Arena.modifyNode_head]
        rw [if_pos hh0_ne_nil]
      have hentry : ∀ j, sameEntry (a.get j) (aN.get j) := by
        intro j
        by_cases hji : j = index
        · subst hji; rw [hgN_idx, hnode]; simp [sameEntry]
        · by_cases hjh : j = a.head
          · subst hjh
            by_cases hhp : a.head = p
            · rw [hhp, hgN_p_first hhp, hnp]
              simp [sameEntry]
            · obtain ⟨nh, hnh⟩ := W.occupied a.head hh0_mem
              rw [hgN_head hhp, hnh]
              simp [sameEntry]
          · by_cases hjp : j = p
            · have hhp : a.head ≠ p := fun he => hjh (hjp.trans he.symm)
              rw [hjp, hgN_p_later hhp, hnp]
              simp [sameEntry]
            · by_cases hjq : j = q
              · rw [hjq, hgN_q, hnq]
                simp [sameEntry]
              · exact sameEntry_of_eq (hgN_ne j hji hjp hjq hjh)
      have haN_tail : aN.tail = a.tail := by
        rw [show aN.tail = aD.tail from rfl, haD, Arena.modifyNode_tail, haC,
            Arena.modifyNode_tail, haB, Arena.modifyNode_tail, haA,
            Arena.modifyNode_tail]
      have haN_len : aN.len = a.len := by
        rw [show aN.len = aD.len from rfl, haD, Arena.modifyNode_len, haC,
            Arena.modifyNode_len, haB, Arena.modifyNode_len]
        exact haA_len
      have haN_size : aN.slots.length = a.slots.length := by
        rw [show aN.slots = aD.slots from rfl, haD, Arena.modifyNode_slots_length, haC,
            Arena.modifyNode_slots_length, haB, Arena.modifyNode_slots_length]
        exact haA_size
      have haN_free : aN.free_list = a.free_list := by
        rw [show aN.free_list = aD.free_list from rfl, haD, Arena.modifyNode_free_list,
            haC, Arena.modifyNode_free_list, haB, Arena.modifyNode_free_list]
        exact haA_free
      rw [hmv]
      refine ⟨?_, fun j => hentry j, haN_len, haN_size, haN_free⟩
      refine ArenaWF.rebuild_move W ?_ rfl ?_ hentry haN_len haN_size haN_free
      · -- the segment for index :: (l' ++ [p]) ++ q :: r'
        refine ⟨{ node with prev := NIL, next := a.head }, hgN_idx, rfl, ?_, ?_⟩
        · show a.head = ((l' ++ [p]) ++ q :: r').headD NIL
          rw [headD_append, List.headD_cons,
              headD_irrel (show l' ++ [p] ≠ [] by simp) q NIL]
          exact hh0
        · show dlseg aN index NIL ((l' ++ [p]) ++ q :: r')
          rw [dlseg_append, List.headD_cons, dlseg_append, List.headD_cons,
              dlseg_singleton, List.getLastD_concat]
          refine ⟨⟨?_, ?_⟩, ?_⟩
          · -- the prefix l' with the first node's prev retargeted to index
            cases l' with
            | nil => trivial
            | cons h0 l'' =>
              have hh0_eq : a.head = h0 := by rw [hh0]; rfl
              have hh0_ne_p : a.head ≠ p := by
                rw [hh0_eq]
                intro he
                exact hp_not_l' (he ▸ (by simp : h0 ∈ h0 :: l''))
              have hsegL1' := hsegL1
              obtain ⟨nh, hnh, hnh1, hnh2, hnh3⟩ := hsegL1'
              refine dlseg_retarget_first hsegL1 hnh ?_ ?_
              · have hx := hgN_head hh0_ne_p
                rw [hh0_eq] at hx
                rw [hx, hnh]
                rfl
              · intro j hj
                have hj_l' : j ∈ h0 :: l'' := List.mem_cons_of_mem h0 hj
                have hji : j ≠ index := fun he =>
                  hidx_l (he ▸ List.mem_append.2 (Or.inl hj_l'))
                have hjp : j ≠ p := fun he => hp_not_l' (he ▸ hj_l')
                have hjq : j ≠ q := by
                  intro he
                  exact hdisj (List.mem_append.2 (Or.inl hj_l')) (by rw [← he]; simp)
                have hjh : j ≠ a.head := by
                  rw [hh0_eq]
                  intro he
                  exact (List.nodup_cons.1 hnd_l').1 (he ▸ hj)
                exact hgN_ne j hji hjp hjq hjh
          · -- the slot p, whose next pointer now skips to q
            cases l' with
            | nil =>
              have hhp : a.head = p := by rw [hh0]; rfl
              exact ⟨{ np with prev := index, next := node.next },
                hgN_p_first hhp, rfl, hq⟩
            | cons h0 l'' =>
              have hh0_eq : a.head = h0 := by rw [hh0]; rfl
              have hh0_ne_p : a.head ≠ p := by
                rw [hh0_eq]
                intro he
                exact hp_not_l' (he ▸ (by simp : h0 ∈ h0 :: l''))
              refine ⟨{ np with next := node.next }, hgN_p_later hh0_ne_p, ?_, hq⟩
              show np.prev = (h0 :: l'').getLastD index
              rw [getLastD_cons_irrel h0 index NIL l'']
              exact hnp_prev
          · -- the suffix q :: r' with q's prev pointer retargeted to p
            refine ⟨{ nq with prev := node.prev }, hgN_q, hp, by simpa using hnq_next, ?_⟩
            refine dlseg_congr (fun j hj => ?_) hseg_r'
            have hji : j ≠ index := fun he => hidx_r (by simp [← he, hj])
            have hjq : j ≠ q := fun he => hq_not_r' (he ▸ hj)
            have hjp : j ≠ p := by
              intro he
              exact hdisj (by simp [← he] : p ∈ l' ++ [p]) (by simp [he ▸ hj])
            have hjh : j ≠ a.head := by
              intro he
              exact hdisj (he ▸ hh0_mem_l) (by simp [hj])
            exact hgN_ne j hji hjp hjq hjh
      · -- the tail of the new list
        rw [haN_tail, W.tail_eq]
        show ((l' ++ [p]) ++ index :: q :: r').getLastD NIL
            = (index :: ((l' ++ [p]) ++ q :: r')).getLastD NIL
        simp only [List.getLastD_cons, getLastD_append]

/-! ## Counting occupied and free slots -/

/-- The number of occupied slots of the arena. -/
def countOccupied (a : Arena) : Nat :=
  ((List.range a.slots.length).filter (fun j => (a.get j).isSome)).length

theorem ArenaWF.occupied_perm {a : Arena} {xs : List Nat} (W : ArenaWF a xs) :
    List.Perm ((List.range a.slots.length).filter (fun j => (a.get j).isSome)) xs := by
  rw [List.perm_ext_iff_of_nodup (List.Nodup.filter _ (List.nodup_range _)) W.nodup]
  intro j
  rw [List.mem_filter, List.mem_range]
  constructor
  · rintro ⟨_, hocc⟩
    exact W.complete j (by simpa using hocc)
  · intro hj
    obtain ⟨n, hn⟩ := W.occupied j hj
    exact ⟨Arena.get_lt_length hn, by simp [hn]⟩

theorem ArenaWF.countOccupied_eq {a : Arena} {xs : List Nat} (W : ArenaWF a xs) :
    countOccupied a = xs.length :=
  W.occupied_perm.length_eq

theorem ArenaWF.free_perm {a : Arena} {xs : List Nat} (W : ArenaWF a xs) :
    List.Perm a.free_list
      ((List.range a.slots.length).filter (fun j => !(a.get j).isSome)) := by
  rw [List.perm_ext_iff_of_nodup W.free_nodup (List.Nodup.filter _ (List.nodup_range _))]
  intro g
  rw [List.mem_filter, List.mem_range]
  constructor
  · intro hg
    exact ⟨W.free_lt g hg, by simp [W.free_empty g hg]⟩
  · rintro ⟨hlt, hnone⟩
    refine W.free_complete g hlt ?_
    cases h : a.get g with
    | none => rfl
    | some n => rw [h] at hnone; simp at hnone

theorem ArenaWF.count_free {a : Arena} {xs : List Nat} (W : ArenaWF a xs) :
    countOccupied a + a.free_list.length = a.slots.length := by
  rw [W.countOccupied_eq, W.free_perm.length_eq]
  have h := (List.filter_append_perm (fun j => (a.get j).isSome)
    (List.range a.slots.length)).length_eq
  rw [List.length_append] at h
  simp only [List.length_range] at h
  rw [← W.countOccupied_eq, countOccupied]
  omega

theorem ArenaWF.len_le_size {a : Arena} {xs : List Nat} (W : ArenaWF a xs) :
    a.len ≤ a.slots.length := by
  have := W.count_free
  rw [W.len_eq, ← W.countOccupied_eq]
  omega

theorem ArenaWF.free_nonempty {a : Arena} {xs : List Nat} (W : ArenaWF a xs)
    (h : a.len < a.slots.length) : a.free_list ≠ [] := by
  intro hnil
  have hc := W.count_free
  rw [hnil] at hc
  simp only [List.length_nil, Nat.add_zero] at hc
  rw [W.countOccupied_eq, ← W.len_eq] at hc
  omega

/-! ## Traversals along `next` and `prev` links -/

/-- Walk from `start` following `next` pointers, collecting slot indices. -/
def nextChain (a : Arena) : Nat → Nat → List Nat
  | 0, _ => []
  | fuel + 1, i =>
    if i = NIL then []
    else
      match a.get i with
      | none => []
      | some n => i :: nextChain a fuel n.next

/-- Walk from `start` following `prev` pointers, collecting slot indices. -/
def prevChain (a : Arena) : Nat → Nat → List Nat
  | 0, _ => []
  | fuel + 1, i =>
    if i = NIL then []
    else
      match a.get i with
      | none => []
      | some n => i :: prevChain a fuel n.prev

theorem nextChain_succ (a : Arena) (fuel i : Nat) :
    nextChain a (fuel + 1) i = if i = NIL then [] else
      match a.get i with
      | none => []
      | some n => i :: nextChain a fuel n.next := rfl

theorem prevChain_succ (a : Arena) (fuel i : Nat) :
    prevChain a (fuel + 1) i = if i = NIL then [] else
      match a.get i with
      | none => []
      | some n => i :: prevChain a fuel n.prev := rfl

theorem nextChain_of_dlseg {a : Arena} {ys : List Nat} {p : Nat}
    (h : dlseg a p NIL ys) (hnil : ∀ i ∈ ys, i ≠ NIL) :
    nextChain a ys.length (ys.headD NIL) = ys := by
  induction ys generalizing p with
  | nil => rfl
  | cons i rest ih =>
    obtain ⟨n, hn, _, hnext, hseg⟩ := h
    show nextChain a (rest.length + 1) i = i :: rest
    rw [nextChain_succ, if_neg (hnil i (by simp))]
    simp only [hn]
    rw [hnext, ih hseg (fun j hj => hnil j (by simp [hj]))]

theorem prevChain_of_dlseg {a : Arena} {ys : List Nat} {q : Nat}
    (h : dlseg a NIL q ys) (hnil : ∀ i ∈ ys, i ≠ NIL) :
    prevChain a ys.length (ys.getLastD NIL) = ys.reverse := by
  induction ys using List.reverseRecOn generalizing q with
  | nil => rfl
  | append_singleton us t ih =>
    rw [dlseg_append, List.headD_cons, dlseg_singleton] at h
    obtain ⟨hus, nt, hnt, hnt_prev, _⟩ := h
    have hlen : (us ++ [t]).length = us.length + 1 := by simp
    rw [List.getLastD_concat, hlen, prevChain_succ, if_neg (hnil t (by simp))]
    simp only [hnt]
    rw [hnt_prev, List.reverse_append, List.reverse_singleton, List.singleton_append,
        ih hus (fun j hj => hnil j (by simp [hj]))]

/-! ## `pop_tail` and whole-operation preservation for the arena -/

theorem Arena.pop_tail_nil {a : Arena} {xs : List Nat} (W : ArenaWF a xs)
    (hxs : xs = []) : a.pop_tail = (a, none) := by
  have htail : a.tail = NIL := by rw [W.tail_eq, hxs]; rfl
  unfold Arena.pop_tail
  rw [if_pos htail]

theorem Arena.pop_tail_spec {a : Arena} {l : List Nat} {t : Nat}
    (W : ArenaWF a (l ++ [t])) :
    ∃ node aN, a.get t = some node ∧ a.pop_tail = (aN, some (t, node)) ∧
      ArenaWF aN l ∧
      (∀ j, j ≠ t → sameEntry (a.get j) (aN.get j)) ∧
      aN.get t = none ∧
      aN.len = a.len - 1 ∧
      aN.slots.length = a.slots.length ∧
      aN.free_list = t :: a.free_list := by
  have htail : a.tail = t := by rw [W.tail_eq, List.getLastD_concat]
  have htail_ne : a.tail ≠ NIL := by
    rw [htail]
    exact W.mem_ne_nil t (by simp)
  have W' : ArenaWF a (l ++ t :: []) := by simpa using W
  obtain ⟨node, aN, hnode, hremove, _, _, hWF, hidx, hentry, hlen, hsize, hfree⟩ :=
    Arena.remove_spec W'
  refine ⟨node, aN, hnode, ?_, by simpa using hWF, hentry, hidx, hlen, hsize, hfree⟩
  unfold Arena.pop_tail
  rw [if_neg htail_ne]
  simp only [htail, hremove]

/-- Every arena operation preserves well-formedness (with some occupancy list). -/
theorem Arena.step_WF {a : Arena} {xs : List Nat} (W : ArenaWF a xs) (op : ArenaOp) :
    ∃ xs', ArenaWF (a.step op) xs' := by
  cases op with
  | push k v =>
    show ∃ xs', ArenaWF (match a.push_head (Node.new k v) with
      | some (a', _) => a' | none => a) xs'
    cases hfree : a.free_list with
    | nil =>
      have : a.push_head (Node.new k v) = none := by
        unfold Arena.push_head
        rw [hfree]
      rw [this]
      exact ⟨xs, W⟩
    | cons f rest =>
      obtain ⟨a', hpush, hWF, _⟩ := Arena.push_head_spec W hfree (Node.new k v)
      rw [hpush]
      exact ⟨f :: xs, hWF⟩
  | remove i =>
    show ∃ xs', ArenaWF (a.remove i).1 xs'
    cases hget : a.get i with
    | none =>
      have : a.remove i = (a, none) := by
        unfold Arena.remove
        rw [hget]
      rw [this]
      exact ⟨xs, W⟩
    | some n =>
      obtain ⟨sidx, tidx, hsplit⟩ := List.append_of_mem (W.complete i (by simp [hget]))
      subst hsplit
      obtain ⟨node, aN, _, hremove, _, _, hWF, _⟩ := Arena.remove_spec W
      rw [hremove]
      exact ⟨sidx ++ tidx, hWF⟩
  | moveToHead i =>
    show ∃ xs', ArenaWF (a.move_to_head i) xs'
    cases hget : a.get i with
    | none =>
      have : a.move_to_head i = a := by
        unfold Arena.move_to_head
        by_cases hh : a.head = i
        · rw [if_pos hh]
        · rw [if_neg hh, hget]
      rw [this]
      exact ⟨xs, W⟩
    | some n =>
      obtain ⟨sidx, tidx, hsplit⟩ := List.append_of_mem (W.complete i (by simp [hget]))
      subst hsplit
      obtain ⟨hWF, _⟩ := Arena.move_to_head_spec W
      exact ⟨i :: (sidx ++ tidx), hWF⟩
  | popTail =>
    show ∃ xs', ArenaWF (a.pop_tail).1 xs'
    rcases List.eq_nil_or_concat xs with rfl | ⟨l, t, hxs⟩
    · rw [Arena.pop_tail_nil W rfl]
      exact ⟨[], W⟩
    · rw [List.concat_eq_append] at hxs
      subst hxs
      obtain ⟨node, aN, _, hpop, hWF, _⟩ := Arena.pop_tail_spec W
      rw [hpop]
      exact ⟨l, hWF⟩

theorem Arena.run_WF {capacity : Nat} (hcap : capacity ≤ NIL) (ops : List ArenaOp) :
    ∃ xs, ArenaWF (Arena.run (Arena.new capacity) ops) xs := by
  suffices h : ∀ (a : Arena) (xs : List Nat), ArenaWF a xs →
      ∃ xs', ArenaWF (Arena.run a ops) xs' by
    exact h _ [] (ArenaWF.arena_new capacity hcap)
  induction ops with
  | nil => exact fun a xs W => ⟨xs, W⟩
  | cons op rest ih =>
    intro a xs W
    obtain ⟨xs', hWF⟩ := Arena.step_WF W op
    exact ih _ xs' hWF

/-! ## Key-map consistency with the arena -/

/-- Every map entry points at an occupied slot holding that key. -/
def MapOcc (a : Arena) (m : KeyMap) : Prop :=
  ∀ k i, m k = some i → ∃ n, a.get i = some n ∧ n.key = k

/-- Every occupied slot's key is mapped back to that slot. -/
def OccMap (a : Arena) (m : KeyMap) : Prop :=
  ∀ i n, a.get i = some n → m n.key = some i

/-- Occupancy- and key-preserving arena changes preserve map consistency. -/
theorem mapConsistent_preserve {a aN : Arena} {m : KeyMap}
    (h_occ : ∀ j, (aN.get j).isSome = (a.get j).isSome)
    (h_key : ∀ j, (aN.get j).map Node.key = (a.get j).map Node.key)
    (hmo : MapOcc a m) (hom : OccMap a m) : MapOcc aN m ∧ OccMap aN m := by
  constructor
  · intro k i hk
    obtain ⟨n, hn, hkey⟩ := hmo k i hk
    have hsome : (aN.get i).isSome := by rw [h_occ, hn]; rfl
    cases hg : aN.get i with
    | none => rw [hg] at hsome; cases hsome
    | some n' =>
      refine ⟨n', rfl, ?_⟩
      have := h_key i
      rw [hg, hn] at this
      simp at this
      rw [this, hkey]
  · intro i n hn
    have hsome : (a.get i).isSome := by rw [← h_occ, hn]; rfl
    cases hg : a.get i with
    | none => rw [hg] at hsome; cases hsome
    | some n0 =>
      have := h_key i
      rw [hg, hn] at this
      simp at this
      rw [this]
      exact hom i n0 hg

/-- Map consistency after removing the node at `index` (with key `k`) from
the arena and `k` from the map. -/
theorem mapConsistent_remove {a aN : Arena} {m : KeyMap} {index : Nat} {node : Node}
    (hnode : a.get index = some node)
    (hmo : MapOcc a m) (hom : OccMap a m)
    (hidx : aN.get index = none)
    (hentry : ∀ j, j ≠ index → sameEntry (a.get j) (aN.get j)) :
    MapOcc aN (m.remove node.key) ∧ OccMap aN (m.remove node.key) := by
  have hmap_idx : m node.key = some index := hom index node hnode
  constructor
  · intro k' i hk'
    unfold KeyMap.remove at hk'
    by_cases hkk : k' = node.key
    · rw [if_pos hkk] at hk'; cases hk'
    · rw [if_neg hkk] at hk'
      obtain ⟨n, hn, hkey⟩ := hmo k' i hk'
      have hine : i ≠ index := by
        intro he
        rw [he, hnode] at hn
        injection hn with hn
        exact hkk (by rw [← hkey, hn])
      have hse := hentry i hine
      have hsome : (aN.get i).isSome := by rw [hse.isSome, hn]; rfl
      cases hg : aN.get i with
      | none => rw [hg] at hsome; cases hsome
      | some n' =>
        refine ⟨n', rfl, ?_⟩
        have := hse.key
        rw [hg, hn] at this
        simp at this
        rw [this, hkey]
  · intro i n hn
    have hine : i ≠ index := by
      intro he
      rw [he, hidx] at hn; cases hn
    have hse := hentry i hine
    have hsome : (a.get i).isSome := by rw [← hse.isSome, hn]; rfl
    cases hg : a.get i with
    | none => rw [hg] at hsome; cases hsome
    | some n0 =>
      have hkeq : n.key = n0.key := by
        have := hse.key
        rw [hg, hn] at this
        simpa using this
      have hm0 : m n0.key = some i := hom i n0 hg
      unfold KeyMap.remove
      have hkne : n.key ≠ node.key := by
        intro he
        rw [hkeq] at he
        rw [he] at hm0
        rw [hm0] at hmap_idx
        injection hmap_idx with hmap_idx
        exact hine hmap_idx
      rw [if_neg hkne, hkeq]
      exact hm0

/-- Map consistency after pushing a fresh node with key `k` (not previously
mapped) into slot `f`. -/
theorem mapConsistent_push {a aN : Arena} {m : KeyMap} {f : Nat} {k : String} {nf : Node}
    (hknone : m k = none)
    (hmo : MapOcc a m) (hom : OccMap a m)
    (hf_empty : a.get f = none)
    (hgf : aN.get f = some nf)
    (hfkey : nf.key = k)
    (hentry : ∀ j, j ≠ f → sameEntry (a.get j) (aN.get j)) :
    MapOcc aN (m.insert k f) ∧ OccMap aN (m.insert k f) := by
  constructor
  · intro k' i hk'
    unfold KeyMap.insert at hk'
    by_cases hkk : k' = k
    · rw [if_pos hkk] at hk'
      injection hk' with hk'
      subst hk'
      exact ⟨nf, hgf, by rw [hfkey, hkk]⟩
    · rw [if_neg hkk] at hk'
      obtain ⟨n, hn, hkey⟩ := hmo k' i hk'
      have hine : i ≠ f := by
        intro he
        rw [he, hf_empty] at hn; cases hn
      have hse := hentry i hine
      have hsome : (aN.get i).isSome := by rw [hse.isSome, hn]; rfl
      cases hg : aN.get i with
      | none => rw [hg] at hsome; cases hsome
      | some n' =>
        refine ⟨n', rfl, ?_⟩
        have := hse.key
        rw [hg, hn] at this
        simp at this
        rw [this, hkey]
  · intro i n hn
    by_cases hif : i = f
    · subst hif
      rw [hgf] at hn
      injection hn with hn
      subst hn
      unfold KeyMap.insert
      rw [hfkey, if_pos rfl]
    · have hse := hentry i hif
      have hsome : (a.get i).isSome := by rw [← hse.isSome, hn]; rfl
      cases hg : a.get i with
      | none => rw [hg] at hsome; cases hsome
      | some n0 =>
        have hkeq : n.key = n0.key := by
          have := hse.key
          rw [hg, hn] at this
          simpa using this
        have hm0 : m n0.key = some i := hom i n0 hg
        unfold KeyMap.insert
        have hkne : n.key ≠ k := by
          intro he
          rw [hkeq] at he
          rw [he] at hm0
          rw [hknone] at hm0
          cases hm0
        rw [if_neg hkne, hkeq]
        exact hm0

/-- The common invariant of the three policies: the arena is well formed and
sized to the capacity, the map and the arena agree, and the capacity is
positive (the constructors assert it). -/
structure PolWF (a : Arena) (m : KeyMap) (capacity : Nat) : Prop where
  arena : ∃ xs, ArenaWF a xs
  size_eq : a.slots.length = capacity
  map_occ : MapOcc a m
  occ_map : OccMap a m
  cap_pos : 0 < capacity

theorem PolWF.pol_new (capacity : Nat) (hpos : 0 < capacity) (hcap : capacity ≤ NIL) :
    PolWF (Arena.new capacity) KeyMap.empty capacity := by
  refine ⟨⟨[], ArenaWF.arena_new capacity hcap⟩, by simp [Arena.new], ?_, ?_, hpos⟩
  · intro k i hk
    cases hk
  · intro i n hn
    have hget : (Arena.new capacity).get i = none := by
      simp [Arena.new, Arena.get, List.getElem?_replicate]
    rw [hget] at hn
    cases hn

/-! ## Pointer-preserving slot rewrites (the visited bit) -/

theorem dlseg_congr_ptr {a a' : Arena} {p q : Nat} {ys : List Nat}
    (hagree : ∀ i ∈ ys, ∀ n, a.get i = some n →
      ∃ n', a'.get i = some n' ∧ n'.prev = n.prev ∧ n'.next = n.next)
    (h : dlseg a p q ys) : dlseg a' p q ys := by
  induction ys generalizing p with
  | nil => trivial
  | cons i rest ih =>
    obtain ⟨n, hn, hprev, hnext, hseg⟩ := h
    obtain ⟨n', hn', hp', hx'⟩ := hagree i (by simp) n hn
    exact ⟨n', hn', by rw [hp', hprev], by rw [hx', hnext],
      ih (fun j hj => hagree j (by simp [hj])) hseg⟩

/-- Setting the visited bit of one slot preserves the arena invariant with
the same occupancy list. -/
theorem ArenaWF.modify_flag {a : Arena} {xs : List Nat} (W : ArenaWF a xs)
    (index : Nat) (b : Bool) :
    ArenaWF (a.modifyNode index (fun n => { n with visited := b })) xs := by
  set aN := a.modifyNode index (fun n => { n with visited := b }) with haN
  have hne : ∀ j, j ≠ index → aN.get j = a.get j := fun j hj =>
    Arena.get_modifyNode_ne a index _ hj
  have hself : aN.get index = (a.get index).map (fun n => { n with visited := b }) :=
    Arena.get_modifyNode_self a index _
  have hocc : ∀ j, (aN.get j).isSome = (a.get j).isSome := by
    intro j
    by_cases hj : j = index
    · rw [hj, hself]; cases a.get index <;> rfl
    · rw [hne j hj]
  have hptr : ∀ i ∈ xs, ∀ n, a.get i = some n →
      ∃ n', aN.get i = some n' ∧ n'.prev = n.prev ∧ n'.next = n.next := by
    intro i _ n hn
    by_cases hj : i = index
    · refine ⟨{ n with visited := b }, ?_, rfl, rfl⟩
      rw [hj] at hn ⊢
      rw [hself, hn]
      rfl
    · exact ⟨n, by rw [hne i hj]; exact hn, rfl, rfl⟩
  refine ⟨W.nodup, dlseg_congr_ptr hptr W.seg, ?_, ?_, ?_, ?_, ?_, ?_, ?_, ?_, ?_⟩
  · rw [haN, Arena.modifyNode_head]; exact W.head_eq
  · rw [haN, Arena.modifyNode_tail]; exact W.tail_eq
  · intro j hj
    rw [hocc j] at hj
    exact W.complete j hj
  · rw [haN, Arena.modifyNode_len]; exact W.len_eq
  · rw [haN, Arena.modifyNode_slots_length]; exact W.size_le
  · rw [haN, Arena.modifyNode_free_list]; exact W.free_nodup
  · intro g hg
    rw [haN, Arena.modifyNode_free_list] at hg
    rw [haN, Arena.modifyNode_slots_length]
    exact W.free_lt g hg
  · intro g hg
    rw [haN, Arena.modifyNode_free_list] at hg
    have : (aN.get g).isSome = (a.get g).isSome := hocc g
    rw [W.free_empty g hg] at this
    exact Option.eq_none_of_isSome_eq_false (by simpa using this)
  · intro j hj hnone
    rw [haN, Arena.modifyNode_free_list]
    have : (aN.get j).isSome = (a.get j).isSome := hocc j
    rw [hnone] at this
    have : a.get j = none := Option.eq_none_of_isSome_eq_false (by simpa using this.symm)
    refine W.free_complete j ?_ this
    rw [haN, Arena.modifyNode_slots_length] at hj
    exact hj

/-! ## Policy-level building blocks -/

/-- Removing an occupied slot and its key from the map preserves the common
policy invariant; returns all the facts the policy proofs need. -/
theorem PolWF.remove_entry {a : Arena} {m : KeyMap} {cap index : Nat} {node : Node}
    (P : PolWF a m cap) (hnode : a.get index = some node) :
    ∃ aN, a.remove index = (aN, some node) ∧
      PolWF aN (m.remove node.key) cap ∧
      aN.len = a.len - 1 ∧
      1 ≤ a.len ∧
      aN.slots.length = a.slots.length ∧
      (node.prev = NIL ∨ ((aN.get node.prev).isSome = true)) ∧
      (∀ j, j ≠ index → ((aN.get j).isSome = (a.get j).isSome)) ∧
      aN.get index = none := by
  obtain ⟨xs, W⟩ := P.arena
  have hmem : index ∈ xs := W.complete index (by simp [hnode])
  obtain ⟨l, r, hsplit⟩ := List.append_of_mem hmem
  subst hsplit
  obtain ⟨node', aN, hnode', hremove, hprev, hnext, hWF, hidx, hentry, hlen, hsize, hfree⟩ :=
    Arena.remove_spec W
  rw [hnode] at hnode'
  injection hnode' with hnode'
  subst hnode'
  have hocc_pres : ∀ j, j ≠ index → ((aN.get j).isSome = (a.get j).isSome) := fun j hj =>
    (hentry j hj).isSome
  obtain ⟨hmo, hom⟩ := mapConsistent_remove hnode P.map_occ P.occ_map hidx hentry
  refine ⟨aN, hremove,
    ⟨⟨l ++ r, hWF⟩, by rw [hsize]; exact P.size_eq, hmo, hom, P.cap_pos⟩,
    hlen, ?_, hsize, ?_, hocc_pres, hidx⟩
  · rw [W.len_eq]
    simp only [List.length_append, List.length_cons]
    omega
  · rcases List.eq_nil_or_concat l with rfl | ⟨l', pp, hl⟩
    · left
      simpa using hprev
    · right
      rw [List.concat_eq_append] at hl
      subst hl
      have hpmem : pp ∈ l' ++ [pp] ++ r := by simp
      obtain ⟨n, hn⟩ := hWF.occupied pp hpmem
      rw [hprev, List.getLastD_concat, hn]
      rfl

/-- Pushing a fresh key into a non-full arena preserves the common policy
invariant. -/
theorem PolWF.push_entry {a : Arena} {m : KeyMap} {cap : Nat} (k : String)
    (v : CachedResponse) (P : PolWF a m cap)
    (hknone : m k = none) (hlen : a.len < cap) :
    ∃ aN f, a.push_head (Node.new k v) = some (aN, f) ∧
      PolWF aN (m.insert k f) cap ∧
      aN.len = a.len + 1 ∧
      aN.slots.length = a.slots.length ∧
      (∀ j, j ≠ f → ((aN.get j).isSome = (a.get j).isSome)) ∧
      a.get f = none := by
  obtain ⟨xs, W⟩ := P.arena
  have hfree : a.free_list ≠ [] := W.free_nonempty (by rw [P.size_eq]; exact hlen)
  obtain ⟨f, rest, hfl⟩ : ∃ f rest, a.free_list = f :: rest := by
    cases h : a.free_list with
    | nil => exact absurd h hfree
    | cons f rest => exact ⟨f, rest, rfl⟩
  have hf_empty : a.get f = none := W.free_empty f (by simp [hfl])
  obtain ⟨aN, hpush, hWF, hgf, hentry, hlen', hsize, _, _⟩ :=
    Arena.push_head_spec W hfl (Node.new k v)
  obtain ⟨hmo, hom⟩ := mapConsistent_push hknone P.map_occ P.occ_map hf_empty hgf rfl hentry
  exact ⟨aN, f, hpush, ⟨⟨f :: xs, hWF⟩, by rw [hsize]; exact P.size_eq, hmo, hom, P.cap_pos⟩,
    hlen', hsize, fun j hj => (hentry j hj).isSome, hf_empty⟩

/-- Moving an occupied slot to the head (LRU promotion) preserves the common
policy invariant. -/
theorem PolWF.move_entry {a : Arena} {m : KeyMap} {cap index : Nat} {node : Node}
    (P : PolWF a m cap) (hnode : a.get index = some node) :
    PolWF (a.move_to_head index) m cap ∧
    (a.move_to_head index).len = a.len ∧
    (a.move_to_head index).slots.length = a.slots.length ∧
    ((a.move_to_head index).get index).map Node.value = some node.value := by
  obtain ⟨xs, W⟩ := P.arena
  have hmem : index ∈ xs := W.complete index (by simp [hnode])
  obtain ⟨l, r, hsplit⟩ := List.append_of_mem hmem
  subst hsplit
  obtain ⟨hWF, hentry, hlen, hsize, _⟩ := Arena.move_to_head_spec W
  have hocc : ∀ j, ((a.move_to_head index).get j).isSome = (a.get j).isSome := fun j =>
    (hentry j).isSome
  have hkey : ∀ j, ((a.move_to_head index).get j).map Node.key = (a.get j).map Node.key :=
    fun j => (hentry j).key
  obtain ⟨hmo, hom⟩ := mapConsistent_preserve hocc hkey P.map_occ P.occ_map
  refine ⟨⟨⟨index :: (l ++ r), hWF⟩, by rw [hsize]; exact P.size_eq, hmo, hom, P.cap_pos⟩,
    hlen, hsize, ?_⟩
  have := (hentry index).value
  rw [hnode] at this
  simpa using this

/-- Setting the visited bit preserves the common policy invariant. -/
theorem PolWF.flag_entry {a : Arena} {m : KeyMap} {cap : Nat} (P : PolWF a m cap)
    (index : Nat) (b : Bool) :
    PolWF (a.modifyNode index (fun n => { n with visited := b })) m cap ∧
    (a.modifyNode index (fun n => { n with visited := b })).len = a.len ∧
    (∀ j, ((a.modifyNode index (fun n => { n with visited := b })).get j).isSome
      = (a.get j).isSome) := by
  obtain ⟨xs, W⟩ := P.arena
  have hWF := W.modify_flag index b
  have hocc : ∀ j, ((a.modifyNode index (fun n => { n with visited := b })).get j).isSome
      = (a.get j).isSome := by
    intro j
    by_cases hj : j = index
    · subst hj
      rw [Arena.get_modifyNode_self]
      cases a.get j <;> rfl
    · rw [Arena.get_modifyNode_ne a index _ hj]
  have hkey : ∀ j, ((a.modifyNode index (fun n => { n with visited := b })).get j).map Node.key
      = (a.get j).map Node.key := by
    intro j
    by_cases hj : j = index
    · subst hj
      rw [Arena.get_modifyNode_self]
      cases a.get j <;> rfl
    · rw [Arena.get_modifyNode_ne a index _ hj]
  obtain ⟨hmo, hom⟩ := mapConsistent_preserve hocc hkey P.map_occ P.occ_map
  exact ⟨⟨⟨xs, hWF⟩, by rw [Arena.modifyNode_slots_length]; exact P.size_eq, hmo, hom,
    P.cap_pos⟩, by rw [Arena.modifyNode_len], hocc⟩

/-! ## The SIEVE invariant and the eviction scan -/

theorem ArenaWF.prev_ok {a : Arena} {xs : List Nat} {index : Nat} {node : Node}
    (W : ArenaWF a xs) (hnode : a.get index = some node) :
    node.prev = NIL ∨ (a.get node.prev).isSome = true := by
  have hmem : index ∈ xs := W.complete index (by simp [hnode])
  obtain ⟨l, r, hsplit⟩ := List.append_of_mem hmem
  subst hsplit
  have hseg := W.seg
  rw [dlseg_append, List.headD_cons] at hseg
  obtain ⟨_, node', hnode', hprev, _, _⟩ := hseg
  rw [hnode] at hnode'
  injection hnode' with hnode'
  subst hnode'
  rcases List.eq_nil_or_concat l with rfl | ⟨l', pp, hl⟩
  · left; simpa using hprev
  · right
    rw [List.concat_eq_append] at hl
    subst hl
    have hpmem : pp ∈ l' ++ [pp] ++ index :: r := by simp
    obtain ⟨n, hn⟩ := W.occupied pp hpmem
    rw [hprev, List.getLastD_concat, hn]
    rfl

theorem ArenaWF.len_pos_of_occupied {a : Arena} {xs : List Nat} {i : Nat}
    (W : ArenaWF a xs) (h : (a.get i).isSome = true) : 1 ≤ a.len := by
  have hmem : i ∈ xs := W.complete i h
  rw [W.len_eq]
  cases xs with
  | nil => cases hmem
  | cons x t => simp

/-- The visited bit of a slot (false for empty slots). -/
def slotVisited (a : Arena) (j : Nat) : Bool :=
  match a.get j with
  | some n => n.visited
  | none => false

/-- The number of occupied slots whose visited bit is set. -/
def visitedCount (a : Arena) : Nat :=
  ((List.range a.slots.length).filter (slotVisited a)).length

theorem visitedCount_le (a : Arena) : visitedCount a ≤ a.slots.length := by
  have := List.length_filter_le (slotVisited a) (List.range a.slots.length)
  simpa [visitedCount] using this

theorem length_filter_flip {lst : List Nat} {pr pr' : Nat → Bool} {i : Nat}
    (hmem : i ∈ lst) (hnodup : lst.Nodup) (hi : pr i = true) (hi' : pr' i = false)
    (hagree : ∀ j ∈ lst, j ≠ i → pr' j = pr j) :
    (lst.filter pr').length + 1 = (lst.filter pr).length := by
  obtain ⟨u, v, rfl⟩ := List.append_of_mem hmem
  rw [List.nodup_append] at hnodup
  obtain ⟨hu, hv, hdisj⟩ := hnodup
  have hi_u : i ∉ u := fun h => hdisj h (by simp)
  have hi_v : i ∉ v := (List.nodup_cons.1 hv).1
  rw [List.filter_append, List.filter_append, List.filter_cons, List.filter_cons,
      hi, hi']
  have hfu : u.filter pr' = u.filter pr :=
    List.filter_congr (fun j hj => hagree j (by simp [hj]) (fun he => hi_u (he ▸ hj)))
  have hfv : v.filter pr' = v.filter pr :=
    List.filter_congr (fun j hj => hagree j (by simp [hj]) (fun he => hi_v (he ▸ hj)))
  rw [hfu, hfv, if_pos rfl, if_neg (by simp)]
  simp only [List.length_append, List.length_cons]
  omega

theorem visitedCount_modify_false {a : Arena} {index : Nat} {n : Node}
    (hn : a.get index = some n) (hv : n.visited = true) :
    visitedCount (a.modifyNode index (fun m => { m with visited := false })) + 1
      = visitedCount a := by
  have hsize : (a.modifyNode index (fun m => { m with visited := false })).slots.length
      = a.slots.length := Arena.modifyNode_slots_length a index _
  unfold visitedCount
  rw [hsize]
  refine length_filter_flip (List.mem_range.2 (Arena.get_lt_length hn))
    (List.nodup_range _) ?_ ?_ ?_
  · simp only [slotVisited, hn]
    exact hv
  · simp [slotVisited, Arena.get_modifyNode_self, hn]
  · intro j _ hj
    unfold slotVisited
    rw [Arena.get_modifyNode_ne a index _ hj]

/-- The SIEVE invariant: the common policy invariant plus the hand invariant
(the hand is `NIL` or points at an occupied slot). -/
structure SieveWF (c : SieveCache) : Prop where
  pol : PolWF c.arena c.map c.capacity
  hand_ok : c.hand = NIL ∨ (c.arena.get c.hand).isSome = true

theorem SieveWF.sieve_new {capacity : Nat} (hpos : 0 < capacity) (hcap : capacity ≤ NIL) :
    SieveWF (SieveCache.new capacity) :=
  ⟨PolWF.pol_new capacity hpos hcap, Or.inl rfl⟩

/-- What one complete run of the eviction scan guarantees. -/
def evictResult (now fuel : Nat) (c : SieveCache) : Prop :=
  ∃ c', SieveCache.evictLoop now fuel c = some c' ∧ SieveWF c' ∧
    c'.capacity = c.capacity ∧
    c'.arena.slots.length = c.arena.slots.length ∧
    c'.hits = c.hits ∧ c'.misses = c.misses ∧
    (∀ k, c.map k = none → c'.map k = none) ∧
    ((c.arena.len = 0 ∧ c' = c) ∨ c'.arena.len + 1 = c.arena.len)

theorem SieveCache.evictLoop_wrap (now fuel : Nat) (c : SieveCache) (hh : c.hand = NIL)
    (ht : ¬({ c with hand := c.arena.tail } : SieveCache).hand = NIL) :
    SieveCache.evictLoop now (fuel + 1) c
      = SieveCache.evictLoop now (fuel + 1) { c with hand := c.arena.tail } := by
  conv_lhs => rw [SieveCache.evictLoop]
  conv_rhs => rw [SieveCache.evictLoop]
  rw [if_pos hh]
  simp only [if_neg ht]

theorem KeyMap.remove_none {m : KeyMap} {key k : String} (h : m k = none) :
    (m.remove key) k = none := by
  unfold KeyMap.remove
  by_cases hk : k = key
  · rw [if_pos hk]
  · rw [if_neg hk]; exact h

/-- Termination and correctness of the SIEVE eviction scan: on a well-formed
state, fuel `visitedCount + 2` suffices, the result is well-formed, the
stats besides `evictions` are unchanged, absent keys stay absent, and either
the cache was empty (and is untouched) or exactly one entry was evicted. -/
theorem SieveCache.evictLoop_spec (now : Nat) :
    ∀ fuel c, SieveWF c → visitedCount c.arena + 2 ≤ fuel →
      evictResult now fuel c := by
  intro fuel
  induction fuel with
  | zero => intro c _ hfuel; omega
  | succ fuel ih =>
    have key : ∀ c2, SieveWF c2 → (c2.arena.get c2.hand).isSome = true →
        visitedCount c2.arena + 2 ≤ fuel + 1 → evictResult now (fuel + 1) c2 := by
      intro c2 W2 hocc2 hfuel2
      obtain ⟨node, hnode⟩ := Option.isSome_iff_exists.1 hocc2
      have P := W2.pol
      obtain ⟨xs, Wx⟩ := P.arena
      have hhand2 : ¬c2.hand = NIL :=
        Wx.mem_ne_nil c2.hand (Wx.complete c2.hand (by simp [hnode]))
      have hpos : 1 ≤ c2.arena.len := Wx.len_pos_of_occupied hocc2
      unfold evictResult
      rw [SieveCache.evictLoop]
      simp only [if_neg hhand2]
      simp only [hnode]
      by_cases hexp : node.value.is_expired now = true
      · rw [if_pos hexp]
        obtain ⟨aN, hremove, PN, hlen, _, hsize, hprev_ok, _, _⟩ :=
          PolWF.remove_entry P hnode
        have hremove2 : ({ c2 with hand := node.prev } : SieveCache).arena.remove c2.hand
            = (aN, some node) := hremove
        simp only [hremove2]
        refine ⟨_, rfl, ⟨PN, hprev_ok⟩, rfl, hsize, rfl, rfl, ?_, ?_⟩
        · intro k hk
          exact KeyMap.remove_none hk
        · right
          show aN.len + 1 = c2.arena.len
          omega
      · rw [if_neg hexp]
        by_cases hvis : node.visited = true
        · rw [if_pos hvis]
          obtain ⟨P2, hlen2, hocc2'⟩ := PolWF.flag_entry P c2.hand false
          have hprev : node.prev = NIL ∨
              ((c2.arena.modifyNode c2.hand
                  (fun n => { n with visited := false })).get node.prev).isSome = true := by
            rcases Wx.prev_ok hnode with h | h
            · exact Or.inl h
            · right; rw [hocc2' node.prev]; exact h
          have W3 : SieveWF { c2 with
              arena := c2.arena.modifyNode c2.hand (fun n => { n with visited := false }),
              hand := node.prev } := ⟨P2, hprev⟩
          have hcount := visitedCount_modify_false hnode hvis
          obtain ⟨c', heq, W', hcap', hsz', hh', hm', hmap', hlen'⟩ :=
            ih _ W3 (show visitedCount (c2.arena.modifyNode c2.hand
              (fun n => { n with visited := false })) + 2 ≤ fuel by omega)
          refine ⟨c', heq, W', hcap', ?_, hh', hm', hmap', ?_⟩
          · rw [hsz']
            exact Arena.modifyNode_slots_length c2.arena _ _
          · rcases hlen' with ⟨h0, _⟩ | h
            · exfalso
              have h0' : (c2.arena.modifyNode c2.hand
                  (fun n => { n with visited := false })).len = 0 := h0
              omega
            · right
              have h' : c'.arena.len + 1 = (c2.arena.modifyNode c2.hand
                  (fun n => { n with visited := false })).len := h
              omega
        · rw [if_neg hvis]
          obtain ⟨aN, hremove, PN, hlen, _, hsize, hprev_ok, _, _⟩ :=
            PolWF.remove_entry P hnode
          have hremove2 : ({ c2 with hand := node.prev } : SieveCache).arena.remove c2.hand
              = (aN, some node) := hremove
          simp only [hremove2]
          refine ⟨_, rfl, ⟨PN, hprev_ok⟩, rfl, hsize, rfl, rfl, ?_, ?_⟩
          · intro k hk
            exact KeyMap.remove_none hk
          · right
            show aN.len + 1 = c2.arena.len
            omega
    intro c W hfuel
    by_cases hhand : c.hand = NIL
    · by_cases htail : c.arena.tail = NIL
      · -- empty cache: the wrapped hand is still NIL and the scan returns at once
        have ht2 : ({ c with hand := c.arena.tail } : SieveCache).hand = NIL := htail
        unfold evictResult
        rw [SieveCache.evictLoop]
        simp only [if_pos hhand]
        simp only [if_pos ht2]
        obtain ⟨xs, Wx⟩ := W.pol.arena
        have hlen0 : c.arena.len = 0 := by
          rcases List.eq_nil_or_concat xs with rfl | ⟨l', x, hxs⟩
          · rw [Wx.len_eq]; rfl
          · exfalso
            rw [List.concat_eq_append] at hxs
            subst hxs
            have hx : c.arena.tail = x := by rw [Wx.tail_eq, List.getLastD_concat]
            exact Wx.mem_ne_nil x (by simp) (hx.symm.trans htail)
        have hceq : ({ c with hand := c.arena.tail } : SieveCache) = c := by
          rw [htail, ← hhand]
        refine ⟨_, rfl, ?_, rfl, rfl, rfl, rfl, fun k hk => hk, Or.inl ⟨hlen0, hceq⟩⟩
        rw [hceq]
        exact W
      · -- wrap the hand to the (occupied) tail and run the main case
        have ht : ¬({ c with hand := c.arena.tail } : SieveCache).hand = NIL := htail
        obtain ⟨xs, Wx⟩ := W.pol.arena
        have hocc : (c.arena.get c.arena.tail).isSome = true := by
          rcases List.eq_nil_or_concat xs with rfl | ⟨l', x, hxs⟩
          · exact absurd Wx.tail_eq htail
          · rw [List.concat_eq_append] at hxs
            subst hxs
            have hx : c.arena.tail = x := by rw [Wx.tail_eq, List.getLastD_concat]
            obtain ⟨n, hn⟩ := Wx.occupied x (by simp)
            rw [hx, hn]
            rfl
        have W2 : SieveWF { c with hand := c.arena.tail } := ⟨W.pol, Or.inr hocc⟩
        obtain ⟨c', heq, W', hcap', hsz', hh', hm', hmap', hlen'⟩ := key _ W2 hocc hfuel
        refine ⟨c', ?_, W', hcap', hsz', hh', hm', hmap', ?_⟩
        · rw [SieveCache.evictLoop_wrap now fuel c hhand ht]
          exact heq
        · rcases hlen' with ⟨h0, _⟩ | h
          · exfalso
            have hpos : 1 ≤ c.arena.len := Wx.len_pos_of_occupied hocc
            have h0' : c.arena.len = 0 := h0
            omega
          · right
            exact h
    · rcases W.hand_ok with h | hocc
      · exact absurd h hhand
      · exact key c W hocc hfuel

/-- `evict_one` on a well-formed state: the default fuel suffices, so the
scan's guarantees transfer to the `getD`-wrapped result. -/
theorem SieveCache.evict_one_spec {c : SieveCache} (now : Nat) (W : SieveWF c) :
    SieveWF (c.evict_one now) ∧
    (c.evict_one now).capacity = c.capacity ∧
    (c.evict_one now).arena.slots.length = c.arena.slots.length ∧
    (c.evict_one now).hits = c.hits ∧ (c.evict_one now).misses = c.misses ∧
    (∀ k, c.map k = none → (c.evict_one now).map k = none) ∧
    ((c.arena.len = 0 ∧ c.evict_one now = c) ∨
      (c.evict_one now).arena.len + 1 = c.arena.len) := by
  have hfuel : visitedCount c.arena + 2 ≤ c.arena.slots.length + 2 := by
    have := visitedCount_le c.arena
    omega
  obtain ⟨c', heq, W', hcap, hsz, hh, hm, hmap, hlen⟩ :=
    SieveCache.evictLoop_spec now (c.arena.slots.length + 2) c W hfuel
  have he : c.evict_one now = c' := by
    unfold SieveCache.evict_one
    rw [heq]
    rfl
  rw [he]
  exact ⟨W', hcap, hsz, hh, hm, hmap, hlen⟩

/-- The eviction `while` loop of `SieveCache::insert`: with enough fuel the
loop exits below capacity, preserving the invariant, the capacity, the
slot count, the hit and miss counters and absent keys, without ever growing
the cache. -/
theorem SieveCache.evictWhile_spec (now : Nat) :
    ∀ fuel c, SieveWF c → c.arena.len < fuel + c.capacity →
      SieveWF (SieveCache.evictWhile now fuel c) ∧
      (SieveCache.evictWhile now fuel c).capacity = c.capacity ∧
      (SieveCache.evictWhile now fuel c).arena.slots.length = c.arena.slots.length ∧
      (SieveCache.evictWhile now fuel c).hits = c.hits ∧
      (SieveCache.evictWhile now fuel c).misses = c.misses ∧
      (∀ k, c.map k = none → (SieveCache.evictWhile now fuel c).map k = none) ∧
      (SieveCache.evictWhile now fuel c).arena.len < c.capacity ∧
      (SieveCache.evictWhile now fuel c).arena.len ≤ c.arena.len ∧
      (c.arena.len < c.capacity → SieveCache.evictWhile now fuel c = c) := by
  intro fuel
  induction fuel with
  | zero =>
    intro c W hfuel
    refine ⟨W, rfl, rfl, rfl, rfl, fun k hk => hk, ?_, Nat.le_refl _, fun _ => rfl⟩
    show c.arena.len < c.capacity
    omega
  | succ fuel ih =>
    intro c W hfuel
    rw [SieveCache.evictWhile]
    by_cases hcond : c.capacity ≤ c.arena.len
    · rw [if_pos hcond]
      obtain ⟨W1, hcap1, hsz1, hh1, hm1, hmap1, hlen1⟩ := SieveCache.evict_one_spec now W
      have hcappos : 0 < c.capacity := W.pol.cap_pos
      rcases hlen1 with ⟨h0, _⟩ | h1
      · omega
      · have hfuel1 : (c.evict_one now).arena.len < fuel + (c.evict_one now).capacity := by
          rw [hcap1]
          omega
        obtain ⟨W', hcap', hsz', hh', hm', hmap', hlt', hle', _⟩ := ih (c.evict_one now) W1 hfuel1
        refine ⟨W', hcap'.trans hcap1, hsz'.trans hsz1, hh'.trans hh1, hm'.trans hm1,
          fun k hk => hmap' k (hmap1 k hk), ?_, ?_, fun h => absurd hcond (by omega)⟩
        · rw [← hcap1]
          exact hlt'
        · omega
    · rw [if_neg hcond]
      exact ⟨W, rfl, rfl, rfl, rfl, fun k hk => hk, by omega, Nat.le_refl _, fun _ => rfl⟩

/-- `SieveCache::get` on a well-formed state: the invariant, capacity and
slot count are preserved, exactly one of `hits`/`misses` is incremented,
the entry count never grows, and an absent key is a pure miss. -/
theorem SieveCache.sieve_get_spec (now : Nat) (key : String) {c : SieveCache} (W : SieveWF c) :
    SieveWF (c.get now key).1 ∧
    (c.get now key).1.capacity = c.capacity ∧
    (c.get now key).1.arena.slots.length = c.arena.slots.length ∧
    (((c.get now key).1.hits = c.hits + 1 ∧ (c.get now key).1.misses = c.misses) ∨
     ((c.get now key).1.hits = c.hits ∧ (c.get now key).1.misses = c.misses + 1)) ∧
    (c.get now key).1.arena.len ≤ c.arena.len ∧
    (c.map key = none → c.get now key = ({ c with misses := c.misses + 1 }, none)) := by
  have P := W.pol
  cases hmap : c.map key with
  | none =>
    have hres : c.get now key = ({ c with misses := c.misses + 1 }, none) := by
      unfold SieveCache.get
      simp only [hmap]
    rw [hres]
    exact ⟨⟨P, W.hand_ok⟩, rfl, rfl, Or.inr ⟨rfl, rfl⟩, Nat.le_refl _, fun _ => rfl⟩
  | some index =>
    obtain ⟨node, hnode, hkey⟩ := P.map_occ key index hmap
    by_cases hexp : node.value.is_expired now = true
    · obtain ⟨aN, hremove, PN, hlen, hpos, hsize, hprev_ok, hocc_pres, _⟩ :=
        PolWF.remove_entry P hnode
      rw [hkey] at PN
      by_cases hhand : c.hand = index
      · have hhand' : ({ c with misses := c.misses + 1, map := c.map.remove key }
            : SieveCache).hand = index := hhand
        have hremove' : ({ c with
            misses := c.misses + 1, map := c.map.remove key, hand := node.prev }
            : SieveCache).arena.remove index = (aN, some node) := hremove
        have hres : c.get now key = ({ c with
            misses := c.misses + 1, map := c.map.remove key, hand := node.prev,
            arena := aN }, none) := by
          unfold SieveCache.get
          simp only [hmap, hnode]
          rw [if_pos hexp]
          simp only [if_pos hhand']
          simp only [hremove']
        rw [hres]
        refine ⟨⟨PN, hprev_ok⟩, rfl, hsize, Or.inr ⟨rfl, rfl⟩, ?_,
          fun hk => absurd hk (Option.some_ne_none index)⟩
        show aN.len ≤ c.arena.len
        omega
      · have hhand' : ¬({ c with misses := c.misses + 1, map := c.map.remove key }
            : SieveCache).hand = index := hhand
        have hremove' : ({ c with misses := c.misses + 1, map := c.map.remove key }
            : SieveCache).arena.remove index = (aN, some node) := hremove
        have hres : c.get now key = ({ c with
            misses := c.misses + 1, map := c.map.remove key, arena := aN }, none) := by
          unfold SieveCache.get
          simp only [hmap, hnode]
          rw [if_pos hexp]
          simp only [if_neg hhand']
          simp only [hremove']
        rw [hres]
        refine ⟨⟨PN, ?_⟩, rfl, hsize, Or.inr ⟨rfl, rfl⟩, ?_,
          fun hk => absurd hk (Option.some_ne_none index)⟩
        · rcases W.hand_ok with h | h
          · exact Or.inl h
          · right
            show (aN.get c.hand).isSome = true
            rw [hocc_pres c.hand hhand]
            exact h
        · show aN.len ≤ c.arena.len
          omega
    · obtain ⟨P2, hlen2, hocc2⟩ := PolWF.flag_entry P index true
      have hres : c.get now key = ({ c with
          hits := c.hits + 1,
          arena := c.arena.modifyNode index (fun n => { n with visited := true }) },
          some node.value) := by
        unfold SieveCache.get
        simp only [hmap, hnode]
        rw [if_neg hexp]
      rw [hres]
      refine ⟨⟨P2, ?_⟩, rfl, Arena.modifyNode_slots_length c.arena _ _,
        Or.inl ⟨rfl, rfl⟩, Nat.le_of_eq hlen2,
        fun hk => absurd hk (Option.some_ne_none index)⟩
      rcases W.hand_ok with h | h
      · exact Or.inl h
      · right
        show ((c.arena.modifyNode index
            (fun n => { n with visited := true })).get c.hand).isSome = true
        rw [hocc2 c.hand]
        exact h

theorem KeyMap.remove_self (m : KeyMap) (k : String) : (m.remove k) k = none := by
  unfold KeyMap.remove
  rw [if_pos rfl]

/-- `SieveCache::remove` on a well-formed state: the invariant, capacity,
slot count and hit/miss counters are preserved; the returned flag reports
whether the key was mapped; a present key costs exactly one entry and is no
longer mapped afterwards; an absent key leaves the cache untouched. -/
theorem SieveCache.sieve_remove_spec (key : String) {c : SieveCache} (W : SieveWF c) :
    SieveWF (c.remove key).1 ∧
    (c.remove key).1.capacity = c.capacity ∧
    (c.remove key).1.arena.slots.length = c.arena.slots.length ∧
    (c.remove key).1.hits = c.hits ∧ (c.remove key).1.misses = c.misses ∧
    (c.remove key).2 = (c.map key).isSome ∧
    ((c.map key).isSome = true →
      (c.remove key).1.arena.len + 1 = c.arena.len ∧ (c.remove key).1.map key = none) ∧
    (c.map key = none → (c.remove key).1 = c) := by
  have P := W.pol
  cases hmap : c.map key with
  | none =>
    have hres : c.remove key = (c, false) := by
      unfold SieveCache.remove
      simp only [hmap]
    rw [hres]
    exact ⟨W, rfl, rfl, rfl, rfl, rfl, fun h => absurd h (by simp), fun _ => rfl⟩
  | some index =>
    obtain ⟨node, hnode, hkey⟩ := P.map_occ key index hmap
    obtain ⟨aN, hremove, PN, hlen, hpos, hsize, hprev_ok, hocc_pres, _⟩ :=
      PolWF.remove_entry P hnode
    rw [hkey] at PN
    by_cases hhand : c.hand = index
    · have hhand' : ({ c with map := c.map.remove key } : SieveCache).hand = index := hhand
      have hnode' : ({ c with map := c.map.remove key } : SieveCache).arena.get index
          = some node := hnode
      have hremove' : ({ c with map := c.map.remove key, hand := node.prev }
          : SieveCache).arena.remove index = (aN, some node) := hremove
      have hres : c.remove key = ({ c with
          map := c.map.remove key, hand := node.prev, arena := aN }, true) := by
        unfold SieveCache.remove
        simp only [hmap]
        simp only [if_pos hhand']
        simp only [hnode']
        simp only [hremove']
      rw [hres]
      refine ⟨⟨PN, hprev_ok⟩, rfl, hsize, rfl, rfl, rfl, fun _ => ⟨?_, ?_⟩,
        fun hk => absurd hk (Option.some_ne_none index)⟩
      · show aN.len + 1 = c.arena.len
        omega
      · exact KeyMap.remove_self c.map key
    · have hhand' : ¬({ c with map := c.map.remove key } : SieveCache).hand = index := hhand
      have hremove' : ({ c with map := c.map.remove key }
          : SieveCache).arena.remove index = (aN, some node) := hremove
      have hres : c.remove key = ({ c with
          map := c.map.remove key, arena := aN }, true) := by
        unfold SieveCache.remove
        simp only [hmap]
        simp only [if_neg hhand']
        simp only [hremove']
      rw [hres]
      refine ⟨⟨PN, ?_⟩, rfl, hsize, rfl, rfl, rfl, fun _ => ⟨?_, ?_⟩,
        fun hk => absurd hk (Option.some_ne_none index)⟩
      · rcases W.hand_ok with h | h
        · exact Or.inl h
        · right
          show (aN.get c.hand).isSome = true
          rw [hocc_pres c.hand hhand]
          exact h
      · show aN.len + 1 = c.arena.len
        omega
      · exact KeyMap.remove_self c.map key

/-- `SieveCache::insert` on a well-formed state: the invariant, capacity and
slot count are preserved, and re-inserting a key that is already present
leaves the entry count unchanged. -/
theorem SieveCache.sieve_insert_spec (now : Nat) (key : String) (value : CachedResponse)
    {c : SieveCache} (W : SieveWF c) :
    SieveWF (c.insert now key value) ∧
    (c.insert now key value).capacity = c.capacity ∧
    (c.insert now key value).arena.slots.length = c.arena.slots.length ∧
    ((c.map key).isSome = true → (c.insert now key value).arena.len = c.arena.len) := by
  have P := W.pol
  obtain ⟨xs, Wx⟩ := P.arena
  have hlencap : c.arena.len ≤ c.capacity := by
    have := Wx.len_le_size
    have := P.size_eq
    omega
  cases hmap : c.map key with
  | none =>
    unfold SieveCache.insert
    simp only [hmap]
    obtain ⟨W2, hcap2, hsz2, _, _, hmapn2, hlt2, hle2, _⟩ :=
      SieveCache.evictWhile_spec now (c.arena.len + 1) c W (by omega)
    obtain ⟨aP, f, hpush, PP, hlenP, hsizeP, hoccP, hfP⟩ :=
      PolWF.push_entry key value W2.pol (hmapn2 key hmap) (by rw [hcap2]; exact hlt2)
    simp only [hpush]
    refine ⟨⟨PP, ?_⟩, ?_, ?_, ?_⟩
    · rcases W2.hand_ok with h | h
      · exact Or.inl h
      · right
        have hne : (SieveCache.evictWhile now (c.arena.len + 1) c).hand ≠ f := by
          intro he
          rw [he, hfP] at h
          exact absurd h (by simp)
        show (aP.get (SieveCache.evictWhile now (c.arena.len + 1) c).hand).isSome = true
        rw [hoccP _ hne]
        exact h
    · first
      | exact trivial
      | exact hcap2
    · show aP.slots.length = c.arena.slots.length
      rw [hsizeP]
      exact hsz2
    · first
      | exact trivial
      | exact fun h => absurd h (by simp)
  | some old_index =>
    obtain ⟨node, hnode, hkey⟩ := P.map_occ key old_index hmap
    obtain ⟨aN, hremove, PN, hlen1, hpos1, hsize1, hprev1, hocc1, _⟩ :=
      PolWF.remove_entry P hnode
    rw [hkey] at PN
    have hpos : 1 ≤ c.arena.len := Wx.len_pos_of_occupied
      (show (c.arena.get old_index).isSome = true by simp [hnode])
    by_cases hhand : c.hand = old_index
    · unfold SieveCache.insert
      simp only [hmap]
      simp only [if_pos hhand]
      simp only [hnode]
      simp only [hremove]
      have W1 : SieveWF { c with
          hand := node.prev, arena := aN, map := c.map.remove key } := ⟨PN, hprev1⟩
      obtain ⟨_, _, _, _, _, _, _, _, hid⟩ :=
        SieveCache.evictWhile_spec now (aN.len + 1) _ W1
          (show aN.len < aN.len + 1 + c.capacity by omega)
      have hid2 := hid (show aN.len < c.capacity by omega)
      simp only [hid2]
      obtain ⟨aP, f, hpush, PP, hlenP, hsizeP, hoccP, hfP⟩ :=
        PolWF.push_entry key value PN (KeyMap.remove_self c.map key)
          (show aN.len < c.capacity by omega)
      simp only [hpush]
      refine ⟨⟨PP, ?_⟩, ?_, ?_, ?_⟩
      · rcases hprev1 with h | h
        · exact Or.inl h
        · right
          have hne : node.prev ≠ f := by
            intro he
            rw [he, hfP] at h
            exact absurd h (by simp)
          show (aP.get node.prev).isSome = true
          rw [hoccP _ hne]
          exact h
      · exact trivial
      · show aP.slots.length = c.arena.slots.length
        rw [hsizeP]
        exact hsize1
      · intro h
        show aP.len = c.arena.len
        omega
    · unfold SieveCache.insert
      simp only [hmap]
      simp only [if_neg hhand]
      simp only [hremove]
      have hhandok : ({ c with arena := aN, map := c.map.remove key }
          : SieveCache).hand = NIL ∨
          (aN.get c.hand).isSome = true := by
        rcases W.hand_ok with h | h
        · exact Or.inl h
        · right
          rw [hocc1 c.hand hhand]
          exact h
      have W1 : SieveWF { c with arena := aN, map := c.map.remove key } := ⟨PN, hhandok⟩
      obtain ⟨_, _, _, _, _, _, _, _, hid⟩ :=
        SieveCache.evictWhile_spec now (aN.len + 1) _ W1
          (show aN.len < aN.len + 1 + c.capacity by omega)
      have hid2 := hid (show aN.len < c.capacity by omega)
      simp only [hid2]
      obtain ⟨aP, f, hpush, PP, hlenP, hsizeP, hoccP, hfP⟩ :=
        PolWF.push_entry key value PN (KeyMap.remove_self c.map key)
          (show aN.len < c.capacity by omega)
      simp only [hpush]
      refine ⟨⟨PP, ?_⟩, ?_, ?_, ?_⟩
      · rcases hhandok with h | h
        · exact Or.inl h
        · right
          have hne : c.hand ≠ f := by
            intro he
            rw [he, hfP] at h
            exact absurd h (by simp)
          show (aP.get c.hand).isSome = true
          rw [hoccP _ hne]
          exact h
      · exact trivial
      · show aP.slots.length = c.arena.slots.length
        rw [hsizeP]
        exact hsize1
      · intro h
        show aP.len = c.arena.len
        omega

/-! ## FIFO and LRU -/

/-- Popping the tail of a nonempty well-formed arena and dropping its key
from the map preserves the common policy invariant. -/
theorem PolWF.pop_entry {a : Arena} {m : KeyMap} {cap : Nat}
    (P : PolWF a m cap) (hpos : 1 ≤ a.len) :
    ∃ aN t node, a.pop_tail = (aN, some (t, node)) ∧
      PolWF aN (m.remove node.key) cap ∧
      aN.len = a.len - 1 ∧
      aN.slots.length = a.slots.length := by
  obtain ⟨xs, W⟩ := P.arena
  rcases List.eq_nil_or_concat xs with rfl | ⟨l, t, hxs⟩
  · exfalso
    rw [W.len_eq] at hpos
    simp at hpos
  · rw [List.concat_eq_append] at hxs
    subst hxs
    have htail : a.tail = t := by rw [W.tail_eq, List.getLastD_concat]
    have htail_ne : a.tail ≠ NIL := by
      rw [htail]
      exact W.mem_ne_nil t (by simp)
    obtain ⟨node, hnode⟩ := W.occupied t (by simp)
    obtain ⟨aN, hremove, PN, hlen, _, hsize, _, _, _⟩ := PolWF.remove_entry P hnode
    refine ⟨aN, t, node, ?_, PN, hlen, hsize⟩
    unfold Arena.pop_tail
    rw [if_neg htail_ne]
    simp only [htail, hremove]

/-- The shared tail-eviction loop of `FifoCache::insert` and
`LruCache::insert`: with enough fuel it exits below capacity preserving the
policy invariant, the slot count and absent keys, and it is the identity
when already below capacity. -/
theorem evictTailWhile_spec :
    ∀ fuel (a : Arena) (m : KeyMap) (ev cap : Nat), PolWF a m cap →
      a.len < fuel + cap →
      ∃ aR mR evR, evictTailWhile fuel (a, m, ev) cap = (aR, mR, evR) ∧
        PolWF aR mR cap ∧ aR.len < cap ∧ aR.len ≤ a.len ∧
        aR.slots.length = a.slots.length ∧
        (∀ k, m k = none → mR k = none) ∧
        (a.len < cap → evictTailWhile fuel (a, m, ev) cap = (a, m, ev)) := by
  intro fuel
  induction fuel with
  | zero =>
    intro a m ev cap P hfuel
    exact ⟨a, m, ev, rfl, P, by omega, Nat.le_refl _, rfl, fun k hk => hk, fun _ => rfl⟩
  | succ fuel ih =>
    intro a m ev cap P hfuel
    rw [evictTailWhile]
    by_cases hcond : cap ≤ a.len
    · rw [if_pos hcond]
      have hpos : 1 ≤ a.len := by
        have := P.cap_pos
        omega
      obtain ⟨aN, t, node, hpop, PN, hlenN, hsizeN⟩ := PolWF.pop_entry P hpos
      simp only [hpop]
      obtain ⟨aR, mR, evR, heq, PR, hlt, hle, hsz, hmapn, _⟩ :=
        ih aN (m.remove node.key) (ev + 1) cap PN (by omega)
      refine ⟨aR, mR, evR, heq, PR, hlt, by omega, hsz.trans hsizeN,
        fun k hk => hmapn k (KeyMap.remove_none hk), fun h => absurd hcond (by omega)⟩
    · rw [if_neg hcond]
      exact ⟨a, m, ev, rfl, P, by omega, Nat.le_refl _, rfl, fun k hk => hk, fun _ => rfl⟩

/-- The FIFO invariant is just the common policy invariant. -/
def FifoWF (c : FifoCache) : Prop := PolWF c.arena c.map c.capacity

/-- `FifoCache::get` on a well-formed state. -/
theorem FifoCache.fifo_get_spec (now : Nat) (key : String) {c : FifoCache} (W : FifoWF c) :
    FifoWF (c.get now key).1 ∧
    (c.get now key).1.capacity = c.capacity ∧
    (c.get now key).1.arena.slots.length = c.arena.slots.length ∧
    (((c.get now key).1.hits = c.hits + 1 ∧ (c.get now key).1.misses = c.misses) ∨
     ((c.get now key).1.hits = c.hits ∧ (c.get now key).1.misses = c.misses + 1)) ∧
    (c.get now key).1.arena.len ≤ c.arena.len ∧
    (c.map key = none → c.get now key = ({ c with misses := c.misses + 1 }, none)) := by
  cases hmap : c.map key with
  | none =>
    have hres : c.get now key = ({ c with misses := c.misses + 1 }, none) := by
      unfold FifoCache.get
      simp only [hmap]
    rw [hres]
    exact ⟨W, rfl, rfl, Or.inr ⟨rfl, rfl⟩, Nat.le_refl _, fun _ => rfl⟩
  | some index =>
    obtain ⟨node, hnode, hkey⟩ := W.map_occ key index hmap
    by_cases hexp : node.value.is_expired now = true
    · obtain ⟨aN, hremove, PN, hlen, hpos, hsize, _, _, _⟩ := PolWF.remove_entry W hnode
      rw [hkey] at PN
      have hremove' : ({ c with misses := c.misses + 1, map := c.map.remove key }
          : FifoCache).arena.remove index = (aN, some node) := hremove
      have hres : c.get now key = ({ c with
          misses := c.misses + 1, map := c.map.remove key, arena := aN }, none) := by
        unfold FifoCache.get
        simp only [hmap, hnode]
        rw [if_pos hexp]
        simp only [hremove']
      rw [hres]
      refine ⟨PN, rfl, hsize, Or.inr ⟨rfl, rfl⟩, ?_,
        fun hk => absurd hk (Option.some_ne_none index)⟩
      show aN.len ≤ c.arena.len
      omega
    · have hres : c.get now key = ({ c with hits := c.hits + 1 }, some node.value) := by
        unfold FifoCache.get
        simp only [hmap, hnode]
        rw [if_neg hexp]
      rw [hres]
      exact ⟨W, rfl, rfl, Or.inl ⟨rfl, rfl⟩, Nat.le_refl _,
        fun hk => absurd hk (Option.some_ne_none index)⟩

/-- `FifoCache::remove` on a well-formed state. -/
theorem FifoCache.fifo_remove_spec (key : String) {c : FifoCache} (W : FifoWF c) :
    FifoWF (c.remove key).1 ∧
    (c.remove key).1.capacity = c.capacity ∧
    (c.remove key).1.arena.slots.length = c.arena.slots.length ∧
    (c.remove key).1.hits = c.hits ∧ (c.remove key).1.misses = c.misses ∧
    (c.remove key).2 = (c.map key).isSome ∧
    ((c.map key).isSome = true →
      (c.remove key).1.arena.len + 1 = c.arena.len ∧ (c.remove key).1.map key = none) ∧
    (c.map key = none → (c.remove key).1 = c) := by
  cases hmap : c.map key with
  | none =>
    have hres : c.remove key = (c, false) := by
      unfold FifoCache.remove
      simp only [hmap]
    rw [hres]
    exact ⟨W, rfl, rfl, rfl, rfl, rfl, fun h => absurd h (by simp), fun _ => rfl⟩
  | some index =>
    obtain ⟨node, hnode, hkey⟩ := W.map_occ key index hmap
    obtain ⟨aN, hremove, PN, hlen, hpos, hsize, _, _, _⟩ := PolWF.remove_entry W hnode
    rw [hkey] at PN
    have hremove' : ({ c with map := c.map.remove key }
        : FifoCache).arena.remove index = (aN, some node) := hremove
    have hres : c.remove key = ({ c with
        map := c.map.remove key, arena := aN }, true) := by
      unfold FifoCache.remove
      simp only [hmap]
      simp only [hremove']
    rw [hres]
    refine ⟨PN, rfl, hsize, rfl, rfl, rfl, fun _ => ⟨?_, ?_⟩,
      fun hk => absurd hk (Option.some_ne_none index)⟩
    · show aN.len + 1 = c.arena.len
      omega
    · exact KeyMap.remove_self c.map key

/-- `FifoCache::insert` on a well-formed state. -/
theorem FifoCache.fifo_insert_spec (key : String) (value : CachedResponse)
    {c : FifoCache} (W : FifoWF c) :
    FifoWF (c.insert key value) ∧
    (c.insert key value).capacity = c.capacity ∧
    (c.insert key value).arena.slots.length = c.arena.slots.length ∧
    ((c.map key).isSome = true → (c.insert key value).arena.len = c.arena.len) := by
  obtain ⟨xs, Wx⟩ := W.arena
  have hlencap : c.arena.len ≤ c.capacity := by
    have := Wx.len_le_size
    have := W.size_eq
    omega
  cases hmap : c.map key with
  | none =>
    unfold FifoCache.insert
    simp only [hmap]
    obtain ⟨aR, mR, evR, heq, PR, hlt, hle, hsz, hmapn, _⟩ :=
      evictTailWhile_spec (c.arena.len + 1) c.arena c.map c.evictions c.capacity W (by omega)
    simp only [heq]
    obtain ⟨aP, f, hpush, PP, hlenP, hsizeP, hoccP, hfP⟩ :=
      PolWF.push_entry key value PR (hmapn key hmap) hlt
    simp only [hpush]
    refine ⟨PP, ?_, ?_, ?_⟩
    · exact trivial
    · show aP.slots.length = c.arena.slots.length
      rw [hsizeP]
      exact hsz
    · first
      | exact trivial
      | exact fun h => absurd h (by simp)
  | some old_index =>
    obtain ⟨node, hnode, hkey⟩ := W.map_occ key old_index hmap
    obtain ⟨aN, hremove, PN, hlen1, hpos1, hsize1, _, _, _⟩ := PolWF.remove_entry W hnode
    rw [hkey] at PN
    unfold FifoCache.insert
    simp only [hmap]
    simp only [hremove]
    obtain ⟨_, _, _, _, _, _, _, _, _, hid⟩ :=
      evictTailWhile_spec (aN.len + 1) aN (c.map.remove key) c.evictions c.capacity PN
        (show aN.len < aN.len + 1 + c.capacity by omega)
    have hid2 := hid (show aN.len < c.capacity by omega)
    simp only [hid2]
    obtain ⟨aP, f, hpush, PP, hlenP, hsizeP, hoccP, hfP⟩ :=
      PolWF.push_entry key value PN (KeyMap.remove_self c.map key)
        (show aN.len < c.capacity by omega)
    simp only [hpush]
    refine ⟨PP, ?_, ?_, ?_⟩
    · exact trivial
    · show aP.slots.length = c.arena.slots.length
      rw [hsizeP]
      exact hsize1
    · intro h
      show aP.len = c.arena.len
      omega

/-- The LRU invariant is just the common policy invariant. -/
def LruWF (c : LruCache) : Prop := PolWF c.arena c.map c.capacity

/-- `LruCache::get` on a well-formed state. -/
theorem LruCache.lru_get_spec (now : Nat) (key : String) {c : LruCache} (W : LruWF c) :
    LruWF (c.get now key).1 ∧
    (c.get now key).1.capacity = c.capacity ∧
    (c.get now key).1.arena.slots.length = c.arena.slots.length ∧
    (((c.get now key).1.hits = c.hits + 1 ∧ (c.get now key).1.misses = c.misses) ∨
     ((c.get now key).1.hits = c.hits ∧ (c.get now key).1.misses = c.misses + 1)) ∧
    (c.get now key).1.arena.len ≤ c.arena.len ∧
    (c.map key = none → c.get now key = ({ c with misses := c.misses + 1 }, none)) := by
  cases hmap : c.map key with
  | none =>
    have hres : c.get now key = ({ c with misses := c.misses + 1 }, none) := by
      unfold LruCache.get
      simp only [hmap]
    rw [hres]
    exact ⟨W, rfl, rfl, Or.inr ⟨rfl, rfl⟩, Nat.le_refl _, fun _ => rfl⟩
  | some index =>
    obtain ⟨node, hnode, hkey⟩ := W.map_occ key index hmap
    by_cases hexp : node.value.is_expired now = true
    · obtain ⟨aN, hremove, PN, hlen, hpos, hsize, _, _, _⟩ := PolWF.remove_entry W hnode
      rw [hkey] at PN
      have hremove' : ({ c with misses := c.misses + 1, map := c.map.remove key }
          : LruCache).arena.remove index = (aN, some node) := hremove
      have hres : c.get now key = ({ c with
          misses := c.misses + 1, map := c.map.remove key, arena := aN }, none) := by
        unfold LruCache.get
        simp only [hmap, hnode]
        rw [if_pos hexp]
        simp only [hremove']
      rw [hres]
      refine ⟨PN, rfl, hsize, Or.inr ⟨rfl, rfl⟩, ?_,
        fun hk => absurd hk (Option.some_ne_none index)⟩
      show aN.len ≤ c.arena.len
      omega
    · obtain ⟨PM, hlenM, hsizeM, hvalM⟩ := PolWF.move_entry W hnode
      have hres : (c.get now key).1 = { c with
          hits := c.hits + 1, arena := c.arena.move_to_head index } := by
        unfold LruCache.get
        simp only [hmap, hnode]
        rw [if_neg hexp]
      rw [hres]
      exact ⟨PM, rfl, hsizeM, Or.inl ⟨rfl, rfl⟩, Nat.le_of_eq hlenM,
        fun hk => absurd hk (Option.some_ne_none index)⟩

/-- `LruCache::remove` on a well-formed state. -/
theorem LruCache.lru_remove_spec (key : String) {c : LruCache} (W : LruWF c) :
    LruWF (c.remove key).1 ∧
    (c.remove key).1.capacity = c.capacity ∧
    (c.remove key).1.arena.slots.length = c.arena.slots.length ∧
    (c.remove key).1.hits = c.hits ∧ (c.remove key).1.misses = c.misses ∧
    (c.remove key).2 = (c.map key).isSome ∧
    ((c.map key).isSome = true →
      (c.remove key).1.arena.len + 1 = c.arena.len ∧ (c.remove key).1.map key = none) ∧
    (c.map key = none → (c.remove key).1 = c) := by
  cases hmap : c.map key with
  | none =>
    have hres : c.remove key = (c, false) := by
      unfold LruCache.remove
      simp only [hmap]
    rw [hres]
    exact ⟨W, rfl, rfl, rfl, rfl, rfl, fun h => absurd h (by simp), fun _ => rfl⟩
  | some index =>
    obtain ⟨node, hnode, hkey⟩ := W.map_occ key index hmap
    obtain ⟨aN, hremove, PN, hlen, hpos, hsize, _, _, _⟩ := PolWF.remove_entry W hnode
    rw [hkey] at PN
    have hremove' : ({ c with map := c.map.remove key }
        : LruCache).arena.remove index = (aN, some node) := hremove
    have hres : c.remove key = ({ c with
        map := c.map.remove key, arena := aN }, true) := by
      unfold LruCache.remove
      simp only [hmap]
      simp only [hremove']
    rw [hres]
    refine ⟨PN, rfl, hsize, rfl, rfl, rfl, fun _ => ⟨?_, ?_⟩,
      fun hk => absurd hk (Option.some_ne_none index)⟩
    · show aN.len + 1 = c.arena.len
      omega
    · exact KeyMap.remove_self c.map key

/-- `LruCache::insert` on a well-formed state. -/
theorem LruCache.lru_insert_spec (key : String) (value : CachedResponse)
    {c : LruCache} (W : LruWF c) :
    LruWF (c.insert key value) ∧
    (c.insert key value).capacity = c.capacity ∧
    (c.insert key value).arena.slots.length = c.arena.slots.length ∧
    ((c.map key).isSome = true → (c.insert key value).arena.len = c.arena.len) := by
  obtain ⟨xs, Wx⟩ := W.arena
  have hlencap : c.arena.len ≤ c.capacity := by
    have := Wx.len_le_size
    have := W.size_eq
    omega
  cases hmap : c.map key with
  | none =>
    unfold LruCache.insert
    simp only [hmap]
    obtain ⟨aR, mR, evR, heq, PR, hlt, hle, hsz, hmapn, _⟩ :=
      evictTailWhile_spec (c.arena.len + 1) c.arena c.map c.evictions c.capacity W (by omega)
    simp only [heq]
    obtain ⟨aP, f, hpush, PP, hlenP, hsizeP, hoccP, hfP⟩ :=
      PolWF.push_entry key value PR (hmapn key hmap) hlt
    simp only [hpush]
    refine ⟨PP, ?_, ?_, ?_⟩
    · exact trivial
    · show aP.slots.length = c.arena.slots.length
      rw [hsizeP]
      exact hsz
    · first
      | exact trivial
      | exact fun h => absurd h (by simp)
  | some old_index =>
    obtain ⟨node, hnode, hkey⟩ := W.map_occ key old_index hmap
    obtain ⟨aN, hremove, PN, hlen1, hpos1, hsize1, _, _, _⟩ := PolWF.remove_entry W hnode
    rw [hkey] at PN
    unfold LruCache.insert
    simp only [hmap]
    simp only [hremove]
    obtain ⟨_, _, _, _, _, _, _, _, _, hid⟩ :=
      evictTailWhile_spec (aN.len + 1) aN (c.map.remove key) c.evictions c.capacity PN
        (show aN.len < aN.len + 1 + c.capacity by omega)
    have hid2 := hid (show aN.len < c.capacity by omega)
    simp only [hid2]
    obtain ⟨aP, f, hpush, PP, hlenP, hsizeP, hoccP, hfP⟩ :=
      PolWF.push_entry key value PN (KeyMap.remove_self c.map key)
        (show aN.len < c.capacity by omega)
    simp only [hpush]
    refine ⟨PP, ?_, ?_, ?_⟩
    · exact trivial
    · show aP.slots.length = c.arena.slots.length
      rw [hsizeP]
      exact hsize1
    · intro h
      show aP.len = c.arena.len
      omega

/-- The entry count of a well-formed policy state never exceeds its
capacity. -/
theorem PolWF.len_le {a : Arena} {m : KeyMap} {cap : Nat} (P : PolWF a m cap) :
    a.len ≤ cap := by
  obtain ⟨xs, Wx⟩ := P.arena
  have := Wx.len_le_size
  have := P.size_eq
  omega

theorem SieveCache.sieve_step_spec {c : SieveCache} (W : SieveWF c) (op : CacheOp) :
    SieveWF (c.step op) ∧ (c.step op).capacity = c.capacity := by
  cases op with
  | get now k =>
    obtain ⟨W', hcap, _⟩ := SieveCache.sieve_get_spec now k W
    exact ⟨W', hcap⟩
  | insert now k v =>
    obtain ⟨W', hcap, _⟩ := SieveCache.sieve_insert_spec now k v W
    exact ⟨W', hcap⟩
  | remove k =>
    obtain ⟨W', hcap, _⟩ := SieveCache.sieve_remove_spec k W
    exact ⟨W', hcap⟩

theorem SieveCache.sieve_run_spec : ∀ (ops : List CacheOp) (c : SieveCache), SieveWF c →
    SieveWF (c.run ops) ∧ (c.run ops).capacity = c.capacity := by
  intro ops
  induction ops with
  | nil =>
    intro c W
    exact ⟨W, rfl⟩
  | cons op ops ih =>
    intro c W
    obtain ⟨W1, hcap1⟩ := SieveCache.sieve_step_spec W op
    obtain ⟨W', hcap'⟩ := ih (c.step op) W1
    exact ⟨W', hcap'.trans hcap1⟩

theorem FifoCache.fifo_step_spec {c : FifoCache} (W : FifoWF c) (op : CacheOp) :
    FifoWF (c.step op) ∧ (c.step op).capacity = c.capacity := by
  cases op with
  | get now k =>
    obtain ⟨W', hcap, _⟩ := FifoCache.fifo_get_spec now k W
    exact ⟨W', hcap⟩
  | insert now k v =>
    obtain ⟨W', hcap, _⟩ := FifoCache.fifo_insert_spec k v W
    exact ⟨W', hcap⟩
  | remove k =>
    obtain ⟨W', hcap, _⟩ := FifoCache.fifo_remove_spec k W
    exact ⟨W', hcap⟩

theorem FifoCache.fifo_run_spec : ∀ (ops : List CacheOp) (c : FifoCache), FifoWF c →
    FifoWF (c.run ops) ∧ (c.run ops).capacity = c.capacity := by
  intro ops
  induction ops with
  | nil =>
    intro c W
    exact ⟨W, rfl⟩
  | cons op ops ih =>
    intro c W
    obtain ⟨W1, hcap1⟩ := FifoCache.fifo_step_spec W op
    obtain ⟨W', hcap'⟩ := ih (c.step op) W1
    exact ⟨W', hcap'.trans hcap1⟩

theorem LruCache.lru_step_spec {c : LruCache} (W : LruWF c) (op : CacheOp) :
    LruWF (c.step op) ∧ (c.step op).capacity = c.capacity := by
  cases op with
  | get now k =>
    obtain ⟨W', hcap, _⟩ := LruCache.lru_get_spec now k W
    exact ⟨W', hcap⟩
  | insert now k v =>
    obtain ⟨W', hcap, _⟩ := LruCache.lru_insert_spec k v W
    exact ⟨W', hcap⟩
  | remove k =>
    obtain ⟨W', hcap, _⟩ := LruCache.lru_remove_spec k W
    exact ⟨W', hcap⟩

theorem LruCache.lru_run_spec : ∀ (ops : List CacheOp) (c : LruCache), LruWF c →
    LruWF (c.run ops) ∧ (c.run ops).capacity = c.capacity := by
  intro ops
  induction ops with
  | nil =>
    intro c W
    exact ⟨W, rfl⟩
  | cons op ops ih =>
    intro c W
    obtain ⟨W1, hcap1⟩ := LruCache.lru_step_spec W op
    obtain ⟨W', hcap'⟩ := ih (c.step op) W1
    exact ⟨W', hcap'.trans hcap1⟩

theorem FifoWF.fifo_new {capacity : Nat} (hpos : 0 < capacity) (hcap : capacity ≤ NIL) :
    FifoWF (FifoCache.new capacity) :=
  PolWF.pol_new capacity hpos hcap

theorem LruWF.lru_new {capacity : Nat} (hpos : 0 < capacity) (hcap : capacity ≤ NIL) :
    LruWF (LruCache.new capacity) :=
  PolWF.pol_new capacity hpos hcap

/-! ## Slot-count preservation and the endpoint characterisations -/

theorem Arena.new_slots_length (capacity : Nat) :
    (Arena.new capacity).slots.length = capacity := by
  show (List.replicate capacity (none : Option Node)).length = capacity
  rw [List.length_replicate]

theorem Arena.step_size {a : Arena} {xs : List Nat} (W : ArenaWF a xs) (op : ArenaOp) :
    (a.step op).slots.length = a.slots.length := by
  cases op with
  | push k v =>
    show (match a.push_head (Node.new k v) with
      | some (a', _) => a' | none => a).slots.length = a.slots.length
    cases hfree : a.free_list with
    | nil =>
      have : a.push_head (Node.new k v) = none := by
        unfold Arena.push_head
        rw [hfree]
      rw [this]
    | cons f rest =>
      obtain ⟨a', hpush, _, _, _, _, hsize, _, _⟩ := Arena.push_head_spec W hfree (Node.new k v)
      rw [hpush]
      exact hsize
  | remove i =>
    show (a.remove i).1.slots.length = a.slots.length
    cases hget : a.get i with
    | none =>
      have : a.remove i = (a, none) := by
        unfold Arena.remove
        rw [hget]
      rw [this]
    | some n =>
      obtain ⟨sidx, tidx, hsplit⟩ := List.append_of_mem (W.complete i (by simp [hget]))
      subst hsplit
      obtain ⟨node, aN, _, hremove, _, _, _, _, _, _, hsize, _⟩ := Arena.remove_spec W
      rw [hremove]
      exact hsize
  | moveToHead i =>
    show (a.move_to_head i).slots.length = a.slots.length
    cases hget : a.get i with
    | none =>
      have : a.move_to_head i = a := by
        unfold Arena.move_to_head
        by_cases hh : a.head = i
        · rw [if_pos hh]
        · rw [if_neg hh, hget]
      rw [this]
    | some n =>
      obtain ⟨sidx, tidx, hsplit⟩ := List.append_of_mem (W.complete i (by simp [hget]))
      subst hsplit
      obtain ⟨_, _, _, hsize, _⟩ := Arena.move_to_head_spec W
      exact hsize
  | popTail =>
    show (a.pop_tail).1.slots.length = a.slots.length
    rcases List.eq_nil_or_concat xs with rfl | ⟨l, t, hxs⟩
    · rw [Arena.pop_tail_nil W rfl]
    · rw [List.concat_eq_append] at hxs
      subst hxs
      obtain ⟨node, aN, _, hpop, _, _, _, _, hsize, _⟩ := Arena.pop_tail_spec W
      rw [hpop]
      exact hsize

/-- Any operation sequence from a fresh arena yields a well-formed arena
with the original slot count. -/
theorem Arena.run_inv {capacity : Nat} (hcap : capacity ≤ NIL) (ops : List ArenaOp) :
    ∃ xs, ArenaWF (Arena.run (Arena.new capacity) ops) xs ∧
      (Arena.run (Arena.new capacity) ops).slots.length = capacity := by
  suffices h : ∀ (a : Arena) (xs : List Nat), ArenaWF a xs →
      ∃ xs', ArenaWF (Arena.run a ops) xs' ∧
        (Arena.run a ops).slots.length = a.slots.length by
    obtain ⟨xs', hWF, hsz⟩ := h _ [] (ArenaWF.arena_new capacity hcap)
    exact ⟨xs', hWF, hsz.trans (Arena.new_slots_length capacity)⟩
  induction ops with
  | nil => exact fun a xs W => ⟨xs, W, rfl⟩
  | cons op rest ih =>
    intro a xs W
    obtain ⟨xs', hWF, hsz⟩ := ih _ _ (Arena.step_WF W op).choose_spec
    exact ⟨xs', hWF, hsz.trans (Arena.step_size W op)⟩

theorem ArenaWF.head_nil_iff {a : Arena} {xs : List Nat} (W : ArenaWF a xs) :
    a.head = NIL ↔ a.len = 0 := by
  rw [W.head_eq, W.len_eq]
  cases xs with
  | nil => simp
  | cons x t =>
    have hx := W.mem_ne_nil x (by simp)
    simp only [List.headD_cons, List.length_cons]
    constructor
    · intro h
      exact absurd h hx
    · intro h
      exact absurd h (by simp)

theorem ArenaWF.tail_nil_iff {a : Arena} {xs : List Nat} (W : ArenaWF a xs) :
    a.tail = NIL ↔ a.len = 0 := by
  rw [W.tail_eq, W.len_eq]
  rcases List.eq_nil_or_concat xs with rfl | ⟨l, t, hxs⟩
  · simp
  · rw [List.concat_eq_append] at hxs
    subst hxs
    have ht := W.mem_ne_nil t (by simp)
    rw [List.getLastD_concat]
    constructor
    · intro h
      exact absurd h ht
    · intro h
      rw [List.length_append] at h
      exact absurd h (by simp)

/-! ## The claims -/

/-- C1: SIEVE hand invariant — after any sequence of `get`/`insert`/`remove`
operations from a fresh `SieveCache`, the `hand` field is either `NIL` or
the index of a currently-occupied arena slot. -/
theorem claim_C1_sieve_hand_invariant (capacity : Nat) (ops : List CacheOp)
    (hpos : 0 < capacity) (hcap : capacity ≤ NIL) :
    ((SieveCache.new capacity).run ops).hand = NIL ∨
      ((((SieveCache.new capacity).run ops).arena.get
        ((SieveCache.new capacity).run ops).hand).isSome = true) :=
  ((SieveCache.sieve_run_spec ops _ (SieveWF.sieve_new hpos hcap)).1).hand_ok

theorem claim_C1_witness :
    0 < 3 ∧ 3 ≤ NIL ∧
    (((SieveCache.new 3).run []).hand = NIL ∨
      ((((SieveCache.new 3).run []).arena.get
        ((SieveCache.new 3).run []).hand).isSome = true)) :=
  ⟨by decide, by decide, claim_C1_sieve_hand_invariant 3 [] (by decide) (by decide)⟩

/-- C2: the SIEVE eviction scan terminates on every reachable state — fuel
`slots.length + 2` always suffices (so `evict_one` is the loop's result),
and the scan either finds the cache empty and leaves it unchanged or
removes exactly one entry. -/
theorem claim_C2_evict_one_terminates (capacity now : Nat) (ops : List CacheOp)
    (hpos : 0 < capacity) (hcap : capacity ≤ NIL) :
    ∃ c', SieveCache.evictLoop now
        (((SieveCache.new capacity).run ops).arena.slots.length + 2)
        ((SieveCache.new capacity).run ops) = some c' ∧
      SieveCache.evict_one now ((SieveCache.new capacity).run ops) = c' ∧
      ((((SieveCache.new capacity).run ops).arena.len = 0 ∧
          c' = (SieveCache.new capacity).run ops) ∨
        c'.arena.len + 1 = ((SieveCache.new capacity).run ops).arena.len) := by
  obtain ⟨W, _⟩ := SieveCache.sieve_run_spec ops _ (SieveWF.sieve_new hpos hcap)
  have hfuel : visitedCount ((SieveCache.new capacity).run ops).arena + 2 ≤
      ((SieveCache.new capacity).run ops).arena.slots.length + 2 := by
    have := visitedCount_le ((SieveCache.new capacity).run ops).arena
    omega
  obtain ⟨c', heq, _, _, _, _, _, _, hlen⟩ := SieveCache.evictLoop_spec now _ _ W hfuel
  refine ⟨c', heq, ?_, hlen⟩
  unfold SieveCache.evict_one
  rw [heq]
  rfl

theorem claim_C2_witness :
    0 < 3 ∧ 3 ≤ NIL ∧
    (∃ c', SieveCache.evictLoop 0
        (((SieveCache.new 3).run []).arena.slots.length + 2)
        ((SieveCache.new 3).run []) = some c' ∧
      SieveCache.evict_one 0 ((SieveCache.new 3).run []) = c' ∧
      ((((SieveCache.new 3).run []).arena.len = 0 ∧
          c' = (SieveCache.new 3).run []) ∨
        c'.arena.len + 1 = ((SieveCache.new 3).run []).arena.len)) :=
  ⟨by decide, by decide, claim_C2_evict_one_terminates 3 0 [] (by decide) (by decide)⟩

/-- The non-expiring response used by the scenario of C3. -/
def s3Value : CachedResponse :=
  { status := 200, headers := [], body := "x", insertedAt := 0, ttl := 1000 }

/-- The operation sequence of scenario S3: fill capacity 3 with a, b, c,
read a ten times, then insert d (all at instant 0, within the TTL). -/
def s3Ops : List CacheOp :=
  [CacheOp.insert 0 "a" s3Value, CacheOp.insert 0 "b" s3Value,
   CacheOp.insert 0 "c" s3Value] ++
  List.replicate 10 (CacheOp.get 0 "a") ++
  [CacheOp.insert 0 "d" s3Value]

/-- The SIEVE cache state after scenario S3's preparation. -/
def s3State : SieveCache := (SieveCache.new 3).run s3Ops

/-- C3: scenario S3 — on a fresh SIEVE cache of capacity 3, after
`insert a; insert b; insert c`, ten `get a` calls and `insert d`, the
subsequent reads observe: `a` present, `b` absent (it was the unvisited
eviction victim), `c` present, `d` present. -/
theorem claim_C3_sieve_scenario_s3 :
    ((s3State.get 0 "a").2.isSome = true) ∧
    (((s3State.get 0 "a").1.get 0 "b").2 = none) ∧
    ((((s3State.get 0 "a").1.get 0 "b").1.get 0 "c").2.isSome = true) ∧
    (((((s3State.get 0 "a").1.get 0 "b").1.get 0 "c").1.get 0 "d").2.isSome = true) := by
  decide

/-- C4: capacity bound — for every policy (SIEVE, FIFO, LRU) built with
capacity `C > 0` and every operation sequence, `len() ≤ C` holds. -/
theorem claim_C4_capacity_bound (capacity : Nat) (ops : List CacheOp)
    (hpos : 0 < capacity) (hcap : capacity ≤ NIL) :
    ((SieveCache.new capacity).run ops).arena.len ≤ capacity ∧
    ((FifoCache.new capacity).run ops).arena.len ≤ capacity ∧
    ((LruCache.new capacity).run ops).arena.len ≤ capacity := by
  refine ⟨?_, ?_, ?_⟩
  · obtain ⟨W, hc⟩ := SieveCache.sieve_run_spec ops _ (SieveWF.sieve_new hpos hcap)
    have := PolWF.len_le W.pol
    rw [hc] at this
    exact this
  · obtain ⟨W, hc⟩ := FifoCache.fifo_run_spec ops _ (FifoWF.fifo_new hpos hcap)
    have := PolWF.len_le W
    rw [hc] at this
    exact this
  · obtain ⟨W, hc⟩ := LruCache.lru_run_spec ops _ (LruWF.lru_new hpos hcap)
    have := PolWF.len_le W
    rw [hc] at this
    exact this

theorem claim_C4_witness :
    0 < 3 ∧ 3 ≤ NIL ∧
    (((SieveCache.new 3).run []).arena.len ≤ 3 ∧
     ((FifoCache.new 3).run []).arena.len ≤ 3 ∧
     ((LruCache.new 3).run []).arena.len ≤ 3) :=
  ⟨by decide, by decide, claim_C4_capacity_bound 3 [] (by decide) (by decide)⟩

/-- The shape of the lookup-statistics update: exactly one of the two
counters grew by one. -/
def statsDichotomy (h0 m0 h1 m1 : Nat) : Prop :=
  (h1 = h0 + 1 ∧ m1 = m0) ∨ (h1 = h0 ∧ m1 = m0 + 1)

/-- C5: lookup stats discipline — for every policy and every reachable
state, a single `get` call increments exactly one of `hits` and `misses`
by one and leaves the other unchanged. -/
theorem claim_C5_get_stats (capacity now : Nat) (key : String) (ops : List CacheOp)
    (hpos : 0 < capacity) (hcap : capacity ≤ NIL) :
    statsDichotomy ((SieveCache.new capacity).run ops).hits
      ((SieveCache.new capacity).run ops).misses
      ((((SieveCache.new capacity).run ops).get now key).1.hits)
      ((((SieveCache.new capacity).run ops).get now key).1.misses) ∧
    statsDichotomy ((FifoCache.new capacity).run ops).hits
      ((FifoCache.new capacity).run ops).misses
      ((((FifoCache.new capacity).run ops).get now key).1.hits)
      ((((FifoCache.new capacity).run ops).get now key).1.misses) ∧
    statsDichotomy ((LruCache.new capacity).run ops).hits
      ((LruCache.new capacity).run ops).misses
      ((((LruCache.new capacity).run ops).get now key).1.hits)
      ((((LruCache.new capacity).run ops).get now key).1.misses) := by
  refine ⟨?_, ?_, ?_⟩
  · exact (SieveCache.sieve_get_spec now key
      (SieveCache.sieve_run_spec ops _ (SieveWF.sieve_new hpos hcap)).1).2.2.2.1
  · exact (FifoCache.fifo_get_spec now key
      (FifoCache.fifo_run_spec ops _ (FifoWF.fifo_new hpos hcap)).1).2.2.2.1
  · exact (LruCache.lru_get_spec now key
      (LruCache.lru_run_spec ops _ (LruWF.lru_new hpos hcap)).1).2.2.2.1

theorem claim_C5_witness :
    0 < 3 ∧ 3 ≤ NIL ∧
    (statsDichotomy ((SieveCache.new 3).run []).hits
      ((SieveCache.new 3).run []).misses
      ((((SieveCache.new 3).run []).get 0 "k").1.hits)
      ((((SieveCache.new 3).run []).get 0 "k").1.misses) ∧
    statsDichotomy ((FifoCache.new 3).run []).hits
      ((FifoCache.new 3).run []).misses
      ((((FifoCache.new 3).run []).get 0 "k").1.hits)
      ((((FifoCache.new 3).run []).get 0 "k").1.misses) ∧
    statsDichotomy ((LruCache.new 3).run []).hits
      ((LruCache.new 3).run []).misses
      ((((LruCache.new 3).run []).get 0 "k").1.hits)
      ((((LruCache.new 3).run []).get 0 "k").1.misses)) :=
  ⟨by decide, by decide, claim_C5_get_stats 3 0 "k" [] (by decide) (by decide)⟩

/-- C6: re-insert preserves size — for every policy and every reachable
state in which `key` is present, `insert key value` leaves the entry count
unchanged (the old entry is removed first, so no other key is evicted and
the key is not double-counted). -/
theorem claim_C6_reinsert_preserves_len (capacity now : Nat) (key : String)
    (value : CachedResponse) (ops : List CacheOp)
    (hpos : 0 < capacity) (hcap : capacity ≤ NIL) :
    ((((SieveCache.new capacity).run ops).map key).isSome = true →
      (((SieveCache.new capacity).run ops).insert now key value).arena.len
        = ((SieveCache.new capacity).run ops).arena.len) ∧
    ((((FifoCache.new capacity).run ops).map key).isSome = true →
      (((FifoCache.new capacity).run ops).insert key value).arena.len
        = ((FifoCache.new capacity).run ops).arena.len) ∧
    ((((LruCache.new capacity).run ops).map key).isSome = true →
      (((LruCache.new capacity).run ops).insert key value).arena.len
        = ((LruCache.new capacity).run ops).arena.len) := by
  refine ⟨?_, ?_, ?_⟩
  · exact (SieveCache.sieve_insert_spec now key value
      (SieveCache.sieve_run_spec ops _ (SieveWF.sieve_new hpos hcap)).1).2.2.2
  · exact (FifoCache.fifo_insert_spec key value
      (FifoCache.fifo_run_spec ops _ (FifoWF.fifo_new hpos hcap)).1).2.2.2
  · exact (LruCache.lru_insert_spec key value
      (LruCache.lru_run_spec ops _ (LruWF.lru_new hpos hcap)).1).2.2.2

theorem claim_C6_witness :
    0 < 1 ∧ 1 ≤ NIL ∧
    (((((SieveCache.new 1).run [CacheOp.insert 0 "k" s3Value]).map "k").isSome = true →
      ((((SieveCache.new 1).run [CacheOp.insert 0 "k" s3Value])).insert 0 "k"
          s3Value).arena.len
        = ((SieveCache.new 1).run [CacheOp.insert 0 "k" s3Value]).arena.len) ∧
    ((((FifoCache.new 1).run [CacheOp.insert 0 "k" s3Value]).map "k").isSome = true →
      ((((FifoCache.new 1).run [CacheOp.insert 0 "k" s3Value])).insert "k"
          s3Value).arena.len
        = ((FifoCache.new 1).run [CacheOp.insert 0 "k" s3Value]).arena.len) ∧
    ((((LruCache.new 1).run [CacheOp.insert 0 "k" s3Value]).map "k").isSome = true →
      ((((LruCache.new 1).run [CacheOp.insert 0 "k" s3Value])).insert "k"
          s3Value).arena.len
        = ((LruCache.new 1).run [CacheOp.insert 0 "k" s3Value]).arena.len)) :=
  ⟨by decide, by decide,
    claim_C6_reinsert_preserves_len 1 0 "k" s3Value [CacheOp.insert 0 "k" s3Value]
      (by decide) (by decide)⟩

/-- C7: remove semantics — for every policy and every reachable state, if
`remove key` returns `true` then the key is no longer found by an immediate
`get`, the entry count has decreased by exactly one, and an immediate
second `remove key` returns `false`. -/
theorem claim_C7_remove_semantics (capacity now : Nat) (key : String)
    (ops : List CacheOp) (hpos : 0 < capacity) (hcap : capacity ≤ NIL) :
    ((((SieveCache.new capacity).run ops).remove key).2 = true →
      (((((SieveCache.new capacity).run ops).remove key).1.get now key).2 = none ∧
        (((SieveCache.new capacity).run ops).remove key).1.arena.len + 1
          = ((SieveCache.new capacity).run ops).arena.len ∧
        ((((SieveCache.new capacity).run ops).remove key).1.remove key).2 = false)) ∧
    ((((FifoCache.new capacity).run ops).remove key).2 = true →
      (((((FifoCache.new capacity).run ops).remove key).1.get now key).2 = none ∧
        (((FifoCache.new capacity).run ops).remove key).1.arena.len + 1
          = ((FifoCache.new capacity).run ops).arena.len ∧
        ((((FifoCache.new capacity).run ops).remove key).1.remove key).2 = false)) ∧
    ((((LruCache.new capacity).run ops).remove key).2 = true →
      (((((LruCache.new capacity).run ops).remove key).1.get now key).2 = none ∧
        (((LruCache.new capacity).run ops).remove key).1.arena.len + 1
          = ((LruCache.new capacity).run ops).arena.len ∧
        ((((LruCache.new capacity).run ops).remove key).1.remove key).2 = false)) := by
  refine ⟨?_, ?_, ?_⟩
  · obtain ⟨W, _⟩ := SieveCache.sieve_run_spec ops _ (SieveWF.sieve_new hpos hcap)
    obtain ⟨W1, _, _, _, _, hflag, hpresent, _⟩ := SieveCache.sieve_remove_spec key W
    intro hb
    obtain ⟨hlen, hmapnone⟩ := hpresent (hflag.symm.trans hb)
    obtain ⟨_, _, _, _, _, habsent⟩ := SieveCache.sieve_get_spec now key W1
    obtain ⟨_, _, _, _, _, hflag1, _, _⟩ := SieveCache.sieve_remove_spec key W1
    refine ⟨?_, hlen, ?_⟩
    · rw [habsent hmapnone]
    · rw [hflag1, hmapnone]
      rfl
  · obtain ⟨W, _⟩ := FifoCache.fifo_run_spec ops _ (FifoWF.fifo_new hpos hcap)
    obtain ⟨W1, _, _, _, _, hflag, hpresent, _⟩ := FifoCache.fifo_remove_spec key W
    intro hb
    obtain ⟨hlen, hmapnone⟩ := hpresent (hflag.symm.trans hb)
    obtain ⟨_, _, _, _, _, habsent⟩ := FifoCache.fifo_get_spec now key W1
    obtain ⟨_, _, _, _, _, hflag1, _, _⟩ := FifoCache.fifo_remove_spec key W1
    refine ⟨?_, hlen, ?_⟩
    · rw [habsent hmapnone]
    · rw [hflag1, hmapnone]
      rfl
  · obtain ⟨W, _⟩ := LruCache.lru_run_spec ops _ (LruWF.lru_new hpos hcap)
    obtain ⟨W1, _, _, _, _, hflag, hpresent, _⟩ := LruCache.lru_remove_spec key W
    intro hb
    obtain ⟨hlen, hmapnone⟩ := hpresent (hflag.symm.trans hb)
    obtain ⟨_, _, _, _, _, habsent⟩ := LruCache.lru_get_spec now key W1
    obtain ⟨_, _, _, _, _, hflag1, _, _⟩ := LruCache.lru_remove_spec key W1
    refine ⟨?_, hlen, ?_⟩
    · rw [habsent hmapnone]
    · rw [hflag1, hmapnone]
      rfl

theorem claim_C7_witness :
    0 < 1 ∧ 1 ≤ NIL ∧
    ((((SieveCache.new 1).run [CacheOp.insert 0 "k" s3Value]).remove "k").2 = true →
      (((((SieveCache.new 1).run [CacheOp.insert 0 "k" s3Value]).remove "k").1.get 0 "k").2 = none ∧
        ((((SieveCache.new 1).run [CacheOp.insert 0 "k" s3Value]).remove "k").1.arena.len + 1 = ((SieveCache.new 1).run [CacheOp.insert 0 "k" s3Value]).arena.len) ∧
        ((((SieveCache.new 1).run [CacheOp.insert 0 "k" s3Value]).remove "k").1.remove "k").2 = false)) :=
  ⟨by decide, by decide,
    (claim_C7_remove_semantics 1 0 "k" [CacheOp.insert 0 "k" s3Value]
      (by decide) (by decide)).1⟩

/-- C8: arena structural invariant — for every arena reachable from
`Arena.new capacity` by `push_head`/`remove`/`move_to_head`/`pop_tail`:
occupied slots plus free-list entries account for the whole capacity;
`head = NIL`, `tail = NIL` and `len = 0` are equivalent; and the occupied
slots are exactly the indices visited by walking `next` links from `head`,
and in reverse by walking `prev` links from `tail`. -/
theorem claim_C8_arena_invariant (capacity : Nat) (ops : List ArenaOp)
    (hcap : capacity ≤ NIL) :
    countOccupied (Arena.run (Arena.new capacity) ops) +
      (Arena.run (Arena.new capacity) ops).free_list.length = capacity ∧
    ((Arena.run (Arena.new capacity) ops).head = NIL ↔
      (Arena.run (Arena.new capacity) ops).len = 0) ∧
    ((Arena.run (Arena.new capacity) ops).tail = NIL ↔
      (Arena.run (Arena.new capacity) ops).len = 0) ∧
    ∃ xs, (∀ j, ((Arena.run (Arena.new capacity) ops).get j).isSome = true ↔ j ∈ xs) ∧
      nextChain (Arena.run (Arena.new capacity) ops)
        (Arena.run (Arena.new capacity) ops).len
        (Arena.run (Arena.new capacity) ops).head = xs ∧
      prevChain (Arena.run (Arena.new capacity) ops)
        (Arena.run (Arena.new capacity) ops).len
        (Arena.run (Arena.new capacity) ops).tail = xs.reverse := by
  obtain ⟨xs, W, hsz⟩ := Arena.run_inv hcap ops
  refine ⟨?_, W.head_nil_iff, W.tail_nil_iff, xs, fun j => W.get_isSome_iff j, ?_, ?_⟩
  · have h := W.count_free
    rw [hsz] at h
    exact h
  · have h := nextChain_of_dlseg W.seg W.mem_ne_nil
    rw [W.len_eq, W.head_eq]
    exact h
  · have h := prevChain_of_dlseg W.seg W.mem_ne_nil
    rw [W.len_eq, W.tail_eq]
    exact h

theorem claim_C8_witness :
    2 ≤ NIL ∧
    (countOccupied (Arena.run (Arena.new 2) []) +
      (Arena.run (Arena.new 2) []).free_list.length = 2 ∧
    ((Arena.run (Arena.new 2) []).head = NIL ↔
      (Arena.run (Arena.new 2) []).len = 0) ∧
    ((Arena.run (Arena.new 2) []).tail = NIL ↔
      (Arena.run (Arena.new 2) []).len = 0) ∧
    ∃ xs, (∀ j, ((Arena.run (Arena.new 2) []).get j).isSome = true ↔ j ∈ xs) ∧
      nextChain (Arena.run (Arena.new 2) [])
        (Arena.run (Arena.new 2) []).len
        (Arena.run (Arena.new 2) []).head = xs ∧
      prevChain (Arena.run (Arena.new 2) [])
        (Arena.run (Arena.new 2) []).len
        (Arena.run (Arena.new 2) []).tail = xs.reverse) :=
  ⟨by decide, claim_C8_arena_invariant 2 [] (by decide)⟩

/-- C9 (corrected): `Arena::remove` is total only on in-bounds indices.
Within bounds (`removeOutOfBounds` false) it returns the slot's node, or
`NONE` with the arena unchanged when the slot is empty.  The claim's
assertion that this extends to every index — including `NIL` — is refuted
by `claim_C9_counterexample`: the source reads `self.slots[index as usize]`
with direct indexing, which panics out of bounds. -/
theorem claim_C9_remove_in_bounds (a : Arena) (index : Nat)
    (hbounds : a.removeOutOfBounds index = false) :
    (a.remove index).2 = a.get index ∧
    (a.get index = none → a.remove index = (a, none)) := by
  cases hget : a.get index with
  | none =>
    have hres : a.remove index = (a, none) := by
      unfold Arena.remove
      rw [hget]
    rw [hres]
    exact ⟨rfl, fun _ => rfl⟩
  | some n =>
    refine ⟨?_, fun hnone => absurd hnone (by simp)⟩
    show (a.remove index).2 = some n
    unfold Arena.remove
    rw [hget]

theorem claim_C9_witness :
    (Arena.new 2).removeOutOfBounds 0 = false ∧
    (((Arena.new 2).remove 0).2 = (Arena.new 2).get 0 ∧
      ((Arena.new 2).get 0 = none → (Arena.new 2).remove 0 = (Arena.new 2, none))) :=
  ⟨by decide, claim_C9_remove_in_bounds (Arena.new 2) 0 (by decide)⟩

/-- C9's counterexample: the claim asserts `Arena::remove` does not panic
for every index including `NIL`, but on an arena of capacity 2 the index
`NIL` is out of bounds for the direct `self.slots[index as usize]` read, so
the source panics there. -/
theorem claim_C9_counterexample :
    (Arena.new 2).removeOutOfBounds NIL = true := by
  decide

/-- C10: sharded capacity split — `ShardedCache::new` invokes the factory
once per shard (64 shards, each with capacity `max(1, total/64)` by integer
division), so the aggregate `capacity()` is `64 * max(1, total/64)`; this
differs from `total_capacity` whenever it is not a positive multiple of 64
(for instance totals 10 and 100 both yield 64). -/
theorem claim_C10_sharded_split (total : Nat) {T : Type} (make : Nat → T) :
    (ShardedCache.new total make).shards
        = List.replicate NUM_SHARDS (make (max 1 (total / NUM_SHARDS))) ∧
    ShardedCache.capacity SieveCache.capacity (ShardedCache.new total SieveCache.new)
        = NUM_SHARDS * max 1 (total / NUM_SHARDS) ∧
    (¬(total % NUM_SHARDS = 0 ∧ 0 < total) →
      ShardedCache.capacity SieveCache.capacity (ShardedCache.new total SieveCache.new)
        ≠ total) ∧
    ShardedCache.capacity SieveCache.capacity (ShardedCache.new 10 SieveCache.new)
        = 64 ∧
    ShardedCache.capacity SieveCache.capacity (ShardedCache.new 100 SieveCache.new)
        = 64 := by
  have hmax : max (total / NUM_SHARDS) 1 = max 1 (total / NUM_SHARDS) :=
    Nat.max_comm _ _
  have hshards : ∀ {T2 : Type} (mk : Nat → T2), (ShardedCache.new total mk).shards
      = List.replicate NUM_SHARDS (mk (max 1 (total / NUM_SHARDS))) := by
    intro T2 mk
    show (List.range NUM_SHARDS).map (fun _ => mk (max (total / NUM_SHARDS) 1))
        = List.replicate NUM_SHARDS (mk (max 1 (total / NUM_SHARDS)))
    rw [hmax]
    refine List.eq_replicate_iff.mpr ⟨by simp, ?_⟩
    intro b hb
    simp only [List.mem_map, List.mem_range] at hb
    obtain ⟨i, _, hib⟩ := hb
    exact hib.symm
  have hcapeq : ShardedCache.capacity SieveCache.capacity
      (ShardedCache.new total SieveCache.new)
      = NUM_SHARDS * max 1 (total / NUM_SHARDS) := by
    show ((ShardedCache.new total SieveCache.new).shards.map SieveCache.capacity).sum
        = NUM_SHARDS * max 1 (total / NUM_SHARDS)
    rw [hshards SieveCache.new, List.map_replicate, List.sum_replicate, smul_eq_mul]
    rfl
  refine ⟨hshards make, hcapeq, ?_, by decide, by decide⟩
  intro hnot hEq
  rw [hcapeq] at hEq
  have h64 : NUM_SHARDS = 64 := rfl
  rw [h64] at hEq hnot
  by_cases hz : total / 64 = 0
  · rw [hz] at hEq
    have hm : max 1 0 = 1 := rfl
    rw [hm] at hEq
    omega
  · have h1 : 1 ≤ total / 64 := Nat.one_le_iff_ne_zero.mpr hz
    have hm : max 1 (total / 64) = total / 64 := Nat.max_eq_right h1
    rw [hm] at hEq
    exact hnot ⟨by omega, by omega⟩
